import Mathlib

/-!
# Symbolect Engine: a shallow embedding of `src/SymbolectEngine.jsx`

The development models the function `parseNaturalLanguage` (lines 126-264 of
`SymbolectEngine.jsx`) together with the two catalogs it reads, `symbolMap`
(lines 31-84) and `flowPatterns` (lines 87-124), the component state it
updates (lines 23-28) and the debounced effect that calls it (lines 266-274).
It also models the class `AIStatusService` of `src/backend/ai/statusService.js`.

Conventions of the embedding.

* A JavaScript string is the list of its UTF-16 code units (`JSString`), so
  that `.length`, `split`, `replace`, `includes` and the regular expressions
  see exactly what the engine sees.  String literals of the source are
  written as Lean string literals and encoded by `utf16`.
* A JavaScript number is `JSNum`: either `NaN` or a finite value, held as the
  rational it denotes.  Every arithmetic operation rounds its exact result to
  the nearest IEEE-754 binary64 value (`roundDouble`, ties to even), as the
  language does.  Infinities and the negative zero are not represented: the
  engine never divides a non-zero number by zero (the input has at least
  three code units, and the weight total is zero when no symbol is found),
  and its values stay far below the overflow threshold.
* `undefined` is `none` of an `Option`.
* What the engine obtains from its host is a parameter (`Host`): the result
  of `String.prototype.toLowerCase`, whose Unicode tables are outside the
  repository, and the successive results of `Math.random()`.
-/

namespace Symbolect

/-! ## Strings -/

/-- A JavaScript string: its sequence of UTF-16 code units. -/
abbrev JSString := List Nat

/-- UTF-16 code units of one Unicode scalar value. -/
def utf16Char (c : Char) : List Nat :=
  if c.toNat < 0x10000 then [c.toNat]
  else [0xD800 + (c.toNat - 0x10000) / 0x400, 0xDC00 + (c.toNat - 0x10000) % 0x400]

/-- UTF-16 encoding of a source literal. -/
def utf16 (s : String) : JSString :=
  s.toList.flatMap utf16Char

/-- The class `\s` of JavaScript regular expressions (WhiteSpace and
LineTerminator code units). -/
def isWhiteSpace (c : Nat) : Bool :=
  c == 0x09 || c == 0x0A || c == 0x0B || c == 0x0C || c == 0x0D || c == 0x20 ||
  c == 0xA0 || c == 0x1680 || (0x2000 ≤ c && c ≤ 0x200A) || c == 0x2028 ||
  c == 0x2029 || c == 0x202F || c == 0x205F || c == 0x3000 || c == 0xFEFF

/-- The class `\w` of JavaScript regular expressions: `[A-Za-z0-9_]`. -/
def isWordChar (c : Nat) : Bool :=
  (0x41 ≤ c && c ≤ 0x5A) || (0x61 ≤ c && c ≤ 0x7A) || (0x30 ≤ c && c ≤ 0x39) || c == 0x5F

/-- Line terminators, which `.` does not match. -/
def isLineTerminator (c : Nat) : Bool :=
  c == 0x0A || c == 0x0D || c == 0x2028 || c == 0x2029

/-- Worker of `splitWhiteSpace`: `cur` is the token being read (reversed) and
`inSep` tells that the previous code unit belonged to a separator run. -/
def splitWhiteSpaceAux : Bool → List Nat → JSString → List JSString
  | _, cur, [] => [cur.reverse]
  | inSep, cur, c :: cs =>
    if isWhiteSpace c then
      if inSep then splitWhiteSpaceAux true cur cs
      else cur.reverse :: splitWhiteSpaceAux true [] cs
    else splitWhiteSpaceAux false (c :: cur) cs

/-- The call `s.split(/\s+/)`: the pieces between maximal runs of white space
(a leading or trailing run yields an empty piece). -/
def splitWhiteSpace (s : JSString) : List JSString :=
  splitWhiteSpaceAux false [] s

/-- The call `word.replace(/[^\w]/g, '')`. -/
def removeNonWord (word : JSString) : JSString :=
  word.filter isWordChar

/-- Whether `pre` is a prefix of `s`, code unit by code unit. -/
def startsWith : JSString → JSString → Bool
  | [], _ => true
  | _ :: _, [] => false
  | p :: ps, c :: cs => p == c && startsWith ps cs

/-- The call `s.includes(sub)`. -/
def includes (s sub : JSString) : Bool :=
  s.tails.any (startsWith sub)

/-- ASCII lower-casing: what `toLowerCase` does to a string of ASCII code units. -/
def asciiLower (s : JSString) : JSString :=
  s.map (fun c => if 0x41 ≤ c && c ≤ 0x5A then c + 0x20 else c)

/-! ### The regular expressions of `flowPatterns`

The six patterns are alternations of literal words, one of which contains
`.?`; all carry the flag `i` and none the flags `g`, `y`, `u` or `s`, so that
`test` is stateless and works on code units. -/

/-- One element of an alternative. -/
inductive RegexAtom where
  /-- A literal code unit. -/
  | lit (c : Nat)
  /-- The element `.?`: at most one code unit that is not a line terminator. -/
  | optAny
  deriving DecidableEq, Repr

/-- Canonicalisation of the `i` flag without the `u` flag.  A code unit is
replaced by its upper-case form, except that a non-ASCII code unit is never
mapped to an ASCII one; the patterns hold ASCII letters only, so a non-ASCII
code unit can be left as it is. -/
def canonicalize (c : Nat) : Nat :=
  if 0x61 ≤ c && c ≤ 0x7A then c - 0x20 else c

/-- Whether the sequence of atoms matches a prefix of `s`. -/
def matchAtoms : List RegexAtom → JSString → Bool
  | [], _ => true
  | RegexAtom.lit c :: rest, s =>
    match s with
    | [] => false
    | x :: xs => canonicalize x == canonicalize c && matchAtoms rest xs
  | RegexAtom.optAny :: rest, s =>
    (match s with
     | [] => false
     | x :: xs => !isLineTerminator x && matchAtoms rest xs) || matchAtoms rest s

/-- A pattern: the list of its alternatives. -/
abbrev Regex := List (List RegexAtom)

/-- The call `pattern.test(input)`: some alternative matches at some position. -/
def Regex.test (r : Regex) (input : JSString) : Bool :=
  input.tails.any (fun t => r.any (fun alt => matchAtoms alt t))

/-- The literal word `w` as a sequence of atoms. -/
def word (w : String) : List RegexAtom :=
  (utf16 w).map RegexAtom.lit

/-! ## Numbers -/

/-- Round to the nearest integer, ties to the even one. -/
def roundHalfEven (q : ℚ) : ℤ :=
  if q - ⌊q⌋ < 1 / 2 then ⌊q⌋
  else if 1 / 2 < q - ⌊q⌋ then ⌊q⌋ + 1
  else if ⌊q⌋ % 2 = 0 then ⌊q⌋ else ⌊q⌋ + 1

/-- Number of binary digits of `n`, by halving at most `fuel` times. -/
def bitLengthAux : Nat → Nat → Nat
  | 0, _ => 0
  | fuel + 1, n => if n = 0 then 0 else bitLengthAux fuel (n / 2) + 1

/-- Number of binary digits of `n` (`0` for `0`). -/
def bitLength (n : Nat) : Nat := bitLengthAux n n

/-- The binary exponent of a non-zero `q`: the `e` with `2 ^ e ≤ |q| < 2 ^ (e + 1)`. -/
def binaryExponent (q : ℚ) : ℤ :=
  if (2 : ℚ) ^ ((bitLength q.num.natAbs : ℤ) - (bitLength q.den : ℤ)) ≤ |q|
  then (bitLength q.num.natAbs : ℤ) - (bitLength q.den : ℤ)
  else (bitLength q.num.natAbs : ℤ) - (bitLength q.den : ℤ) - 1

/-- Rounding of an exact result to binary64, nearest with ties to even: 53
significant bits, and the fixed spacing `2 ^ (-1074)` below `2 ^ (-1022)`. -/
def roundDouble (q : ℚ) : ℚ :=
  if q = 0 then 0
  else roundHalfEven (q / (2 : ℚ) ^ (max (binaryExponent q) (-1022) - 52))
        * (2 : ℚ) ^ (max (binaryExponent q) (-1022) - 52)

/-- A JavaScript number of the engine: `NaN` or a finite value. -/
inductive JSNum where
  | nan
  | fin (q : ℚ)
  deriving DecidableEq, Repr

namespace JSNum

/-- A decimal literal of the source: the binary64 value nearest to it. -/
def lit (q : ℚ) : JSNum := fin (roundDouble q)

/-- The integer `n` as a number (a length or a count, below `2 ^ 53`). -/
def ofNat (n : Nat) : JSNum := fin n

/-- ToNumber of a property that may be `undefined`. -/
def ofOption : Option JSNum → JSNum
  | some x => x
  | none => nan

/-- The operator `+` on numbers. -/
def add : JSNum → JSNum → JSNum
  | fin a, fin b => fin (roundDouble (a + b))
  | _, _ => nan

/-- The operator `-` on numbers. -/
def sub : JSNum → JSNum → JSNum
  | fin a, fin b => fin (roundDouble (a - b))
  | _, _ => nan

/-- The operator `*` on numbers. -/
def mul : JSNum → JSNum → JSNum
  | fin a, fin b => fin (roundDouble (a * b))
  | _, _ => nan

/-- The operator `/` on numbers; `0 / 0` is `NaN`.  (A non-zero number over
zero, an infinity in JavaScript, does not occur in the engine.) -/
def div : JSNum → JSNum → JSNum
  | fin a, fin b => if b = 0 then nan else fin (roundDouble (a / b))
  | _, _ => nan

/-- The function `Math.floor`. -/
def floor : JSNum → JSNum
  | fin a => fin ⌊a⌋
  | nan => nan

/-- The function `Math.min` of two arguments. -/
def min : JSNum → JSNum → JSNum
  | fin a, fin b => fin (if a ≤ b then a else b)
  | _, _ => nan

/-- The comparison `x <= y` of JavaScript: false as soon as one side is `NaN`. -/
def le : JSNum → JSNum → Bool
  | fin a, fin b => decide (a ≤ b)
  | _, _ => false

/-- The comparison `x < y` of JavaScript: false as soon as one side is `NaN`. -/
def lt : JSNum → JSNum → Bool
  | fin a, fin b => decide (a < b)
  | _, _ => false

end JSNum

/-! ## The catalogs -/

/-- The value of a `symbolMap` entry as the engine reads it: each of the three
properties may be `undefined`. -/
structure SymbolData where
  symbol : Option JSString
  category : Option JSString
  weight : Option JSNum
  deriving DecidableEq, Repr

/-- The object literal `symbolMap` (lines 31-84): keyword, symbol, category, weight. -/
def symbolMap : List (String × String × String × ℚ) := [
  -- Authentication & Security
  ("authentication", "🔐", "security", 0.9),
  ("login", "🚪", "security", 0.8),
  ("password", "🔑", "security", 0.8),
  ("security", "🛡️", "security", 0.9),
  ("encryption", "🔒", "security", 0.8),
  ("token", "🎫", "security", 0.7),
  -- User Interface
  ("user", "👤", "ui", 0.7),
  ("form", "📝", "ui", 0.8),
  ("button", "🔘", "ui", 0.6),
  ("modal", "🪟", "ui", 0.7),
  ("dropdown", "🔽", "ui", 0.6),
  ("navigation", "🧭", "ui", 0.7),
  ("menu", "☰", "ui", 0.6),
  -- Data & Storage
  ("database", "🗄️", "data", 0.9),
  ("api", "🔌", "data", 0.8),
  ("storage", "💾", "data", 0.7),
  ("cache", "⚡", "data", 0.6),
  ("backup", "💿", "data", 0.7),
  -- Operations
  ("create", "➕", "operation", 0.8),
  ("read", "👁️", "operation", 0.7),
  ("update", "🔄", "operation", 0.8),
  ("delete", "🗑️", "operation", 0.8),
  ("search", "🔍", "operation", 0.7),
  ("filter", "🔽", "operation", 0.6),
  ("sort", "📊", "operation", 0.6),
  -- System & Architecture
  ("frontend", "🖥️", "system", 0.8),
  ("backend", "⚙️", "system", 0.8),
  ("server", "🖥️", "system", 0.7),
  ("client", "💻", "system", 0.7),
  ("microservice", "🔗", "system", 0.8),
  -- Validation & Testing
  ("validation", "✅", "validation", 0.7),
  ("test", "🧪", "validation", 0.8),
  ("error", "❌", "validation", 0.6),
  ("success", "✨", "validation", 0.6),
  ("loading", "⏳", "validation", 0.5),
  -- Communication
  ("email", "📧", "communication", 0.7),
  ("notification", "🔔", "communication", 0.7),
  ("message", "💬", "communication", 0.6),
  ("chat", "💭", "communication", 0.7)]

/-- The property names that `symbolMap`, an object literal, inherits from
`Object.prototype`.  Each of them holds an object or a function, hence a
truthy value on which `symbol`, `category` and `weight` are `undefined`. -/
def objectPrototypeKeys : List String := [
  "constructor", "__proto__", "hasOwnProperty", "isPrototypeOf",
  "propertyIsEnumerable", "toLocaleString", "toString", "valueOf",
  "__defineGetter__", "__defineSetter__", "__lookupGetter__", "__lookupSetter__"]

/-- Own-property search in `symbolMap`. -/
def ownLookup (key : JSString) :
    List (String × String × String × ℚ) → Option SymbolData
  | [] => none
  | (k, s, c, w) :: rest =>
    if utf16 k = key then
      some { symbol := some (utf16 s), category := some (utf16 c), weight := some (JSNum.lit w) }
    else ownLookup key rest

/-- The property access `symbolMap[key]`: `none` when the value is `undefined`
(falsy), otherwise the truthy value found, an own entry first and an inherited
member of `Object.prototype` otherwise. -/
def symbolMapGet (key : JSString) : Option SymbolData :=
  match ownLookup key symbolMap with
  | some d => some d
  | none =>
    if objectPrototypeKeys.any (fun k => utf16 k == key) then
      some { symbol := none, category := none, weight := none }
    else none

/-- An element of `flowPatterns`. -/
structure FlowPattern where
  pattern : Regex
  symbols : List JSString
  flow : JSString
  description : JSString

/-- The array `flowPatterns` (lines 87-124). -/
def flowPatterns : List FlowPattern := [
  { pattern := [word "login", word "auth", word "sign" ++ [RegexAtom.optAny] ++ word "in"],
    symbols := [utf16 "🔐", utf16 "👤", utf16 "🚪"],
    flow := utf16 "🔐→👤→✅",
    description := utf16 "Authentication Flow" },
  { pattern := [word "form", word "submit", word "save"],
    symbols := [utf16 "📝", utf16 "💾", utf16 "✅"],
    flow := utf16 "📝→💾→✅",
    description := utf16 "Form Submission Flow" },
  { pattern := [word "search", word "find", word "query"],
    symbols := [utf16 "🔍", utf16 "🗄️", utf16 "📊"],
    flow := utf16 "🔍→🗄️→📊",
    description := utf16 "Search & Retrieval Flow" },
  { pattern := [word "crud", word "create", word "read", word "update", word "delete"],
    symbols := [utf16 "➕", utf16 "👁️", utf16 "🔄", utf16 "🗑️"],
    flow := utf16 "➕→👁️→🔄→🗑️",
    description := utf16 "CRUD Operations Flow" },
  { pattern := [word "payment", word "checkout", word "purchase"],
    symbols := [utf16 "💳", utf16 "🛒", utf16 "✅"],
    flow := utf16 "💳→🛒→✅",
    description := utf16 "Payment Flow" },
  { pattern := [word "upload", word "file", word "document"],
    symbols := [utf16 "📤", utf16 "📁", utf16 "💾"],
    flow := utf16 "📤→📁→💾",
    description := utf16 "File Upload Flow" }]

/-! ## The engine -/

/-- What the engine obtains from its host. -/
structure Host where
  /-- The method `String.prototype.toLowerCase`. -/
  toLowerCase : JSString → JSString
  /-- The value returned by the `k`-th call of `Math.random()` during one
  invocation (counting from `0`); a number of `[0, 1)`. -/
  random : Nat → ℚ

/-- The property `source` of a detected symbol. -/
inductive Source where
  | direct
  | pattern
  | contextual
  deriving DecidableEq, Repr

/-- An element of `detectedSymbols`.  The property `flow` is set (to `true`)
on pattern entries only; its absence, which is falsy, is `false`. -/
structure SymbolEntry where
  symbol : Option JSString
  meaning : JSString
  category : Option JSString
  confidence : JSNum
  source : Source
  flow : Bool
  deriving DecidableEq, Repr

/-- The locals that stages 1 to 3 update, with the number of calls of
`Math.random()` made so far. -/
structure Detection where
  detectedSymbols : List SymbolEntry
  totalConfidence : JSNum
  randomCalls : Nat
  deriving DecidableEq, Repr

/-- The expression `Math.random() * 0.1`, for the `k`-th call of `Math.random()`. -/
def jitter (H : Host) (k : Nat) : JSNum :=
  JSNum.mul (JSNum.fin (H.random k)) (JSNum.lit 0.1)

/-- The callback of `words.forEach` (lines 142-155). -/
def directStep (H : Host) (st : Detection) (word : JSString) : Detection :=
  match symbolMapGet (removeNonWord word) with
  | none => st
  | some symbolData =>
    { detectedSymbols := st.detectedSymbols ++ [{
        symbol := symbolData.symbol
        meaning := removeNonWord word
        category := symbolData.category
        confidence := JSNum.add (JSNum.ofOption symbolData.weight) (jitter H st.randomCalls)
        source := Source.direct
        flow := false }]
      totalConfidence := JSNum.add st.totalConfidence (JSNum.ofOption symbolData.weight)
      randomCalls := st.randomCalls + 1 }

/-- The callback of `flowPatterns.forEach` (lines 161-173). -/
def patternStep (H : Host) (input : JSString) (st : Detection) (pattern : FlowPattern) :
    Detection :=
  if pattern.pattern.test input then
    { detectedSymbols := st.detectedSymbols ++ [{
        symbol := some pattern.flow
        meaning := pattern.description
        category := some (utf16 "flow")
        confidence := JSNum.add (JSNum.lit 0.85) (jitter H st.randomCalls)
        source := Source.pattern
        flow := true }]
      totalConfidence := JSNum.add st.totalConfidence (JSNum.lit 0.8)
      randomCalls := st.randomCalls + 1 }
  else st

/-- The entry pushed by the rule on `user` and `management` (lines 181-187). -/
def userManagementEntry : SymbolEntry :=
  { symbol := some (utf16 "👥→⚙️")
    meaning := utf16 "user_management_system"
    category := some (utf16 "system")
    confidence := JSNum.lit 0.9
    source := Source.contextual
    flow := false }

/-- The entry pushed by the rule on `real` and `time` (lines 191-197). -/
def realTimeEntry : SymbolEntry :=
  { symbol := some (utf16 "⚡→🔄")
    meaning := utf16 "real_time_updates"
    category := some (utf16 "system")
    confidence := JSNum.lit 0.85
    source := Source.contextual
    flow := false }

/-- The contextual rules (lines 180-198): two `if` statements on the input. -/
def contextualStep (input : JSString) (st : Detection) : Detection :=
  let st1 : Detection :=
    if includes input (utf16 "user") && includes input (utf16 "management") then
      { st with detectedSymbols := st.detectedSymbols ++ [userManagementEntry] }
    else st
  if includes input (utf16 "real") && includes input (utf16 "time") then
    { st1 with detectedSymbols := st1.detectedSymbols ++ [realTimeEntry] }
  else st1

/-- The constant `words` (line 137). -/
def words (H : Host) (input : JSString) : List JSString :=
  splitWhiteSpace (H.toLowerCase input)

/-- The locals after stage 1 (lines 137-155). -/
def directStage (H : Host) (input : JSString) : Detection :=
  (words H input).foldl (directStep H)
    { detectedSymbols := [], totalConfidence := JSNum.lit 0, randomCalls := 0 }

/-- The locals after stage 2 (lines 161-173). -/
def patternStage (H : Host) (input : JSString) : Detection :=
  flowPatterns.foldl (patternStep H input) (directStage H input)

/-- The locals after stage 3 (lines 180-198). -/
def detect (H : Host) (input : JSString) : Detection :=
  contextualStep input (patternStage H input)

/-- The array `detectedSymbols` when stage 4 starts. -/
def detectedSymbols (H : Host) (input : JSString) : List SymbolEntry :=
  (detect H input).detectedSymbols

/-- The variable `totalConfidence` when stage 4 starts. -/
def totalConfidence (H : Host) (input : JSString) : JSNum :=
  (detect H input).totalConfidence

/-- Worker of `findIndex`: `i` is the index of the head. -/
def findIndexFrom {α : Type} (p : α → Bool) : Nat → List α → Int
  | _, [] => -1
  | i, x :: xs => if p x then (i : Int) else findIndexFrom p (i + 1) xs

/-- The method `Array.prototype.findIndex`: the index of the first element
that satisfies `p`, or `-1`. -/
def findIndex {α : Type} (p : α → Bool) (self : List α) : Int :=
  findIndexFrom p 0 self

/-- The method `Array.prototype.filter`, whose callback receives the element,
its index and the array. -/
def filterWithIndex {α : Type} (p : α → Nat → List α → Bool) (self : List α) : List α :=
  (self.enum.filter (fun ix => p ix.2 ix.1 self)).map Prod.snd

/-- The filter of lines 205-207: keep the element at `index` when `index` is
the first position holding its `symbol`. -/
def dedupFilter (detected : List SymbolEntry) : List SymbolEntry :=
  filterWithIndex
    (fun symbol index self =>
      decide ((index : Int) = findIndex (fun s => decide (s.symbol = symbol.symbol)) self))
    detected

/-- The comparator of line 210: `(a, b) => b.confidence - a.confidence`. -/
def compareConfidence (a b : SymbolEntry) : JSNum :=
  JSNum.sub b.confidence a.confidence

/-- Insertion of `x` in front of a sorted list: `x` passes the elements that
the comparator puts strictly before it (a positive result), and stops at the
first other one; a `NaN` result counts as `+0`. -/
def sortInsert {α : Type} (cmp : α → α → JSNum) (x : α) : List α → List α
  | [] => [x]
  | y :: ys =>
    if JSNum.lt (JSNum.fin 0) (cmp x y) then y :: sortInsert cmp x ys
    else x :: y :: ys

/-- The method `Array.prototype.sort` with a comparator, as a stable insertion
sort.  The language fixes the result (the stable sorted order) whenever the
comparator is consistent; for other comparators it leaves the order to the
implementation, and this definition is one such choice. -/
def arraySort {α : Type} (cmp : α → α → JSNum) : List α → List α
  | [] => []
  | x :: xs => sortInsert cmp x (arraySort cmp xs)

/-- The array `uniqueSymbols` once sorted (lines 205-210). -/
def uniqueSymbols (H : Host) (input : JSString) : List SymbolEntry :=
  arraySort compareConfidence (dedupFilter (detectedSymbols H input))

/-- The method `Array.prototype.join`: an `undefined` element is rendered as
the empty string. -/
def join (sep : JSString) : List (Option JSString) → JSString
  | [] => []
  | [x] => x.getD []
  | x :: y :: rest => x.getD [] ++ sep ++ join sep (y :: rest)

/-- The elements of `new Set(xs)`, in insertion order. -/
def setElements {α : Type} [DecidableEq α] (xs : List α) : List α :=
  xs.foldl (fun acc x => if x ∈ acc then acc else acc ++ [x]) []

/-- The object `stats` (lines 217-224). -/
structure Stats where
  originalLength : Nat
  compressedLength : Nat
  compressionRatio : JSNum
  symbolCount : Nat
  tokenReduction : JSNum
  categories : Nat
  deriving DecidableEq, Repr

/-- The constant `compressedLength` (line 214). -/
def compressedLength (unique : List SymbolEntry) : Nat :=
  (join [] (unique.map (fun s => s.symbol))).length

/-- The constant `compressionRatio` (line 215). -/
def compressionRatio (compressedLength originalLength : Nat) : JSNum :=
  JSNum.floor
    (JSNum.mul
      (JSNum.sub (JSNum.lit 1)
        (JSNum.div (JSNum.ofNat compressedLength) (JSNum.ofNat originalLength)))
      (JSNum.lit 100))

/-- The object `stats` built from the input and the sorted `uniqueSymbols`. -/
def stats (input : JSString) (unique : List SymbolEntry) : Stats :=
  { originalLength := input.length
    compressedLength := compressedLength unique
    compressionRatio := compressionRatio (compressedLength unique) input.length
    symbolCount := unique.length
    tokenReduction := compressionRatio (compressedLength unique) input.length
    categories := (setElements (unique.map (fun s => s.category))).length }

/-- The expression `Math.min(totalConfidence / uniqueSymbols.length, 1.0)`
(lines 227, 240 and 247). -/
def aggregateConfidence (total : JSNum) (unique : List SymbolEntry) : JSNum :=
  JSNum.min (JSNum.div total (JSNum.ofNat unique.length)) (JSNum.lit 1.0)

/-- The argument of `onSymbolGenerated` (lines 244-250). -/
structure PipelineResult where
  compressed : JSString
  symbols : List SymbolEntry
  confidence : JSNum
  stats : Stats
  flows : List SymbolEntry
  deriving DecidableEq, Repr

/-- The values computed by the `try` block for an input that passed the guard
of line 127 (lines 137-250). -/
def processInput (H : Host) (input : JSString) : PipelineResult :=
  { compressed := join (utf16 "⨹") ((uniqueSymbols H input).map (fun s => s.symbol))
    symbols := uniqueSymbols H input
    confidence := aggregateConfidence (totalConfidence H input) (uniqueSymbols H input)
    stats := stats input (uniqueSymbols H input)
    flows := (uniqueSymbols H input).filter (fun s => s.flow) }

/-- The result that `parseNaturalLanguage` hands to `onSymbolGenerated`:
`none` when the guard `!input || input.length < 3` returns at once. -/
def parseNaturalLanguage (H : Host) (input : JSString) : Option PipelineResult :=
  if input.length < 3 then none else some (processInput H input)

/-- A host for inputs made of ASCII code units, on which `toLowerCase` is the
ASCII lower-casing; `random k` is the result of the `k`-th call of
`Math.random()`. -/
def asciiHost (random : Nat → ℚ) : Host :=
  { toLowerCase := asciiLower, random := random }

/-! ## The component state

One invocation of `parseNaturalLanguage` is taken as a whole: the state
setters it calls are applied in program order and the pauses between the
stages (`setTimeout`) are not represented.  What the invocation does besides
updating the state is recorded as a list of events. -/

/-- An element of `symbolHistory` (lines 235-241). -/
structure HistoryEntry where
  input : JSString
  symbols : List SymbolEntry
  compressed : JSString
  /-- The value of `new Date()`, in milliseconds. -/
  timestamp : Nat
  confidence : JSNum
  deriving DecidableEq, Repr

/-- The state of the component (the six `useState` cells, lines 23-28). -/
structure EngineState where
  symbols : List SymbolEntry
  isProcessing : Bool
  confidence : JSNum
  compressionStats : Option Stats
  processingStage : JSString
  symbolHistory : List HistoryEntry
  deriving DecidableEq, Repr

/-- The state of a freshly mounted component. -/
def EngineState.initial : EngineState :=
  { symbols := []
    isProcessing := false
    confidence := JSNum.lit 0
    compressionStats := none
    processingStage := utf16 ""
    symbolHistory := [] }

/-- How a call of a callback ends. -/
inductive Outcome where
  | returns
  | throws
  deriving DecidableEq, Repr

/-- The two callback props, as far as the engine can tell them apart: whether
a call returns or throws.  `onCompressionComplete` is optional. -/
structure Callbacks where
  onSymbolGenerated : PipelineResult → Outcome
  onCompressionComplete : Option (Stats → Outcome)

/-- What one invocation gets from outside, besides its argument: the host,
the callback props and the value of `new Date()`. -/
structure Environment where
  host : Host
  callbacks : Callbacks
  now : Nat

/-- What an invocation does besides updating the state. -/
inductive Event where
  /-- A call `setProcessingStage(label)`. -/
  | setProcessingStage (label : JSString)
  /-- A call of `onSymbolGenerated`. -/
  | onSymbolGenerated (result : PipelineResult)
  /-- A call of `onCompressionComplete`. -/
  | onCompressionComplete (stats : Stats)
  /-- The call of `console.error` in the `catch` block. -/
  | consoleError
  deriving DecidableEq, Repr

/-- The `input` property of a history entry (line 236):
`input.substring(0, 50) + (input.length > 50 ? '...' : '')`. -/
def historyInput (input : JSString) : JSString :=
  input.take 50 ++ (if input.length > 50 then utf16 "..." else utf16 "")

/-- The history entry built on lines 235-241. -/
def historyEntry (now : Nat) (input : JSString) (result : PipelineResult) : HistoryEntry :=
  { input := historyInput input
    symbols := result.symbols
    compressed := result.compressed
    timestamp := now
    confidence := result.confidence }

/-- The update of line 235-241: `prev => [entry, ...prev.slice(0, 4)]`. -/
def pushHistory (entry : HistoryEntry) (prev : List HistoryEntry) : List HistoryEntry :=
  entry :: prev.take 4

/-- The stage labels set before the result is stored (lines 130-202). -/
def stageLabels : List JSString :=
  [utf16 "Analyzing input...", utf16 "Detecting symbols...", utf16 "Recognizing patterns...",
   utf16 "Enhancing context...", utf16 "Optimizing compression..."]

/-- The state once lines 226-241 have run: symbols, confidence, statistics
and history are stored. -/
def EngineState.stored (st : EngineState) (now : Nat) (input : JSString)
    (result : PipelineResult) : EngineState :=
  { st with
    symbols := result.symbols
    isProcessing := true
    confidence := result.confidence
    compressionStats := some result.stats
    processingStage := utf16 "Optimizing compression..."
    symbolHistory := pushHistory (historyEntry now input result) st.symbolHistory }

/-- The `catch` block (lines 256-259). -/
def EngineState.caught (st : EngineState) : EngineState :=
  { st with symbols := [], confidence := JSNum.lit 0 }

/-- The `finally` block (lines 260-263). -/
def EngineState.finished (st : EngineState) : EngineState :=
  { st with isProcessing := false, processingStage := utf16 "" }

/-- The function `parseNaturalLanguage` (lines 126-264) on the component
state: the state it leaves and the events of the invocation.  The stages
themselves raise no exception; a callback may. -/
def EngineState.parseNaturalLanguage (st : EngineState) (env : Environment)
    (input : JSString) : EngineState × List Event :=
  match Symbolect.parseNaturalLanguage env.host input with
  | none => (st, [])
  | some result =>
    match env.callbacks.onSymbolGenerated result with
    | Outcome.throws =>
      (((st.stored env.now input result).caught).finished,
        stageLabels.map Event.setProcessingStage ++
          [Event.onSymbolGenerated result, Event.consoleError,
           Event.setProcessingStage (utf16 "")])
    | Outcome.returns =>
      match env.callbacks.onCompressionComplete with
      | none =>
        ((st.stored env.now input result).finished,
          stageLabels.map Event.setProcessingStage ++
            [Event.onSymbolGenerated result, Event.setProcessingStage (utf16 "")])
      | some onCompressionComplete =>
        match onCompressionComplete result.stats with
        | Outcome.returns =>
          ((st.stored env.now input result).finished,
            stageLabels.map Event.setProcessingStage ++
              [Event.onSymbolGenerated result, Event.onCompressionComplete result.stats,
               Event.setProcessingStage (utf16 "")])
        | Outcome.throws =>
          (((st.stored env.now input result).caught).finished,
            stageLabels.map Event.setProcessingStage ++
              [Event.onSymbolGenerated result, Event.onCompressionComplete result.stats,
               Event.consoleError, Event.setProcessingStage (utf16 "")])

/-- The condition of the debounced effect (line 268):
`naturalLanguageInput && naturalLanguageInput.length > 10`, where the prop
is `none` when it is `undefined` or `null`. -/
def shouldParse (naturalLanguageInput : Option JSString) : Bool :=
  match naturalLanguageInput with
  | none => false
  | some input => !input.isEmpty && decide (input.length > 10)

/-- The callback of `debounceTimer` (lines 267-271), run once the prop has
been stable for one second. -/
def EngineState.debounceTimer (st : EngineState) (env : Environment)
    (naturalLanguageInput : Option JSString) : EngineState × List Event :=
  match naturalLanguageInput with
  | none => (st, [])
  | some input =>
    if shouldParse (some input) then st.parseNaturalLanguage env input else (st, [])

/-- The state after a sequence of invocations of `parseNaturalLanguage`. -/
def EngineState.run (st : EngineState) : List (Environment × JSString) → EngineState
  | [] => st
  | call :: rest => ((st.parseNaturalLanguage call.1 call.2).1).run rest

/-- Callbacks that return. -/
def quietCallbacks : Callbacks :=
  { onSymbolGenerated := fun _ => Outcome.returns
    onCompressionComplete := some (fun _ => Outcome.returns) }

/-- An environment for ASCII inputs, with jitter `0` and callbacks that return. -/
def asciiEnvironment (now : Nat) : Environment :=
  { host := asciiHost (fun _ => 0), callbacks := quietCallbacks, now := now }

/-- Callback props of a component mounted without them: the unguarded call
of `onSymbolGenerated` (line 244) raises a `TypeError`, and the guard of
line 252 skips `onCompressionComplete`. -/
def missingCallbacks : Callbacks :=
  { onSymbolGenerated := fun _ => Outcome.throws
    onCompressionComplete := none }

/-- Callback props of which the second throws. -/
def failingCompletionCallbacks : Callbacks :=
  { onSymbolGenerated := fun _ => Outcome.returns
    onCompressionComplete := some (fun _ => Outcome.throws) }

/-! ## The status service

The class `AIStatusService` of `src/backend/ai/statusService.js`.  Agent
identifiers and statuses are strings and confidences are numbers; a number is
held as it was passed (the service does no arithmetic), the two zeros are not
told apart, and the order in which `Object.values` lists the records is the
order of their creation (the service counts the records and takes a minimum,
which do not depend on the order).  No listener of `statusChange` is
registered in the repository: `emit` is represented by its payload. -/

/-- A number held by the status service: `NaN`, an infinity or a finite value. -/
inductive ExtNum where
  | nan
  | negInf
  | fin (q : ℚ)
  | posInf
  deriving DecidableEq, Repr

/-- The function `Math.min` on two numbers. -/
def ExtNum.min2 : ExtNum → ExtNum → ExtNum
  | ExtNum.nan, _ => ExtNum.nan
  | _, ExtNum.nan => ExtNum.nan
  | ExtNum.negInf, _ => ExtNum.negInf
  | _, ExtNum.negInf => ExtNum.negInf
  | ExtNum.posInf, y => y
  | x, ExtNum.posInf => x
  | ExtNum.fin a, ExtNum.fin b => ExtNum.fin (if a ≤ b then a else b)

/-- The call `Math.min(...xs)`: `Infinity` for no argument, `NaN` as soon as
one argument is `NaN`. -/
def mathMin (xs : List ExtNum) : ExtNum :=
  xs.foldl ExtNum.min2 ExtNum.posInf

/-- The comparison `x <= y` of the language. -/
def ExtNum.le : ExtNum → ExtNum → Bool
  | ExtNum.nan, _ => false
  | _, ExtNum.nan => false
  | ExtNum.negInf, _ => true
  | _, ExtNum.posInf => true
  | ExtNum.fin a, ExtNum.fin b => decide (a ≤ b)
  | _, _ => false

/-- A record `{ status, confidence }` of `agents`. -/
structure AgentRecord where
  status : JSString
  confidence : ExtNum
  deriving DecidableEq, Repr

/-- The object `this.agents`: its own properties, in creation order, and its
prototype, which is `Object.prototype` (`none`) until an assignment to the
key `__proto__` replaces it by the record assigned. -/
structure AgentsObject where
  own : List (JSString × AgentRecord)
  proto : Option AgentRecord
  deriving DecidableEq, Repr

/-- Search of an own property. -/
def lookupOwn : List (JSString × AgentRecord) → JSString → Option AgentRecord
  | [], _ => none
  | (k, v) :: rest, key => if k = key then some v else lookupOwn rest key

/-- Creation or update of an own property: an existing key keeps its place. -/
def setOwn : List (JSString × AgentRecord) → JSString → AgentRecord →
    List (JSString × AgentRecord)
  | [], key, r => [(key, r)]
  | (k, v) :: rest, key, r =>
    if k = key then (k, r) :: rest else (k, v) :: setOwn rest key r

/-- The assignment `this.agents[key] = r`.  The key `__proto__` reaches the
setter inherited from `Object.prototype`, which makes `r` the prototype of
`agents` and creates no property; any other key creates or updates an own
property. -/
def AgentsObject.set (o : AgentsObject) (key : JSString) (r : AgentRecord) : AgentsObject :=
  if key = utf16 "__proto__" then { o with proto := some r }
  else { o with own := setOwn o.own key r }

/-- What a property read of `agents` can yield. -/
inductive PropertyValue where
  | undefined
  /-- A record `{ status, confidence }`. -/
  | record (r : AgentRecord)
  /-- A string: the `status` of a record that became the prototype. -/
  | string (s : JSString)
  /-- A number: the `confidence` of a record that became the prototype. -/
  | number (x : ExtNum)
  /-- The member `name` of `Object.prototype` (for `__proto__`, the object
  `Object.prototype` itself): a function or an object, without `status` or
  `confidence`. -/
  | builtin (name : JSString)
  deriving DecidableEq, Repr

/-- The property read `this.agents[key]`: an own property first, then the
prototype chain. -/
def AgentsObject.get (o : AgentsObject) (key : JSString) : PropertyValue :=
  match lookupOwn o.own key with
  | some r => PropertyValue.record r
  | none =>
    match o.proto with
    | some r =>
      if key = utf16 "status" then PropertyValue.string r.status
      else if key = utf16 "confidence" then PropertyValue.number r.confidence
      else if key = utf16 "__proto__" then PropertyValue.record r
      else if objectPrototypeKeys.any (fun k => utf16 k == key) then PropertyValue.builtin key
      else PropertyValue.undefined
    | none =>
      if objectPrototypeKeys.any (fun k => utf16 k == key) then PropertyValue.builtin key
      else PropertyValue.undefined

/-- Whether a value is truthy. -/
def PropertyValue.truthy : PropertyValue → Bool
  | PropertyValue.undefined => false
  | PropertyValue.record _ => true
  | PropertyValue.string s => !s.isEmpty
  | PropertyValue.number x => !(x == ExtNum.nan || x == ExtNum.fin 0)
  | PropertyValue.builtin _ => true

/-- The fields of an `AIStatusService`. -/
structure AIStatusService where
  status : JSString
  confidence : ExtNum
  agents : AgentsObject
  deriving DecidableEq, Repr

/-- The constructor (lines 6-11). -/
def AIStatusService.new : AIStatusService :=
  { status := utf16 "idle"
    confidence := ExtNum.fin 1.0
    agents := { own := [], proto := none } }

/-- The method `updateOverallStatus` (lines 19-27). -/
def AIStatusService.updateOverallStatus (sv : AIStatusService) : AIStatusService :=
  let activeStates :=
    ((sv.agents.own.map Prod.snd).map (fun agent => agent.status)).filter
      (fun s => decide (s ≠ utf16 "idle"))
  { sv with
    status := if activeStates.length > 0 then utf16 "active" else utf16 "idle"
    confidence := mathMin ((sv.agents.own.map Prod.snd).map (fun agent => agent.confidence)) }

/-- The payload of the event `statusChange`. -/
structure StatusChange where
  agentId : JSString
  status : JSString
  confidence : ExtNum
  deriving DecidableEq, Repr

/-- The method `setStatus` (lines 13-17): the service it leaves and the event
it emits.  The argument `confidence` is `none` when it is omitted or
`undefined`, and then takes the default `1.0`. -/
def AIStatusService.setStatus (sv : AIStatusService) (agentId status : JSString)
    (confidence : Option ExtNum) : AIStatusService × StatusChange :=
  ({ sv with
      agents := sv.agents.set agentId
        { status := status, confidence := confidence.getD (ExtNum.fin 1.0) }
    }.updateOverallStatus,
    { agentId := agentId, status := status, confidence := confidence.getD (ExtNum.fin 1.0) })

/-- The method `getAgentStatus` (lines 29-31). -/
def AIStatusService.getAgentStatus (sv : AIStatusService) (agentId : JSString) : PropertyValue :=
  if (sv.agents.get agentId).truthy then sv.agents.get agentId
  else PropertyValue.record { status := utf16 "idle", confidence := ExtNum.fin 1.0 }

/-- The service after a sequence of calls of `setStatus`. -/
def AIStatusService.run (sv : AIStatusService) :
    List (JSString × JSString × Option ExtNum) → AIStatusService
  | [] => sv
  | call :: rest => ((sv.setStatus call.1 call.2.1 call.2.2).1).run rest

/-- The minimum of a list of numbers: a member that is `<=` every member. -/
def IsMinimumOf (m : ExtNum) (xs : List ExtNum) : Prop :=
  m ∈ xs ∧ ∀ x ∈ xs, ExtNum.le m x = true

/-- The records of the agents, as `Object.values(this.agents)` lists them. -/
def AIStatusService.records (sv : AIStatusService) : List AgentRecord :=
  sv.agents.own.map Prod.snd

/-! ## Specification-side definitions -/

/-- The deduplication policy in the words of the specification: going through
the list, an entry is kept when no earlier entry (`earlier`) has its icon. -/
def firstOccurrencesFrom (earlier : List SymbolEntry) : List SymbolEntry → List SymbolEntry
  | [] => []
  | s :: rest =>
    if ∃ e ∈ earlier, e.symbol = s.symbol then firstOccurrencesFrom (earlier ++ [s]) rest
    else s :: firstOccurrencesFrom (earlier ++ [s]) rest

/-- The subsequence of the first occurrence of each distinct icon. -/
def firstOccurrences (detected : List SymbolEntry) : List SymbolEntry :=
  firstOccurrencesFrom [] detected

/-- Non-increasing order of `confidence`, with the comparison `>=` of
JavaScript (which no `NaN` satisfies). -/
def SortedByConfidence (l : List SymbolEntry) : Prop :=
  l.Pairwise (fun a b => JSNum.le b.confidence a.confidence = true)

/-- The value `floor((1 - compressedLength / originalLength) * 100)` in exact
arithmetic. -/
def exactCompressionRatio (compressedLength originalLength : Nat) : ℤ :=
  ⌊(1 - (compressedLength : ℚ) / (originalLength : ℚ)) * 100⌋

/-- The base weight that the catalog gives to the keyword of a direct entry. -/
def catalogWeight (e : SymbolEntry) : JSNum :=
  JSNum.ofOption ((symbolMapGet e.meaning).bind (fun d => d.weight))

/-- The contribution of an entry to the sum of section 4.5 of the
specification: the base catalog weight of a direct entry, the stage constant
`0.85` of a pattern entry, the stage constant of a contextual entry (its
confidence, `0.9` or `0.85`). -/
def specWeight (e : SymbolEntry) : JSNum :=
  match e.source with
  | Source.direct => catalogWeight e
  | Source.pattern => JSNum.lit 0.85
  | Source.contextual => e.confidence

/-- The sum `sumOfPreDedupWeights` of section 4.5 of the specification, over
the entries contributed by stages 4.1 to 4.3, before deduplication. -/
def sumOfPreDedupWeights (detected : List SymbolEntry) : JSNum :=
  detected.foldl (fun acc e => JSNum.add acc (specWeight e)) (JSNum.lit 0)

/-- What an entry adds to `totalConfidence` in the code: the catalog weight of
a direct entry, `0.8` for a pattern entry, nothing for a contextual entry. -/
def accumulatedWeight (e : SymbolEntry) : Option JSNum :=
  match e.source with
  | Source.direct => some (catalogWeight e)
  | Source.pattern => some (JSNum.lit 0.8)
  | Source.contextual => none

/-- The sum of the accumulated weights of the entries, in the order of the list. -/
def weightTotal (detected : List SymbolEntry) : JSNum :=
  detected.foldl
    (fun acc e =>
      match accumulatedWeight e with
      | some w => JSNum.add acc w
      | none => acc)
    (JSNum.lit 0)

/-- A number that is a finite binary64 value. -/
def IsDouble (x : JSNum) : Prop :=
  ∃ q : ℚ, x = JSNum.fin (roundDouble q)

/-- A number that is finite and lies within `[0, 1]`. -/
def InUnitInterval (x : JSNum) : Prop :=
  ∃ q : ℚ, x = JSNum.fin q ∧ 0 ≤ q ∧ q ≤ 1

/-- What stages 1 to 3 guarantee of an entry: either its icon is `undefined`
and its confidence `NaN` (an entry found on the prototype of `symbolMap`), or
it has an icon and its confidence is a binary64 value within `[0, 1]`. -/
def EntryOK (e : SymbolEntry) : Prop :=
  (e.symbol = none ∧ e.confidence = JSNum.nan) ∨
    (e.symbol ≠ none ∧ IsDouble e.confidence ∧ InUnitInterval e.confidence)

/-- What stages 1 to 3 guarantee of the locals: every entry is as `EntryOK`
says, and the weight total is finite and non-negative unless some entry has
an `undefined` icon. -/
def DetectionOK (st : Detection) : Prop :=
  (∀ e ∈ st.detectedSymbols, EntryOK e) ∧
    ((∃ q : ℚ, st.totalConfidence = JSNum.fin q ∧ 0 ≤ q) ∨
      ∃ e ∈ st.detectedSymbols, e.symbol = none)

/-- The history entry that a processed invocation builds. -/
def entryOf (call : Environment × JSString) : HistoryEntry :=
  historyEntry call.1.now call.2 (processInput call.1.host call.2)

/-- The entries of the pattern matcher in the words of the specification: one
entry per pattern of the list, in order, whose confidence is `0.85` plus the
next jitter (`k` calls of `Math.random()` were made before). -/
def patternEntries (H : Host) : Nat → List FlowPattern → List SymbolEntry
  | _, [] => []
  | k, p :: rest =>
    { symbol := some p.flow
      meaning := p.description
      category := some (utf16 "flow")
      confidence := JSNum.add (JSNum.lit 0.85) (jitter H k)
      source := Source.pattern
      flow := true } :: patternEntries H (k + 1) rest

/-- The fields of an entry other than its confidence. -/
def SymbolEntry.shape (e : SymbolEntry) :
    Option JSString × JSString × Option JSString × Source × Bool :=
  (e.symbol, e.meaning, e.category, e.source, e.flow)

/-- The entry of the direct matcher for a token, in the words of the
specification, confidence apart: none unless the cleaned token is a keyword of
the catalog, and then the keyword's icon and category with the cleaned token
as meaning. -/
def directShape (token : JSString) :
    Option (Option JSString × JSString × Option JSString × Source × Bool) :=
  (ownLookup (removeNonWord token) symbolMap).map
    (fun d => (d.symbol, removeNonWord token, d.category, Source.direct, false))

/-- Where an entry of `detectedSymbols` comes from: a token found in
`symbolMap` (own or inherited), a flow pattern that matches the input, or one
of the two contextual rules. -/
def EntryOrigin (input : JSString) (e : SymbolEntry) : Prop :=
  (e.source = Source.direct ∧ e.flow = false ∧
      ∃ d, symbolMapGet e.meaning = some d ∧ e.symbol = d.symbol ∧ e.category = d.category) ∨
    (∃ p ∈ flowPatterns, p.pattern.test input = true ∧ e.symbol = some p.flow ∧
      e.meaning = p.description ∧ e.category = some (utf16 "flow") ∧
      e.source = Source.pattern ∧ e.flow = true) ∨
    (e = userManagementEntry ∧
      includes input (utf16 "user") = true ∧ includes input (utf16 "management") = true) ∨
    (e = realTimeEntry ∧
      includes input (utf16 "real") = true ∧ includes input (utf16 "time") = true)

/-- The rendering of an icon sequence in the words of the specification: the
icons joined by the arrow separator. -/
def renderedFlow (symbols : List JSString) : JSString :=
  join (utf16 "→") (symbols.map some)

/-- The range that the specification's data model gives to `compressionRatio`:
an integer from `0` to `100`. -/
def RatioInRange (x : JSNum) : Prop :=
  ∃ n : ℤ, x = JSNum.fin n ∧ 0 ≤ n ∧ n ≤ 100

/-- The catalog weight of every direct hit, in token order: one weight for
each token of the lower-cased input whose cleaned form is found in
`symbolMap`, repeated tokens and tokens that share an icon included. -/
def directHitWeights (H : Host) (input : JSString) : List JSNum :=
  (words H input).filterMap
    (fun w => (symbolMapGet (removeNonWord w)).map (fun d => JSNum.ofOption d.weight))

/-- The constant `0.8`, once for every flow pattern that matches the input. -/
def patternWeights (input : JSString) : List JSNum :=
  (flowPatterns.filter (fun p => p.pattern.test input)).map (fun _ => JSNum.lit 0.8)

/-- The total `T`: the weights of the direct hits, then `0.8` per matching
pattern, added in this order from `0` with the addition of the language. -/
def weightSum (H : Host) (input : JSString) : JSNum :=
  (directHitWeights H input ++ patternWeights input).foldl JSNum.add (JSNum.lit 0)

/-- The cleaned tokens of the lower-cased input, in text order. -/
def tokens (H : Host) (input : JSString) : List JSString :=
  (words H input).map removeNonWord

/-- The keyword pairs that share an icon: first keyword, second keyword, icon. -/
def sharedIconPairs : List (String × String × String) :=
  [("dropdown", "filter", "🔽"), ("frontend", "server", "🖥️")]

/-- The value that `symbolMap` holds for one of its entries. -/
def entryData (c : String × String × String × ℚ) : SymbolData :=
  { symbol := some (utf16 c.2.1), category := some (utf16 c.2.2.1),
    weight := some (JSNum.lit c.2.2.2) }

/-! ## Rounding to binary64 -/

theorem roundHalfEven_mem (q : ℚ) : roundHalfEven q = ⌊q⌋ ∨ roundHalfEven q = ⌊q⌋ + 1 := by
  unfold roundHalfEven
  split
  · exact Or.inl rfl
  · split
    · exact Or.inr rfl
    · split
      · exact Or.inl rfl
      · exact Or.inr rfl

theorem roundHalfEven_intCast (n : ℤ) : roundHalfEven (n : ℚ) = n := by
  unfold roundHalfEven
  simp

theorem roundHalfEven_mono {a b : ℚ} (h : a ≤ b) : roundHalfEven a ≤ roundHalfEven b := by
  have hfl : ⌊a⌋ ≤ ⌊b⌋ := Int.floor_mono h
  rcases lt_or_eq_of_le hfl with hlt | heq
  · rcases roundHalfEven_mem a with ha | ha <;> rcases roundHalfEven_mem b with hb | hb <;> omega
  · unfold roundHalfEven
    rw [heq]
    have hab : a - ⌊b⌋ ≤ b - ⌊b⌋ := by linarith
    by_cases h1 : a - (⌊b⌋ : ℚ) < 1 / 2
    · simp only [h1, if_true]
      split
      · exact le_refl _
      · split
        · omega
        · split <;> omega
    · simp only [h1, if_false]
      have h1' : ¬ b - (⌊b⌋ : ℚ) < 1 / 2 := by
        intro hb; exact h1 (lt_of_le_of_lt hab hb)
      simp only [h1', if_false]
      by_cases h2 : (1 : ℚ) / 2 < a - ⌊b⌋
      · have h2' : (1 : ℚ) / 2 < b - ⌊b⌋ := lt_of_lt_of_le h2 hab
        simp only [h2, h2', if_true]
        exact le_refl _
      · simp only [h2, if_false]
        split
        · split <;> omega
        · split <;> omega

theorem bitLengthAux_spec (fuel n : Nat) (h : n ≤ fuel) :
    n < 2 ^ bitLengthAux fuel n ∧ (0 < n → 2 ^ (bitLengthAux fuel n - 1) ≤ n) := by
  induction fuel generalizing n with
  | zero =>
    have : n = 0 := by omega
    subst this
    simp [bitLengthAux]
  | succ fuel ih =>
    unfold bitLengthAux
    by_cases hn : n = 0
    · subst hn; simp
    · simp only [hn, if_false]
      have hle : n / 2 ≤ fuel := by omega
      obtain ⟨h1, h2⟩ := ih (n / 2) hle
      constructor
      · rw [pow_succ]; omega
      · intro _
        simp only [Nat.add_sub_cancel]
        by_cases h0 : n / 2 = 0
        · have : bitLengthAux fuel (n / 2) = 0 := by
            rw [h0]; cases fuel <;> simp [bitLengthAux]
          rw [this]; simp; omega
        · have h3 := h2 (Nat.pos_of_ne_zero h0)
          have hpos : 0 < bitLengthAux fuel (n / 2) := by
            by_contra hc
            have : bitLengthAux fuel (n / 2) = 0 := by omega
            rw [this] at h1
            simp at h1
            exact h0 h1
          have : bitLengthAux fuel (n / 2) = (bitLengthAux fuel (n / 2) - 1) + 1 := by omega
          rw [this, pow_succ]
          omega

theorem bitLength_spec (n : Nat) (hn : 0 < n) :
    2 ^ (bitLength n - 1) ≤ n ∧ n < 2 ^ bitLength n ∧ 0 < bitLength n := by
  have h := bitLengthAux_spec n n (le_refl _)
  refine ⟨h.2 hn, h.1, ?_⟩
  by_contra hc
  have h0 : bitLengthAux n n = 0 := by unfold bitLength at hc; omega
  have := h.1
  rw [h0] at this
  simp at this
  omega

theorem abs_eq_natAbs_div_den (q : ℚ) : |q| = (q.num.natAbs : ℚ) / (q.den : ℚ) := by
  conv_lhs => rw [← Rat.num_div_den q]
  rw [abs_div, Nat.cast_natAbs, Int.cast_abs]
  congr 1
  exact abs_of_nonneg (by positivity)

theorem binaryExponent_spec (q : ℚ) (hq : q ≠ 0) :
    (2 : ℚ) ^ binaryExponent q ≤ |q| ∧ |q| < (2 : ℚ) ^ (binaryExponent q + 1) := by
  have hN : 0 < q.num.natAbs := Int.natAbs_pos.mpr (Rat.num_ne_zero.mpr hq)
  have hD : 0 < q.den := q.den_pos
  obtain ⟨hN1, hN2, hNa⟩ := bitLength_spec _ hN
  obtain ⟨hD1, hD2, hDb⟩ := bitLength_spec _ hD
  have h2 : (2 : ℚ) ≠ 0 := by norm_num
  have hN1' : (2 : ℚ) ^ bitLength q.num.natAbs ≤ 2 * (q.num.natAbs : ℚ) := by
    have : 2 ^ bitLength q.num.natAbs ≤ 2 * q.num.natAbs := by
      have e : bitLength q.num.natAbs = (bitLength q.num.natAbs - 1) + 1 := by omega
      rw [e, pow_succ]; omega
    exact_mod_cast this
  have hD1' : (2 : ℚ) ^ bitLength q.den ≤ 2 * (q.den : ℚ) := by
    have : 2 ^ bitLength q.den ≤ 2 * q.den := by
      have e : bitLength q.den = (bitLength q.den - 1) + 1 := by omega
      rw [e, pow_succ]; omega
    exact_mod_cast this
  have hN2' : (q.num.natAbs : ℚ) < (2 : ℚ) ^ bitLength q.num.natAbs := by exact_mod_cast hN2
  have hD2' : (q.den : ℚ) < (2 : ℚ) ^ bitLength q.den := by exact_mod_cast hD2
  have hDq : (0 : ℚ) < q.den := by exact_mod_cast hD
  have hNq : (0 : ℚ) < q.num.natAbs := by exact_mod_cast hN
  have hpa : (0 : ℚ) < (2 : ℚ) ^ bitLength q.num.natAbs := by positivity
  have hpb : (0 : ℚ) < (2 : ℚ) ^ bitLength q.den := by positivity
  have hk : (2 : ℚ) ^ ((bitLength q.num.natAbs : ℤ) - (bitLength q.den : ℤ)) =
      (2 : ℚ) ^ bitLength q.num.natAbs / (2 : ℚ) ^ bitLength q.den := by
    rw [zpow_sub₀ h2, zpow_natCast, zpow_natCast]
  have habs := abs_eq_natAbs_div_den q
  unfold binaryExponent
  split
  · rename_i hle
    refine ⟨hle, ?_⟩
    rw [zpow_add_one₀ h2, hk, habs, div_mul_eq_mul_div, div_lt_div_iff₀ hDq hpb]
    nlinarith
  · rename_i hlt
    push_neg at hlt
    rw [sub_add_cancel]
    refine ⟨?_, hlt⟩
    rw [zpow_sub_one₀ h2, hk, habs, div_mul_eq_mul_div, div_le_div_iff₀ hpb hDq]
    rw [show (2 : ℚ)⁻¹ = 1 / 2 by norm_num]
    nlinarith

theorem roundDouble_of_ne_zero {q : ℚ} (hq : q ≠ 0) :
    roundDouble q =
      roundHalfEven (q / (2 : ℚ) ^ (max (binaryExponent q) (-1022) - 52))
        * (2 : ℚ) ^ (max (binaryExponent q) (-1022) - 52) := by
  simp [roundDouble, hq]

theorem roundDouble_nonneg {q : ℚ} (hq : 0 ≤ q) : 0 ≤ roundDouble q := by
  by_cases h0 : q = 0
  · simp [roundDouble, h0]
  · rw [roundDouble_of_ne_zero h0]
    have hu : (0 : ℚ) < (2 : ℚ) ^ (max (binaryExponent q) (-1022) - 52) := by positivity
    have h1 : roundHalfEven 0 ≤
        roundHalfEven (q / (2 : ℚ) ^ (max (binaryExponent q) (-1022) - 52)) :=
      roundHalfEven_mono (div_nonneg hq hu.le)
    have h2 : roundHalfEven 0 = 0 := by simpa using roundHalfEven_intCast 0
    rw [h2] at h1
    exact mul_nonneg (by exact_mod_cast h1) hu.le

theorem roundDouble_nonpos {q : ℚ} (hq : q ≤ 0) : roundDouble q ≤ 0 := by
  by_cases h0 : q = 0
  · simp [roundDouble, h0]
  · rw [roundDouble_of_ne_zero h0]
    have hu : (0 : ℚ) < (2 : ℚ) ^ (max (binaryExponent q) (-1022) - 52) := by positivity
    have h1 : roundHalfEven (q / (2 : ℚ) ^ (max (binaryExponent q) (-1022) - 52)) ≤
        roundHalfEven 0 :=
      roundHalfEven_mono (div_nonpos_of_nonpos_of_nonneg hq hu.le)
    have h2 : roundHalfEven 0 = 0 := by simpa using roundHalfEven_intCast 0
    rw [h2] at h1
    exact mul_nonpos_of_nonpos_of_nonneg (by exact_mod_cast h1) hu.le

theorem roundDouble_le_zpow {q : ℚ} (hq : 0 < q) :
    roundDouble q ≤ (2 : ℚ) ^ (max (binaryExponent q) (-1022) + 1) := by
  have h2 : (2 : ℚ) ≠ 0 := by norm_num
  rw [roundDouble_of_ne_zero hq.ne']
  set e := max (binaryExponent q) (-1022) with he
  have hu : (0 : ℚ) < (2 : ℚ) ^ (e - 52) := by positivity
  have hlt : q < (2 : ℚ) ^ (e + 1) := by
    have h1 := (binaryExponent_spec q hq.ne').2
    rw [abs_of_pos hq] at h1
    exact lt_of_lt_of_le h1 (zpow_le_zpow_right₀ (by norm_num) (by omega))
  have hsplit : (2 : ℚ) ^ (e + 1) = ((2 ^ 53 : ℤ) : ℚ) * (2 : ℚ) ^ (e - 52) := by
    rw [show e + 1 = 53 + (e - 52) by ring, zpow_add₀ h2]
    norm_num
  have hdiv : q / (2 : ℚ) ^ (e - 52) ≤ ((2 ^ 53 : ℤ) : ℚ) := by
    rw [div_le_iff₀ hu, ← hsplit]
    exact hlt.le
  have hr := roundHalfEven_mono hdiv
  rw [roundHalfEven_intCast] at hr
  rw [hsplit]
  exact mul_le_mul_of_nonneg_right (by exact_mod_cast hr) hu.le

theorem zpow_le_roundDouble {q : ℚ} (hq : 0 < q) (he : -1022 ≤ binaryExponent q) :
    (2 : ℚ) ^ binaryExponent q ≤ roundDouble q := by
  have h2 : (2 : ℚ) ≠ 0 := by norm_num
  rw [roundDouble_of_ne_zero hq.ne', max_eq_left he]
  have hu : (0 : ℚ) < (2 : ℚ) ^ (binaryExponent q - 52) := by positivity
  have hle : (2 : ℚ) ^ binaryExponent q ≤ q := by
    have h1 := (binaryExponent_spec q hq.ne').1
    rwa [abs_of_pos hq] at h1
  have hsplit : (2 : ℚ) ^ binaryExponent q =
      ((2 ^ 52 : ℤ) : ℚ) * (2 : ℚ) ^ (binaryExponent q - 52) := by
    rw [show binaryExponent q = 52 + (binaryExponent q - 52) by ring, zpow_add₀ h2]
    norm_num
  have hdiv : ((2 ^ 52 : ℤ) : ℚ) ≤ q / (2 : ℚ) ^ (binaryExponent q - 52) := by
    rw [le_div_iff₀ hu, ← hsplit]
    exact hle
  have hr := roundHalfEven_mono hdiv
  rw [roundHalfEven_intCast] at hr
  calc (2 : ℚ) ^ binaryExponent q
      = ((2 ^ 52 : ℤ) : ℚ) * (2 : ℚ) ^ (binaryExponent q - 52) := hsplit
    _ ≤ _ := mul_le_mul_of_nonneg_right (by exact_mod_cast hr) hu.le

theorem binaryExponent_mono {p q : ℚ} (hp : 0 < p) (hpq : p ≤ q) :
    binaryExponent p ≤ binaryExponent q := by
  have hq : 0 < q := lt_of_lt_of_le hp hpq
  by_contra hc
  push_neg at hc
  have h1 := (binaryExponent_spec q hq.ne').2
  have h2 := (binaryExponent_spec p hp.ne').1
  rw [abs_of_pos hq] at h1
  rw [abs_of_pos hp] at h2
  have h3 : (2 : ℚ) ^ (binaryExponent q + 1) ≤ (2 : ℚ) ^ binaryExponent p :=
    zpow_le_zpow_right₀ (by norm_num) (by omega)
  linarith

theorem roundDouble_mono_of_pos {p q : ℚ} (hp : 0 < p) (hpq : p ≤ q) :
    roundDouble p ≤ roundDouble q := by
  have hq : 0 < q := lt_of_lt_of_le hp hpq
  have hexp := binaryExponent_mono hp hpq
  by_cases hsame : max (binaryExponent p) (-1022) = max (binaryExponent q) (-1022)
  · rw [roundDouble_of_ne_zero hp.ne', roundDouble_of_ne_zero hq.ne', hsame]
    have hu : (0 : ℚ) < (2 : ℚ) ^ (max (binaryExponent q) (-1022) - 52) := by positivity
    have := roundHalfEven_mono (div_le_div_of_nonneg_right hpq hu.le)
    exact mul_le_mul_of_nonneg_right (by exact_mod_cast this) hu.le
  · have hlt : max (binaryExponent p) (-1022) < binaryExponent q := by
      rcases le_total (binaryExponent q) (-1022) with h | h
      · exfalso
        apply hsame
        rw [max_eq_right h, max_eq_right (le_trans hexp h)]
      · rcases le_total (binaryExponent p) (-1022) with h' | h'
        · rw [max_eq_right h'] at hsame ⊢
          rw [max_eq_left h] at hsame
          omega
        · rw [max_eq_left h'] at hsame ⊢
          rw [max_eq_left h] at hsame
          omega
    have hq' : -1022 ≤ binaryExponent q := by
      have := le_max_right (binaryExponent p) (-1022)
      omega
    calc roundDouble p ≤ (2 : ℚ) ^ (max (binaryExponent p) (-1022) + 1) := roundDouble_le_zpow hp
      _ ≤ (2 : ℚ) ^ binaryExponent q := zpow_le_zpow_right₀ (by norm_num) (by omega)
      _ ≤ roundDouble q := zpow_le_roundDouble hq hq'

theorem roundDouble_mono_of_nonneg {p q : ℚ} (hq : 0 ≤ q) (hpq : p ≤ q) :
    roundDouble p ≤ roundDouble q := by
  rcases le_or_lt p 0 with hp | hp
  · exact le_trans (roundDouble_nonpos hp) (roundDouble_nonneg hq)
  · exact roundDouble_mono_of_pos hp hpq

/-- Every rounded value is an integer multiple of the least positive binary64
number, `2 ^ (-1074)`. -/
theorem roundDouble_onGrid (q : ℚ) : ∃ k : ℤ, roundDouble q = (k : ℚ) * (2 : ℚ) ^ (-1074 : ℤ) := by
  have h2 : (2 : ℚ) ≠ 0 := by norm_num
  by_cases h0 : q = 0
  · exact ⟨0, by simp [roundDouble, h0]⟩
  · rw [roundDouble_of_ne_zero h0]
    set e := max (binaryExponent q) (-1022) with he
    have hge : -1022 ≤ e := le_max_right _ _
    refine ⟨roundHalfEven (q / (2 : ℚ) ^ (e - 52)) * 2 ^ (e + 1022).toNat, ?_⟩
    have : (2 : ℚ) ^ (e - 52) = ((2 ^ (e + 1022).toNat : ℤ) : ℚ) * (2 : ℚ) ^ (-1074 : ℤ) := by
      rw [show e - 52 = ((e + 1022).toNat : ℤ) + (-1074) by
        rw [Int.toNat_of_nonneg (by omega)]; ring]
      rw [zpow_add₀ h2, zpow_natCast]
      norm_num
    rw [this]
    push_cast
    ring

theorem roundDouble_pos_of_ge {q : ℚ} (hq : (2 : ℚ) ^ (-1074 : ℤ) ≤ q) : 0 < roundDouble q := by
  have hg : (0 : ℚ) < (2 : ℚ) ^ (-1074 : ℤ) := by positivity
  have h1 : roundDouble ((2 : ℚ) ^ (-1074 : ℤ)) = (2 : ℚ) ^ (-1074 : ℤ) := by decide!
  have h2 := roundDouble_mono_of_pos hg hq
  rw [h1] at h2
  exact lt_of_lt_of_le hg h2

/-- On binary64 values the sign of the rounded difference is the sign of the
difference: a subtraction of two distinct values never rounds to zero. -/
theorem roundDouble_sub_pos_iff (p q : ℚ) :
    0 < roundDouble (roundDouble q - roundDouble p) ↔ roundDouble p < roundDouble q := by
  constructor
  · intro h
    by_contra hc
    push_neg at hc
    have := roundDouble_nonpos (sub_nonpos.mpr hc)
    linarith
  · intro h
    obtain ⟨k1, h1⟩ := roundDouble_onGrid p
    obtain ⟨k2, h2⟩ := roundDouble_onGrid q
    have hg : (0 : ℚ) < (2 : ℚ) ^ (-1074 : ℤ) := by positivity
    apply roundDouble_pos_of_ge
    rw [h1, h2] at h ⊢
    have hk : k1 < k2 := by
      by_contra hc
      push_neg at hc
      have : (k2 : ℚ) ≤ k1 := by exact_mod_cast hc
      have := mul_le_mul_of_nonneg_right this hg.le
      linarith
    have hk' : (1 : ℚ) ≤ (k2 : ℚ) - k1 := by
      have : k1 + 1 ≤ k2 := hk
      have : ((k1 + 1 : ℤ) : ℚ) ≤ k2 := by exact_mod_cast this
      push_cast at this
      linarith
    calc (2 : ℚ) ^ (-1074 : ℤ) = 1 * (2 : ℚ) ^ (-1074 : ℤ) := by ring
      _ ≤ ((k2 : ℚ) - k1) * (2 : ℚ) ^ (-1074 : ℤ) := mul_le_mul_of_nonneg_right hk' hg.le
      _ = _ := by ring

theorem roundDouble_neg_of_le {q : ℚ} (hq : q ≤ -(2 : ℚ) ^ (-1074 : ℤ)) : roundDouble q < 0 := by
  have hg : (0 : ℚ) < (2 : ℚ) ^ (-1074 : ℤ) := by positivity
  have hq0 : q < 0 := by linarith
  rw [roundDouble_of_ne_zero hq0.ne]
  have hu : (0 : ℚ) < (2 : ℚ) ^ (max (binaryExponent q) (-1022) - 52) := by positivity
  have hle : q ≤ -(2 : ℚ) ^ (max (binaryExponent q) (-1022) - 52) := by
    rcases le_total (binaryExponent q) (-1022) with h | h
    · rw [max_eq_right h]
      exact hq
    · rw [max_eq_left h]
      have h1 := (binaryExponent_spec q hq0.ne).1
      rw [abs_of_neg hq0] at h1
      have h2 : (2 : ℚ) ^ (binaryExponent q - 52) ≤ (2 : ℚ) ^ binaryExponent q :=
        zpow_le_zpow_right₀ (by norm_num) (by omega)
      linarith
  have hdiv : q / (2 : ℚ) ^ (max (binaryExponent q) (-1022) - 52) ≤ ((-1 : ℤ) : ℚ) := by
    rw [div_le_iff₀ hu]
    push_cast
    linarith
  have hr := roundHalfEven_mono hdiv
  rw [roundHalfEven_intCast] at hr
  have hr' : (roundHalfEven (q / (2 : ℚ) ^ (max (binaryExponent q) (-1022) - 52)) : ℚ) ≤ -1 := by
    exact_mod_cast hr
  nlinarith

/-! ## Deduplication -/

theorem findIndexFrom_append_cons {α : Type} (p : α → Bool) (s : α) (hs : p s = true)
    (pre r : List α) (k : Nat) :
    findIndexFrom p k (pre ++ s :: r) = ((k + pre.length : Nat) : Int) ↔
      ∀ e ∈ pre, p e = false := by
  induction pre generalizing k with
  | nil => simp [findIndexFrom, hs]
  | cons e pre ih =>
    by_cases he : p e = true
    · simp only [List.cons_append, findIndexFrom, he, if_true, List.length_cons]
      constructor
      · intro h
        exact absurd h (by push_cast; omega)
      · intro h
        have := h e (List.mem_cons_self _ _)
        simp [he] at this
    · have he' : p e = false := by simpa using he
      simp only [List.cons_append, findIndexFrom, he', List.length_cons, List.mem_cons,
        forall_eq_or_imp, true_and]
      have := ih (k + 1)
      rw [show k + 1 + pre.length = k + (pre.length + 1) by omega] at this
      simpa using this

theorem dedupFilter_aux (pre l : List SymbolEntry) :
    ((l.enumFrom pre.length).filter (fun ix =>
        decide ((ix.1 : Int) =
          findIndex (fun s => decide (s.symbol = ix.2.symbol)) (pre ++ l)))).map Prod.snd
      = firstOccurrencesFrom pre l := by
  induction l generalizing pre with
  | nil => simp [firstOccurrencesFrom]
  | cons s r ih =>
    have hkey := findIndexFrom_append_cons (fun t : SymbolEntry => decide (t.symbol = s.symbol))
      s (by simp) pre r 0
    have htail := ih (pre ++ [s])
    simp only [List.length_append, List.length_singleton, List.append_assoc,
      List.singleton_append, findIndex] at htail
    simp only [List.enumFrom_cons, List.filter_cons, firstOccurrencesFrom, findIndex]
    by_cases hex : ∃ e ∈ pre, e.symbol = s.symbol
    · have hne : ¬ ((pre.length : Int) =
          findIndexFrom (fun t : SymbolEntry => decide (t.symbol = s.symbol)) 0 (pre ++ s :: r)) := by
        intro h
        have h2 := hkey.mp (by simpa using h.symm)
        obtain ⟨e, he, hes⟩ := hex
        have := h2 e he
        simp [hes] at this
      simp only [hne, decide_False, Bool.false_eq_true, if_false, hex, if_true]
      exact htail
    · have heq : (pre.length : Int) =
          findIndexFrom (fun t : SymbolEntry => decide (t.symbol = s.symbol)) 0 (pre ++ s :: r) := by
        have h2 := hkey.mpr (by
          intro e he
          simp only [decide_eq_false_iff_not]
          intro hes
          exact hex ⟨e, he, hes⟩)
        simpa using h2.symm
      simp only [heq, decide_True, if_true, hex, if_false, List.map_cons]
      exact congrArg _ htail

theorem dedupFilter_eq (detected : List SymbolEntry) :
    dedupFilter detected = firstOccurrencesFrom [] detected := by
  have := dedupFilter_aux [] detected
  simpa [dedupFilter, filterWithIndex, List.enum] using this

theorem firstOccurrencesFrom_mem {pre l : List SymbolEntry} {t : SymbolEntry}
    (ht : t ∈ firstOccurrencesFrom pre l) :
    t ∈ l ∧ ∀ e ∈ pre, e.symbol ≠ t.symbol := by
  induction l generalizing pre with
  | nil => simp [firstOccurrencesFrom] at ht
  | cons s r ih =>
    simp only [firstOccurrencesFrom] at ht
    by_cases hex : ∃ e ∈ pre, e.symbol = s.symbol
    · simp only [hex, if_true] at ht
      obtain ⟨h1, h2⟩ := ih ht
      exact ⟨List.mem_cons_of_mem _ h1, fun e he => h2 e (List.mem_append_left _ he)⟩
    · simp only [hex, if_false, List.mem_cons] at ht
      rcases ht with rfl | ht
      · exact ⟨List.mem_cons_self _ _, fun e he hes => hex ⟨e, he, hes⟩⟩
      · obtain ⟨h1, h2⟩ := ih ht
        exact ⟨List.mem_cons_of_mem _ h1, fun e he => h2 e (List.mem_append_left _ he)⟩

theorem firstOccurrencesFrom_pairwise (pre l : List SymbolEntry) :
    (firstOccurrencesFrom pre l).Pairwise (fun a b => a.symbol ≠ b.symbol) := by
  induction l generalizing pre with
  | nil => simp [firstOccurrencesFrom]
  | cons s r ih =>
    simp only [firstOccurrencesFrom]
    split
    · exact ih _
    · refine List.Pairwise.cons ?_ (ih _)
      intro t ht
      exact (firstOccurrencesFrom_mem ht).2 s (by simp)

theorem firstOccurrencesFrom_sublist (pre l : List SymbolEntry) :
    (firstOccurrencesFrom pre l).Sublist l := by
  induction l generalizing pre with
  | nil => simp [firstOccurrencesFrom]
  | cons s r ih =>
    simp only [firstOccurrencesFrom]
    split
    · exact (ih _).cons _
    · exact (ih _).cons₂ _

theorem firstOccurrencesFrom_fixed {pre l : List SymbolEntry}
    (hl : l.Pairwise (fun a b => a.symbol ≠ b.symbol))
    (hpre : ∀ t ∈ l, ∀ e ∈ pre, e.symbol ≠ t.symbol) :
    firstOccurrencesFrom pre l = l := by
  induction l generalizing pre with
  | nil => simp [firstOccurrencesFrom]
  | cons s r ih =>
    have hex : ¬ ∃ e ∈ pre, e.symbol = s.symbol := by
      rintro ⟨e, he, hes⟩
      exact hpre s (List.mem_cons_self _ _) e he hes
    simp only [firstOccurrencesFrom, hex, if_false]
    rw [List.pairwise_cons] at hl
    congr 1
    apply ih hl.2
    intro t ht e he
    rcases List.mem_append.mp he with he | he
    · exact hpre t (List.mem_cons_of_mem _ ht) e he
    · have : e = s := by simpa using he
      subst this
      exact hl.1 t ht

theorem firstOccurrencesFrom_append_singleton (pre l : List SymbolEntry) (s : SymbolEntry) :
    firstOccurrencesFrom pre (l ++ [s]) =
      firstOccurrencesFrom pre l ++
        (if ∃ e ∈ pre ++ l, e.symbol = s.symbol then [] else [s]) := by
  induction l generalizing pre with
  | nil => simp [firstOccurrencesFrom]
  | cons t r ih =>
    have h := ih (pre ++ [t])
    simp only [List.append_assoc, List.singleton_append] at h
    simp only [List.cons_append, firstOccurrencesFrom]
    split
    · exact h
    · exact congrArg (List.cons t) h

theorem firstOccurrencesFrom_covers (pre l : List SymbolEntry) (e : SymbolEntry) (he : e ∈ l) :
    (∃ x ∈ pre, x.symbol = e.symbol) ∨
      ∃ x ∈ firstOccurrencesFrom pre l, x.symbol = e.symbol := by
  induction l generalizing pre with
  | nil => simp at he
  | cons s r ih =>
    simp only [firstOccurrencesFrom]
    rcases List.mem_cons.mp he with rfl | her
    · by_cases hex : ∃ x ∈ pre, x.symbol = e.symbol
      · exact Or.inl hex
      · right
        simp only [hex, if_false]
        exact ⟨e, List.mem_cons_self _ _, rfl⟩
    · rcases ih (pre ++ [s]) her with ⟨x, hx, hxs⟩ | ⟨x, hx, hxs⟩
      · rcases List.mem_append.mp hx with hx | hx
        · exact Or.inl ⟨x, hx, hxs⟩
        · have hxe : x = s := by simpa using hx
          subst hxe
          by_cases hex : ∃ y ∈ pre, y.symbol = x.symbol
          · obtain ⟨y, hy, hys⟩ := hex
            exact Or.inl ⟨y, hy, hys.trans hxs⟩
          · right
            simp only [hex, if_false]
            exact ⟨x, List.mem_cons_self _ _, hxs⟩
      · right
        split
        · exact ⟨x, hx, hxs⟩
        · exact ⟨x, List.mem_cons_of_mem _ hx, hxs⟩

theorem find_of_mem_firstOccurrencesFrom {pre l : List SymbolEntry} {x : SymbolEntry}
    (hx : x ∈ firstOccurrencesFrom pre l) :
    l.find? (fun e => decide (e.symbol = x.symbol)) = some x := by
  induction l generalizing pre with
  | nil => simp [firstOccurrencesFrom] at hx
  | cons s r ih =>
    simp only [firstOccurrencesFrom] at hx
    have hlater : x ∈ firstOccurrencesFrom (pre ++ [s]) r →
        (s :: r).find? (fun e => decide (e.symbol = x.symbol)) = some x := by
      intro h
      have hne : s.symbol ≠ x.symbol := (firstOccurrencesFrom_mem h).2 s (by simp)
      rw [List.find?_cons_of_neg _ (by simpa using hne)]
      exact ih h
    by_cases hex : ∃ e ∈ pre, e.symbol = s.symbol
    · simp only [hex, if_true] at hx
      exact hlater hx
    · simp only [hex, if_false, List.mem_cons] at hx
      rcases hx with rfl | hx
      · exact List.find?_cons_of_pos _ (by simp)
      · exact hlater hx

theorem firstOccurrencesFrom_shape (pre pre' l l' : List SymbolEntry)
    (hpre : pre.map SymbolEntry.shape = pre'.map SymbolEntry.shape)
    (hl : l.map SymbolEntry.shape = l'.map SymbolEntry.shape) :
    (firstOccurrencesFrom pre l).map SymbolEntry.shape =
      (firstOccurrencesFrom pre' l').map SymbolEntry.shape := by
  induction l generalizing l' pre pre' with
  | nil =>
    cases l' with
    | nil => rfl
    | cons s' r' => simp at hl
  | cons s r ih =>
    cases l' with
    | nil => simp at hl
    | cons s' r' =>
      simp only [List.map_cons, List.cons.injEq] at hl
      obtain ⟨hs, hr⟩ := hl
      have hsym : s.symbol = s'.symbol := congrArg Prod.fst hs
      have hpresym : pre.map (fun e => e.symbol) = pre'.map (fun e => e.symbol) := by
        have := congrArg (List.map Prod.fst) hpre
        simpa [List.map_map, Function.comp_def, SymbolEntry.shape] using this
      have hiff : (∃ e ∈ pre, e.symbol = s.symbol) ↔ (∃ e ∈ pre', e.symbol = s'.symbol) := by
        have e1 : (∃ e ∈ pre, e.symbol = s.symbol) ↔ s.symbol ∈ pre.map (fun e => e.symbol) := by
          simp [List.mem_map]
        have e2 : (∃ e ∈ pre', e.symbol = s'.symbol) ↔
            s'.symbol ∈ pre'.map (fun e => e.symbol) := by
          simp [List.mem_map]
        rw [e1, e2, hpresym, hsym]
      have hnext := ih (pre ++ [s]) (pre' ++ [s']) r'
        (by simp only [List.map_append, hpre, List.map_cons, hs, List.map_nil]) hr
      simp only [firstOccurrencesFrom]
      by_cases hex : ∃ e ∈ pre, e.symbol = s.symbol
      · simp only [hex, hiff.mp hex, if_true]
        exact hnext
      · have hex' : ¬ ∃ e ∈ pre', e.symbol = s'.symbol := fun h => hex (hiff.mpr h)
        simp only [hex, hex', if_false, List.map_cons, hs, hnext]

/-! ## Sorting -/

theorem sortInsert_perm {α : Type} (cmp : α → α → JSNum) (x : α) (l : List α) :
    (sortInsert cmp x l).Perm (x :: l) := by
  induction l with
  | nil => simp [sortInsert]
  | cons y ys ih =>
    simp only [sortInsert]
    split
    · exact ((List.Perm.cons y ih).trans (List.Perm.swap x y ys))
    · exact List.Perm.refl _

theorem arraySort_perm {α : Type} (cmp : α → α → JSNum) (l : List α) :
    (arraySort cmp l).Perm l := by
  induction l with
  | nil => simp [arraySort]
  | cons x xs ih =>
    simp only [arraySort]
    exact (sortInsert_perm cmp x _).trans (List.Perm.cons x ih)

theorem compareConfidence_pos_iff {a b : SymbolEntry} (ha : IsDouble a.confidence)
    (hb : IsDouble b.confidence) :
    JSNum.lt (JSNum.fin 0) (compareConfidence a b) = true ↔
      JSNum.lt a.confidence b.confidence = true := by
  obtain ⟨p, hp⟩ := ha
  obtain ⟨q, hq⟩ := hb
  simp only [compareConfidence, hp, hq, JSNum.sub, JSNum.lt, decide_eq_true_eq]
  exact roundDouble_sub_pos_iff p q

theorem sortInsert_sorted (x : SymbolEntry) (l : List SymbolEntry)
    (hx : IsDouble x.confidence) (hl : ∀ e ∈ l, IsDouble e.confidence)
    (hs : SortedByConfidence l) :
    SortedByConfidence (sortInsert compareConfidence x l) := by
  induction l with
  | nil => simp [sortInsert, SortedByConfidence]
  | cons y ys ih =>
    have hy : IsDouble y.confidence := hl y (List.mem_cons_self _ _)
    have hys : ∀ e ∈ ys, IsDouble e.confidence := fun e he => hl e (List.mem_cons_of_mem _ he)
    unfold SortedByConfidence at hs ⊢
    rw [List.pairwise_cons] at hs
    obtain ⟨p, hp⟩ := hx
    obtain ⟨q, hq⟩ := hy
    simp only [sortInsert]
    split
    · rename_i hlt
      rw [compareConfidence_pos_iff ⟨p, hp⟩ ⟨q, hq⟩] at hlt
      rw [List.pairwise_cons]
      refine ⟨?_, ih hys hs.2⟩
      intro z hz
      rcases List.mem_cons.mp ((sortInsert_perm compareConfidence x ys).mem_iff.mp hz)
        with hzx | hzy
      · subst hzx
        rw [hp, hq] at hlt ⊢
        simp only [JSNum.lt, JSNum.le, decide_eq_true_eq] at hlt ⊢
        exact hlt.le
      · exact hs.1 z hzy
    · rename_i hnlt
      rw [compareConfidence_pos_iff ⟨p, hp⟩ ⟨q, hq⟩] at hnlt
      rw [List.pairwise_cons]
      refine ⟨?_, List.pairwise_cons.mpr hs⟩
      have hyx : roundDouble q ≤ roundDouble p := by
        rw [hp, hq] at hnlt
        simpa [JSNum.lt] using hnlt
      intro z hz
      rcases List.mem_cons.mp hz with rfl | hz
      · rw [hp, hq]
        simpa [JSNum.le] using hyx
      · have hzy := hs.1 z hz
        obtain ⟨r, hr⟩ := hys z hz
        rw [hr, hq] at hzy
        rw [hr, hp]
        simp only [JSNum.le, decide_eq_true_eq] at hzy ⊢
        exact le_trans hzy hyx

theorem sortInsert_filter (x : SymbolEntry) (l : List SymbolEntry)
    (hx : IsDouble x.confidence) (hl : ∀ e ∈ l, IsDouble e.confidence) (c : JSNum) :
    (sortInsert compareConfidence x l).filter (fun e => decide (e.confidence = c)) =
      (x :: l).filter (fun e => decide (e.confidence = c)) := by
  induction l with
  | nil => simp [sortInsert]
  | cons y ys ih =>
    have hy : IsDouble y.confidence := hl y (List.mem_cons_self _ _)
    have hys : ∀ e ∈ ys, IsDouble e.confidence := fun e he => hl e (List.mem_cons_of_mem _ he)
    simp only [sortInsert]
    split
    · rename_i hlt
      rw [compareConfidence_pos_iff hx hy] at hlt
      have hne : x.confidence ≠ y.confidence := by
        intro heq
        obtain ⟨q, hq⟩ := hy
        rw [heq, hq] at hlt
        simp [JSNum.lt] at hlt
      rw [List.filter_cons, ih hys]
      by_cases hyc : y.confidence = c
      · have hxc : ¬ x.confidence = c := fun h => hne (h.trans hyc.symm)
        simp [List.filter_cons, hyc, hxc]
      · simp [List.filter_cons, hyc]
    · rfl

/-- On entries whose confidences are binary64 values (none is `NaN`), the sort
of line 210 returns a permutation in non-increasing order of confidence, and
it is stable: for each confidence value, the entries that carry it keep their
relative order. -/
theorem arraySort_sorted_stable (l : List SymbolEntry)
    (hl : ∀ e ∈ l, IsDouble e.confidence) :
    (arraySort compareConfidence l).Perm l ∧
      SortedByConfidence (arraySort compareConfidence l) ∧
      ∀ c : JSNum, (arraySort compareConfidence l).filter (fun e => decide (e.confidence = c)) =
        l.filter (fun e => decide (e.confidence = c)) := by
  refine ⟨arraySort_perm _ _, ?_, ?_⟩
  · induction l with
    | nil => simp [arraySort, SortedByConfidence]
    | cons x xs ih =>
      have hxs : ∀ e ∈ xs, IsDouble e.confidence := fun e he => hl e (List.mem_cons_of_mem _ he)
      simp only [arraySort]
      apply sortInsert_sorted x _ (hl x (List.mem_cons_self _ _)) _ (ih hxs)
      intro e he
      exact hxs e ((arraySort_perm compareConfidence xs).mem_iff.mp he)
  · intro c
    induction l with
    | nil => simp [arraySort]
    | cons x xs ih =>
      have hxs : ∀ e ∈ xs, IsDouble e.confidence := fun e he => hl e (List.mem_cons_of_mem _ he)
      simp only [arraySort]
      rw [sortInsert_filter x _ (hl x (List.mem_cons_self _ _)) _ c, List.filter_cons,
        List.filter_cons, ih hxs]
      intro e he
      exact hxs e ((arraySort_perm compareConfidence xs).mem_iff.mp he)

theorem not_sortedByConfidence_of_nan {P : List SymbolEntry} {a b : SymbolEntry}
    (ha : a ∈ P) (hb : b ∈ P) (hab : a ≠ b) (hnan : a.confidence = JSNum.nan) :
    ¬ SortedByConfidence P := by
  intro hs
  have hs' : P.Pairwise (fun x y =>
      JSNum.le y.confidence x.confidence = true ∨ JSNum.le x.confidence y.confidence = true) :=
    hs.imp (fun h => Or.inl h)
  have hsym : Symmetric (fun x y : SymbolEntry =>
      JSNum.le y.confidence x.confidence = true ∨ JSNum.le x.confidence y.confidence = true) :=
    fun _ _ h => h.symm
  have h := hs'.forall hsym ha hb hab
  rw [hnan] at h
  cases hc : b.confidence <;> simp [hc, JSNum.le] at h

theorem uniqueSymbols_perm (H : Host) (input : JSString) :
    (uniqueSymbols H input).Perm (dedupFilter (detectedSymbols H input)) :=
  arraySort_perm _ _

theorem mem_detectedSymbols_of_mem_uniqueSymbols {H : Host} {input : JSString} {e : SymbolEntry}
    (he : e ∈ uniqueSymbols H input) : e ∈ detectedSymbols H input := by
  have h1 := (uniqueSymbols_perm H input).mem_iff.mp he
  rw [dedupFilter_eq] at h1
  exact (firstOccurrencesFrom_mem h1).1

theorem uniqueSymbols_covers {H : Host} {input : JSString} {e : SymbolEntry}
    (he : e ∈ detectedSymbols H input) :
    ∃ x ∈ uniqueSymbols H input, x.symbol = e.symbol := by
  rcases firstOccurrencesFrom_covers [] _ e he with ⟨x, hx, _⟩ | ⟨x, hx, hxs⟩
  · simp at hx
  · refine ⟨x, (uniqueSymbols_perm H input).mem_iff.mpr ?_, hxs⟩
    rw [dedupFilter_eq]
    exact hx

/-! ## Statistics -/

theorem setElements_foldl {α : Type} [DecidableEq α] (xs acc : List α) (hacc : acc.Nodup) :
    (xs.foldl (fun acc x => if x ∈ acc then acc else acc ++ [x]) acc).Nodup ∧
      ∀ a, a ∈ xs.foldl (fun acc x => if x ∈ acc then acc else acc ++ [x]) acc ↔
        a ∈ acc ∨ a ∈ xs := by
  induction xs generalizing acc with
  | nil => simp [hacc]
  | cons x xs ih =>
    simp only [List.foldl_cons]
    by_cases hx : x ∈ acc
    · simp only [hx, if_true]
      refine ⟨(ih acc hacc).1, fun a => ?_⟩
      rw [(ih acc hacc).2 a]
      constructor
      · rintro (h | h)
        · exact Or.inl h
        · exact Or.inr (List.mem_cons_of_mem _ h)
      · rintro (h | h)
        · exact Or.inl h
        · rcases List.mem_cons.mp h with rfl | h
          · exact Or.inl hx
          · exact Or.inr h
    · simp only [hx, if_false]
      have hn : (acc ++ [x]).Nodup := by
        rw [List.nodup_append]
        exact ⟨hacc, List.nodup_singleton x, by
          intro a ha hb
          have : a = x := by simpa using hb
          exact hx (this ▸ ha)⟩
      refine ⟨(ih _ hn).1, fun a => ?_⟩
      rw [(ih _ hn).2 a]
      simp only [List.mem_append, List.mem_singleton, List.mem_cons]
      tauto

theorem setElements_length {α : Type} [DecidableEq α] (xs : List α) :
    (setElements xs).length = xs.toFinset.card := by
  have h := setElements_foldl xs [] List.nodup_nil
  have hn : (setElements xs).Nodup := h.1
  rw [← List.toFinset_card_of_nodup hn]
  congr 1
  ext a
  simp only [List.mem_toFinset]
  rw [show setElements xs = xs.foldl (fun acc x => if x ∈ acc then acc else acc ++ [x]) [] from rfl,
    h.2 a]
  simp

theorem join_length (sep : JSString) (xs : List (Option JSString)) :
    (join sep xs).length =
      (xs.map (fun x => (x.getD []).length)).sum + sep.length * (xs.length - 1) := by
  induction xs with
  | nil => simp [join]
  | cons x rest ih =>
    cases rest with
    | nil => simp [join]
    | cons y rest =>
      simp only [join, List.length_append, ih, List.map_cons, List.sum_cons, List.length_cons,
        Nat.add_sub_cancel]
      ring

theorem compressionRatio_zero (originalLength : Nat) (h : 0 < originalLength) :
    compressionRatio 0 originalLength = JSNum.fin 100 := by
  have hne : (originalLength : ℚ) ≠ 0 := by exact_mod_cast h.ne'
  have hdiv : JSNum.div (JSNum.ofNat 0) (JSNum.ofNat originalLength) = JSNum.fin 0 := by
    simp [JSNum.div, JSNum.ofNat, hne, roundDouble]
  have hrest : JSNum.floor (JSNum.mul (JSNum.sub (JSNum.lit 1) (JSNum.fin 0)) (JSNum.lit 100))
      = JSNum.fin 100 := by decide!
  unfold compressionRatio
  rw [hdiv, hrest]

theorem processInput_symbols (H : Host) (input : JSString) :
    (processInput H input).symbols = uniqueSymbols H input := rfl

theorem processInput_stats (H : Host) (input : JSString) :
    (processInput H input).stats = stats input (uniqueSymbols H input) := rfl

theorem processInput_flows (H : Host) (input : JSString) :
    (processInput H input).flows = (uniqueSymbols H input).filter (fun s => s.flow) := rfl

theorem compressedLength_eq_sum (l : List SymbolEntry) :
    compressedLength l = (l.map (fun e => (e.symbol.getD []).length)).sum := by
  simp [compressedLength, join_length, List.map_map, Function.comp_def]

/-- The statistics read the icons and the categories of the symbols only, and
not their order. -/
theorem stats_eq_of_perm (input : JSString) {l l' : List SymbolEntry}
    (h : (l.map (fun e => (e.symbol, e.category))).Perm
      (l'.map (fun e => (e.symbol, e.category)))) :
    stats input l = stats input l' := by
  have hlen : l.length = l'.length := by simpa using h.length_eq
  have hc : compressedLength l = compressedLength l' := by
    rw [compressedLength_eq_sum, compressedLength_eq_sum]
    have := (h.map (fun p : Option JSString × Option JSString => (p.1.getD []).length)).sum_eq
    simpa [List.map_map, Function.comp_def] using this
  have hcat : (setElements (l.map (fun s => s.category))).length =
      (setElements (l'.map (fun s => s.category))).length := by
    rw [setElements_length, setElements_length]
    have := h.map (fun p : Option JSString × Option JSString => p.2)
    simp only [List.map_map, Function.comp_def] at this
    rw [List.toFinset_eq_of_perm _ _ this]
  simp only [stats, hlen, hc, hcat]

theorem stats_uniqueSymbols (H : Host) (input : JSString) :
    stats input (uniqueSymbols H input) = stats input (dedupFilter (detectedSymbols H input)) :=
  stats_eq_of_perm input ((uniqueSymbols_perm H input).map _)

/-- The ratio of line 215 for an input of `0 < o < 2 ^ 53` code units (the
language allows no longer string) and icons of total length `c`: an integer,
at most `100`, and negative exactly when the icons are longer than the input. -/
theorem compressionRatio_spec (c o : Nat) (ho : 0 < o) (hmax : o < 2 ^ 53) :
    ∃ n : ℤ, compressionRatio c o = JSNum.fin n ∧ n ≤ 100 ∧ (0 ≤ n ↔ c ≤ o) := by
  have hoq : (0 : ℚ) < (o : ℚ) := by exact_mod_cast ho
  have hone : roundDouble 1 = 1 := by decide!
  have hhundred : roundDouble 100 = 100 := by decide!
  have hform : compressionRatio c o =
      JSNum.fin (⌊roundDouble (roundDouble (1 - roundDouble ((c : ℚ) / o)) * 100)⌋ : ℤ) := by
    simp [compressionRatio, JSNum.lit, JSNum.ofNat, JSNum.div, JSNum.sub, JSNum.mul, JSNum.floor,
      hoq.ne', hone, hhundred]
  have hd0 : 0 ≤ roundDouble ((c : ℚ) / o) := roundDouble_nonneg (by positivity)
  have hy1 : roundDouble (1 - roundDouble ((c : ℚ) / o)) ≤ 1 := by
    have := roundDouble_mono_of_nonneg (p := 1 - roundDouble ((c : ℚ) / o)) (q := 1)
      (by norm_num) (by linarith)
    rwa [hone] at this
  have hz100 : roundDouble (roundDouble (1 - roundDouble ((c : ℚ) / o)) * 100) ≤ 100 := by
    have := roundDouble_mono_of_nonneg
      (p := roundDouble (1 - roundDouble ((c : ℚ) / o)) * 100) (q := 100)
      (by norm_num) (by linarith)
    rwa [hhundred] at this
  refine ⟨_, hform, ?_, ?_⟩
  · have : ⌊roundDouble (roundDouble (1 - roundDouble ((c : ℚ) / o)) * 100)⌋ ≤ ⌊(100 : ℚ)⌋ :=
      Int.floor_mono hz100
    simpa using this
  · constructor
    · intro hn
      by_contra hc
      push_neg at hc
      -- the icons are longer than the input: the quotient rounds above `1`
      have hco : ((2 : ℚ) ^ 53) / (2 ^ 53 - 1) ≤ (c : ℚ) / o := by
        have h1 : (o : ℚ) + 1 ≤ c := by exact_mod_cast hc
        have h2 : (o : ℚ) ≤ 2 ^ 53 - 1 := by
          have : o + 1 ≤ 2 ^ 53 := hmax
          have : ((o + 1 : ℕ) : ℚ) ≤ ((2 ^ 53 : ℕ) : ℚ) := by exact_mod_cast this
          push_cast at this
          linarith
        rw [div_le_div_iff₀ (by norm_num) hoq]
        nlinarith
      have hup : roundDouble (((2 : ℚ) ^ 53) / (2 ^ 53 - 1)) = 1 + (2 : ℚ) ^ (-52 : ℤ) := by
        decide!
      have hd1 : 1 + (2 : ℚ) ^ (-52 : ℤ) ≤ roundDouble ((c : ℚ) / o) := by
        have := roundDouble_mono_of_pos (by positivity) hco
        rwa [hup] at this
      have hpos52 : (0 : ℚ) < (2 : ℚ) ^ (-52 : ℤ) := by positivity
      have hg : (0 : ℚ) < (2 : ℚ) ^ (-1074 : ℤ) := by positivity
      have hy : 1 - roundDouble ((c : ℚ) / o) ≤ -(2 : ℚ) ^ (-1074 : ℤ) := by
        have : (2 : ℚ) ^ (-1074 : ℤ) ≤ (2 : ℚ) ^ (-52 : ℤ) :=
          zpow_le_zpow_right₀ (by norm_num) (by norm_num)
        linarith
      have hz := roundDouble_neg_of_le hy
      obtain ⟨j, hj⟩ := roundDouble_onGrid (1 - roundDouble ((c : ℚ) / o))
      have hz' : roundDouble (1 - roundDouble ((c : ℚ) / o)) * 100 ≤ -(2 : ℚ) ^ (-1074 : ℤ) := by
        have hj0 : j < 0 := by
          by_contra hcon
          push_neg at hcon
          have : (0 : ℚ) ≤ j := by exact_mod_cast hcon
          have := mul_nonneg this hg.le
          rw [← hj] at this
          linarith
        have hj1 : (j : ℚ) ≤ -1 := by exact_mod_cast (show j ≤ -1 by omega)
        rw [hj]
        nlinarith
      have hw := roundDouble_neg_of_le hz'
      have : ⌊roundDouble (roundDouble (1 - roundDouble ((c : ℚ) / o)) * 100)⌋ < 0 :=
        Int.floor_lt.mpr (by exact_mod_cast hw)
      omega
    · intro hco
      have hq1 : (c : ℚ) / o ≤ 1 := by
        rw [div_le_one hoq]
        exact_mod_cast hco
      have hd1 : roundDouble ((c : ℚ) / o) ≤ 1 := by
        have := roundDouble_mono_of_nonneg (p := (c : ℚ) / o) (q := 1) (by norm_num) hq1
        rwa [hone] at this
      have hy0 : 0 ≤ roundDouble (1 - roundDouble ((c : ℚ) / o)) :=
        roundDouble_nonneg (by linarith)
      have hz0 : 0 ≤ roundDouble (roundDouble (1 - roundDouble ((c : ℚ) / o)) * 100) :=
        roundDouble_nonneg (by positivity)
      exact Int.floor_nonneg.mpr hz0

/-! ## The weight total -/

theorem foldl_preserves {β : Type} (I : Detection → Prop) (f : Detection → β → Detection)
    (hf : ∀ st b, I st → I (f st b)) (l : List β) (st : Detection) (h : I st) :
    I (l.foldl f st) := by
  induction l generalizing st with
  | nil => exact h
  | cons b l ih => exact ih _ (hf st b h)

theorem weightTotal_append_singleton (l : List SymbolEntry) (e : SymbolEntry) :
    weightTotal (l ++ [e]) =
      match accumulatedWeight e with
      | some w => JSNum.add (weightTotal l) w
      | none => weightTotal l := by
  simp [weightTotal, List.foldl_append]

theorem directStep_total (H : Host) (st : Detection) (w : JSString)
    (h : st.totalConfidence = weightTotal st.detectedSymbols) :
    (directStep H st w).totalConfidence = weightTotal (directStep H st w).detectedSymbols := by
  unfold directStep
  cases hget : symbolMapGet (removeNonWord w) with
  | none => simpa using h
  | some d =>
    simp only [weightTotal_append_singleton, accumulatedWeight, catalogWeight, hget, h]
    rfl

theorem patternStep_total (H : Host) (input : JSString) (st : Detection) (p : FlowPattern)
    (h : st.totalConfidence = weightTotal st.detectedSymbols) :
    (patternStep H input st p).totalConfidence =
      weightTotal (patternStep H input st p).detectedSymbols := by
  unfold patternStep
  split
  · simp only [weightTotal_append_singleton, accumulatedWeight, h]
  · exact h

theorem contextualStep_total (input : JSString) (st : Detection)
    (h : st.totalConfidence = weightTotal st.detectedSymbols) :
    (contextualStep input st).totalConfidence =
      weightTotal (contextualStep input st).detectedSymbols := by
  have hu : ∀ l, weightTotal (l ++ [userManagementEntry]) = weightTotal l := fun l => by
    rw [weightTotal_append_singleton]; rfl
  have hr : ∀ l, weightTotal (l ++ [realTimeEntry]) = weightTotal l := fun l => by
    rw [weightTotal_append_singleton]; rfl
  unfold contextualStep
  split <;> split <;> simp only [hu, hr, h]

theorem totalConfidence_eq_weightTotal (H : Host) (input : JSString) :
    totalConfidence H input = weightTotal (detectedSymbols H input) := by
  unfold totalConfidence detectedSymbols detect patternStage directStage
  apply contextualStep_total
  apply foldl_preserves (fun st => st.totalConfidence = weightTotal st.detectedSymbols) _
    (patternStep_total H input)
  apply foldl_preserves (fun st => st.totalConfidence = weightTotal st.detectedSymbols) _
    (directStep_total H)
  rfl

/-- The quotient of line 227 is never a non-zero number over zero: when no
symbol is left after deduplication, nothing was detected and the weight total
is still `0`. -/
theorem totalConfidence_of_no_symbol (H : Host) (input : JSString)
    (h : uniqueSymbols H input = []) : totalConfidence H input = JSNum.fin 0 := by
  have hd : detectedSymbols H input = [] := by
    cases hl : detectedSymbols H input with
    | nil => rfl
    | cons e rest =>
      have he : e ∈ detectedSymbols H input := by rw [hl]; exact List.mem_cons_self _ _
      obtain ⟨x, hx, _⟩ := uniqueSymbols_covers he
      rw [h] at hx
      simp at hx
  rw [totalConfidence_eq_weightTotal, hd]
  show JSNum.lit 0 = JSNum.fin 0
  decide!

theorem totalConfidence_of_no_symbol_witness :
    uniqueSymbols (asciiHost (fun _ => 0)) (utf16 "hello there friend") = [] ∧
      totalConfidence (asciiHost (fun _ => 0)) (utf16 "hello there friend") = JSNum.fin 0 :=
  ⟨by decide!, totalConfidence_of_no_symbol _ _ (by decide!)⟩

/-! ## Invariants of stages 1 to 3 -/

theorem ownLookup_some {key : JSString} {table : List (String × String × String × ℚ)}
    {d : SymbolData} (h : ownLookup key table = some d) :
    ∃ e ∈ table, d =
      { symbol := some (utf16 e.2.1), category := some (utf16 e.2.2.1),
        weight := some (JSNum.lit e.2.2.2) } := by
  induction table with
  | nil => simp [ownLookup] at h
  | cons e rest ih =>
    obtain ⟨k, s, c, w⟩ := e
    simp only [ownLookup] at h
    split at h
    · exact ⟨(k, s, c, w), List.mem_cons_self _ _, by simpa using h.symm⟩
    · obtain ⟨e', he', hd⟩ := ih h
      exact ⟨e', List.mem_cons_of_mem _ he', hd⟩

theorem symbolMap_weights :
    ∀ e ∈ symbolMap, 0 ≤ roundDouble e.2.2.2 ∧ roundDouble e.2.2.2 ≤ roundDouble 0.9 := by
  have h : symbolMap.all (fun e =>
      decide (0 ≤ roundDouble e.2.2.2) && decide (roundDouble e.2.2.2 ≤ roundDouble 0.9))
      = true := by decide!
  intro e he
  have := List.all_eq_true.mp h e he
  simpa using this

theorem symbolMapGet_some {key : JSString} {d : SymbolData} (h : symbolMapGet key = some d) :
    (d.symbol = none ∧ d.weight = none) ∨
      (d.symbol ≠ none ∧ ∃ w : ℚ, d.weight = some (JSNum.lit w) ∧
        0 ≤ roundDouble w ∧ roundDouble w ≤ roundDouble 0.9) := by
  unfold symbolMapGet at h
  cases hown : ownLookup key symbolMap with
  | some d' =>
    rw [hown] at h
    obtain ⟨e, he, hd⟩ := ownLookup_some hown
    have hdd : d = d' := by simpa using h.symm
    right
    rw [hdd, hd]
    exact ⟨by simp, e.2.2.2, rfl, symbolMap_weights e he⟩
  | none =>
    rw [hown] at h
    left
    simp only at h
    split at h
    · have hdd : d = { symbol := none, category := none, weight := none } := by
        simpa using h.symm
      rw [hdd]
      exact ⟨rfl, rfl⟩
    · simp at h

theorem jitter_bounds (H : Host) (hr : ∀ k, 0 ≤ H.random k ∧ H.random k < 1) (k : Nat) :
    ∃ j : ℚ, jitter H k = JSNum.fin j ∧ 0 ≤ j ∧ j ≤ roundDouble 0.1 := by
  have hc : (0 : ℚ) ≤ roundDouble 0.1 := by decide!
  have hcc : roundDouble (roundDouble 0.1) = roundDouble 0.1 := by decide!
  refine ⟨roundDouble (H.random k * roundDouble 0.1), rfl, ?_, ?_⟩
  · exact roundDouble_nonneg (mul_nonneg (hr k).1 hc)
  · have h1 : H.random k * roundDouble 0.1 ≤ roundDouble 0.1 := by
      have := mul_le_mul_of_nonneg_right (hr k).2.le hc
      simpa using this
    have := roundDouble_mono_of_nonneg hc h1
    rwa [hcc] at this

theorem add_jitter_ok (H : Host) (hr : ∀ k, 0 ≤ H.random k ∧ H.random k < 1) (k : Nat)
    (w bound : ℚ) (hw0 : 0 ≤ roundDouble w) (hwb : roundDouble w ≤ roundDouble bound)
    (hb : roundDouble (roundDouble bound + roundDouble 0.1) ≤ 1)
    (hb0 : 0 ≤ roundDouble bound + roundDouble 0.1) :
    IsDouble (JSNum.add (JSNum.lit w) (jitter H k)) ∧
      InUnitInterval (JSNum.add (JSNum.lit w) (jitter H k)) := by
  obtain ⟨j, hj, hj0, hj1⟩ := jitter_bounds H hr k
  rw [hj]
  refine ⟨⟨roundDouble w + j, rfl⟩, roundDouble (roundDouble w + j), rfl, ?_, ?_⟩
  · exact roundDouble_nonneg (add_nonneg hw0 hj0)
  · exact le_trans (roundDouble_mono_of_nonneg hb0 (add_le_add hwb hj1)) hb

theorem entryOK_append {l : List SymbolEntry} {e : SymbolEntry}
    (hl : ∀ x ∈ l, EntryOK x) (he : EntryOK e) : ∀ x ∈ l ++ [e], EntryOK x := by
  intro x hx
  rcases List.mem_append.mp hx with h | h
  · exact hl x h
  · have : x = e := by simpa using h
    exact this ▸ he

theorem directStep_ok (H : Host) (hr : ∀ k, 0 ≤ H.random k ∧ H.random k < 1)
    (st : Detection) (w : JSString) (h : DetectionOK st) : DetectionOK (directStep H st w) := by
  unfold directStep
  cases hget : symbolMapGet (removeNonWord w) with
  | none => exact h
  | some d =>
    obtain ⟨hent, htot⟩ := h
    rcases symbolMapGet_some hget with ⟨hs, hw⟩ | ⟨hs, x, hw, hx0, hx1⟩
    · refine ⟨entryOK_append hent (Or.inl ⟨hs, ?_⟩),
        Or.inr ⟨_, List.mem_append_right _ (List.mem_singleton_self _), hs⟩⟩
      simp [hw, JSNum.ofOption, JSNum.add]
    · have hjit := add_jitter_ok H hr st.randomCalls x 0.9 hx0 hx1 (by decide!) (by decide!)
      refine ⟨entryOK_append hent (Or.inr ⟨hs, ?_⟩), ?_⟩
      · simpa [hw, JSNum.ofOption] using hjit
      · rcases htot with ⟨q, hq, hq0⟩ | ⟨e, he, hes⟩
        · left
          refine ⟨roundDouble (q + roundDouble x), ?_, roundDouble_nonneg (add_nonneg hq0 hx0)⟩
          simp [hq, hw, JSNum.ofOption, JSNum.add, JSNum.lit]
        · exact Or.inr ⟨e, List.mem_append_left _ he, hes⟩

theorem patternStep_ok (H : Host) (hr : ∀ k, 0 ≤ H.random k ∧ H.random k < 1)
    (input : JSString) (st : Detection) (p : FlowPattern) (h : DetectionOK st) :
    DetectionOK (patternStep H input st p) := by
  unfold patternStep
  split
  · obtain ⟨hent, htot⟩ := h
    have hjit := add_jitter_ok H hr st.randomCalls 0.85 0.85 (by decide!) (le_refl _)
      (by decide!) (by decide!)
    refine ⟨entryOK_append hent (Or.inr ⟨by simp, hjit⟩), ?_⟩
    rcases htot with ⟨q, hq, hq0⟩ | ⟨e, he, hes⟩
    · left
      have h8 : (0 : ℚ) ≤ roundDouble 0.8 := by decide!
      refine ⟨roundDouble (q + roundDouble 0.8), ?_, roundDouble_nonneg (add_nonneg hq0 h8)⟩
      simp [hq, JSNum.add, JSNum.lit]
    · exact Or.inr ⟨e, List.mem_append_left _ he, hes⟩
  · exact h

theorem contextualStep_ok (input : JSString) (st : Detection) (h : DetectionOK st) :
    DetectionOK (contextualStep input st) := by
  have hu : EntryOK userManagementEntry :=
    Or.inr ⟨by simp [userManagementEntry], ⟨0.9, rfl⟩, roundDouble 0.9, rfl, by decide!, by decide!⟩
  have hrt : EntryOK realTimeEntry :=
    Or.inr ⟨by simp [realTimeEntry], ⟨0.85, rfl⟩, roundDouble 0.85, rfl, by decide!, by decide!⟩
  have push : ∀ (st : Detection) (e : SymbolEntry), EntryOK e → DetectionOK st →
      DetectionOK { st with detectedSymbols := st.detectedSymbols ++ [e] } := by
    intro st e he hst
    refine ⟨entryOK_append hst.1 he, ?_⟩
    rcases hst.2 with hq | ⟨x, hx, hxs⟩
    · exact Or.inl hq
    · exact Or.inr ⟨x, List.mem_append_left _ hx, hxs⟩
  unfold contextualStep
  split <;> split
  · exact push _ _ hrt (push _ _ hu h)
  · exact push _ _ hu h
  · exact push _ _ hrt h
  · exact h

theorem detect_ok (H : Host) (hr : ∀ k, 0 ≤ H.random k ∧ H.random k < 1) (input : JSString) :
    DetectionOK (detect H input) := by
  unfold detect patternStage directStage
  apply contextualStep_ok
  apply foldl_preserves DetectionOK _ (fun st p => patternStep_ok H hr input st p)
  apply foldl_preserves DetectionOK _ (fun st w => directStep_ok H hr st w)
  refine ⟨by simp, Or.inl ⟨0, ?_, le_refl _⟩⟩
  show JSNum.lit 0 = JSNum.fin 0
  decide!

/-! ## Behaviour on inputs without a prototype token

The three facts below bound what the failing inputs of the ranking and
confidence claims can be: as long as every entry of the result has an icon
(no token was found on the prototype of `symbolMap`), the ranking is a stable
descending sort and the confidences stay within `[0, 1]`. -/

/-- Ranking, apart from entries found on the prototype.  When the jitter
source stays within `[0, 1)` and every entry of the result has an icon, the
symbols list is a permutation of the deduplicated list, in non-increasing
order of confidence, and entries of equal confidence keep their relative
order. -/
theorem symbols_sorted_stable_of_icons (H : Host)
    (hr : ∀ k, 0 ≤ H.random k ∧ H.random k < 1) (input : JSString)
    (hicons : ∀ e ∈ (processInput H input).symbols, e.symbol ≠ none) :
    (processInput H input).symbols.Perm (dedupFilter (detectedSymbols H input)) ∧
      SortedByConfidence (processInput H input).symbols ∧
      ∀ c : JSNum,
        (processInput H input).symbols.filter (fun e => decide (e.confidence = c)) =
          (dedupFilter (detectedSymbols H input)).filter (fun e => decide (e.confidence = c)) := by
  apply arraySort_sorted_stable
  intro e he
  have hmem : e ∈ uniqueSymbols H input := (uniqueSymbols_perm H input).mem_iff.mpr he
  have hok := (detect_ok H hr input).1 e (mem_detectedSymbols_of_mem_uniqueSymbols hmem)
  rcases hok with ⟨hs, _⟩ | ⟨_, hd, _⟩
  · exact absurd hs (hicons e hmem)
  · exact hd

theorem symbols_sorted_stable_of_icons_witness :
    SortedByConfidence (processInput (asciiHost (fun _ => 1 / 2))
      (utf16 "implement user authentication with login form")).symbols :=
  (symbols_sorted_stable_of_icons (asciiHost (fun _ => 1 / 2))
    (fun _ => ⟨by norm_num [asciiHost], by norm_num [asciiHost]⟩)
    (utf16 "implement user authentication with login form") (by decide!)).2.1

/-- Confidence bound, apart from entries found on the prototype.  When the
jitter source stays within `[0, 1)`, every entry of the result that has an
icon has a finite confidence within `[0, 1]`, with no clamp. -/
theorem confidence_in_unit_interval_of_icon (H : Host)
    (hr : ∀ k, 0 ≤ H.random k ∧ H.random k < 1) (input : JSString) :
    ∀ e ∈ (processInput H input).symbols, e.symbol ≠ none → InUnitInterval e.confidence := by
  intro e he hs
  have hok := (detect_ok H hr input).1 e (mem_detectedSymbols_of_mem_uniqueSymbols he)
  rcases hok with ⟨hn, _⟩ | ⟨_, _, hu⟩
  · exact absurd hn hs
  · exact hu

theorem confidence_in_unit_interval_of_icon_witness :
    ∀ e ∈ (processInput (asciiHost (fun _ => 1 / 2))
        (utf16 "implement user authentication with login form")).symbols,
      e.symbol ≠ none → InUnitInterval e.confidence :=
  confidence_in_unit_interval_of_icon (asciiHost (fun _ => 1 / 2))
    (fun _ => ⟨by norm_num [asciiHost], by norm_num [asciiHost]⟩)
    (utf16 "implement user authentication with login form")

/-- Aggregate bound, apart from the two failing cases.  When the jitter source
stays within `[0, 1)`, at least one symbol is detected and every entry of the
result has an icon, the aggregate confidence is finite and within `[0, 1]`. -/
theorem aggregate_in_unit_interval_of_icons (H : Host)
    (hr : ∀ k, 0 ≤ H.random k ∧ H.random k < 1) (input : JSString)
    (hne : (processInput H input).symbols ≠ [])
    (hicons : ∀ e ∈ (processInput H input).symbols, e.symbol ≠ none) :
    InUnitInterval (processInput H input).confidence := by
  have hok := (detect_ok H hr input).2
  have h1 : roundDouble 1.0 = 1 := by decide!
  rcases hok with ⟨q, hq, hq0⟩ | ⟨e, he, hes⟩
  · have hlen : ((uniqueSymbols H input).length : ℚ) ≠ 0 := by
      have : (uniqueSymbols H input).length ≠ 0 := by
        intro h0
        exact hne (List.length_eq_zero.mp h0)
      exact_mod_cast this
    have hlen0 : (0 : ℚ) ≤ ((uniqueSymbols H input).length : ℚ) := by positivity
    have hconf : (processInput H input).confidence =
        JSNum.fin (if roundDouble (q / ((uniqueSymbols H input).length : ℚ)) ≤ 1
          then roundDouble (q / ((uniqueSymbols H input).length : ℚ)) else 1) := by
      show aggregateConfidence (totalConfidence H input) (uniqueSymbols H input) = _
      have hq' : totalConfidence H input = JSNum.fin q := hq
      simp [aggregateConfidence, hq', JSNum.div, JSNum.ofNat, hlen, JSNum.min, JSNum.lit, h1]
    rw [hconf]
    have hnn := roundDouble_nonneg (div_nonneg hq0 hlen0)
    refine ⟨_, rfl, ?_, ?_⟩
    · split
      · exact hnn
      · norm_num
    · split
      · assumption
      · exact le_refl _
  · obtain ⟨x, hx, hxs⟩ := uniqueSymbols_covers he
    exact absurd (hxs.trans hes) (hicons x hx)

theorem aggregate_in_unit_interval_of_icons_witness :
    InUnitInterval (processInput (asciiHost (fun _ => 1 / 2))
      (utf16 "implement user authentication with login form")).confidence :=
  aggregate_in_unit_interval_of_icons (asciiHost (fun _ => 1 / 2))
    (fun _ => ⟨by norm_num [asciiHost], by norm_num [asciiHost]⟩)
    (utf16 "implement user authentication with login form") (by decide!) (by decide!)

/-! ## The component state -/

theorem parseNaturalLanguage_short (st : EngineState) (env : Environment) (input : JSString)
    (h : input.length < 3) : st.parseNaturalLanguage env input = (st, []) := by
  simp [EngineState.parseNaturalLanguage, Symbolect.parseNaturalLanguage, h]

theorem parseNaturalLanguage_history (st : EngineState) (env : Environment) (input : JSString)
    (h : 3 ≤ input.length) :
    (st.parseNaturalLanguage env input).1.symbolHistory =
      pushHistory (entryOf (env, input)) st.symbolHistory := by
  have hlt : ¬ input.length < 3 := by omega
  simp only [EngineState.parseNaturalLanguage, Symbolect.parseNaturalLanguage, hlt, if_false]
  split
  · rfl
  · split
    · rfl
    · split <;> rfl

theorem take_append_cons_take (A B : List HistoryEntry) (e : HistoryEntry) :
    (A ++ e :: B.take 4).take 5 = (A ++ e :: B).take 5 := by
  rw [List.take_append_eq_append_take, List.take_append_eq_append_take]
  congr 1
  cases h : 5 - A.length with
  | zero => rfl
  | succ j =>
    have hj : j ≤ 4 := by omega
    simp only [List.take_succ_cons, List.take_take]
    rw [min_eq_left hj]

theorem run_history (calls : List (Environment × JSString)) (st : EngineState)
    (h : ∀ c ∈ calls, 3 ≤ c.2.length) (hst : st.symbolHistory.length ≤ 5) :
    (st.run calls).symbolHistory =
      ((calls.map entryOf).reverse ++ st.symbolHistory).take 5 := by
  induction calls generalizing st with
  | nil =>
    simp only [EngineState.run, List.map_nil, List.reverse_nil, List.nil_append]
    exact (List.take_of_length_le hst).symm
  | cons c rest ih =>
    have hc : 3 ≤ c.2.length := h c (List.mem_cons_self _ _)
    have hrest : ∀ c ∈ rest, 3 ≤ c.2.length := fun x hx => h x (List.mem_cons_of_mem _ hx)
    have hstep := parseNaturalLanguage_history st c.1 c.2 hc
    have hlen : (st.parseNaturalLanguage c.1 c.2).1.symbolHistory.length ≤ 5 := by
      rw [hstep]
      simp only [pushHistory, List.length_cons, List.length_take]
      omega
    simp only [EngineState.run]
    rw [ih _ hrest hlen, hstep]
    simp only [pushHistory, List.map_cons, List.reverse_cons, List.append_assoc,
      List.singleton_append]
    exact take_append_cons_take _ _ _

/-- What the `catch` block leaves, for every state, environment and processed
input: when the invocation logs an error, the symbols are empty, the
confidence `0`, the processing flag off and the stage label cleared; the
history and the statistics are those that lines 228 and 235 stored before the
callback was called. -/
theorem parseNaturalLanguage_of_consoleError (st : EngineState) (env : Environment)
    (input : JSString) (h : 3 ≤ input.length)
    (herr : Event.consoleError ∈ (st.parseNaturalLanguage env input).2) :
    (st.parseNaturalLanguage env input).1 =
      { symbols := []
        isProcessing := false
        confidence := JSNum.lit 0
        compressionStats := some (processInput env.host input).stats
        processingStage := utf16 ""
        symbolHistory := pushHistory (entryOf (env, input)) st.symbolHistory } := by
  have hlt : ¬ input.length < 3 := by omega
  simp only [EngineState.parseNaturalLanguage, Symbolect.parseNaturalLanguage, hlt, if_false]
    at herr ⊢
  revert herr
  cases env.callbacks.onSymbolGenerated (processInput env.host input) with
  | throws => intro _; rfl
  | returns =>
    cases env.callbacks.onCompressionComplete with
    | none => intro herr; simp [stageLabels] at herr
    | some onCompressionComplete =>
      dsimp only
      cases onCompressionComplete (processInput env.host input).stats with
      | throws => intro _; rfl
      | returns => intro herr; simp [stageLabels] at herr

theorem parseNaturalLanguage_of_consoleError_witness :
    ((EngineState.initial.run [(asciiEnvironment 0, utf16 "login page")]).parseNaturalLanguage
        { host := asciiHost (fun _ => 0), callbacks := missingCallbacks, now := 1 }
        (utf16 "crud operations")).1.symbolHistory =
      [entryOf ({ host := asciiHost (fun _ => 0), callbacks := missingCallbacks, now := 1 },
          utf16 "crud operations"),
        entryOf (asciiEnvironment 0, utf16 "login page")] :=
  (congrArg EngineState.symbolHistory (parseNaturalLanguage_of_consoleError _
    { host := asciiHost (fun _ => 0), callbacks := missingCallbacks, now := 1 }
    (utf16 "crud operations") (by decide) (by decide!))).trans (by decide!)

/-! ## The three matchers -/

theorem directFold_shape (H : Host) (ws : List JSString) (st : Detection) :
    (ws.foldl (directStep H) st).detectedSymbols.map SymbolEntry.shape =
      st.detectedSymbols.map SymbolEntry.shape ++
        ws.filterMap (fun w => (symbolMapGet (removeNonWord w)).map
          (fun d => (d.symbol, removeNonWord w, d.category, Source.direct, false))) := by
  induction ws generalizing st with
  | nil => simp
  | cons w ws ih =>
    rw [List.foldl_cons, ih, List.filterMap_cons]
    unfold directStep
    cases hget : symbolMapGet (removeNonWord w) with
    | none => simp
    | some d => simp [SymbolEntry.shape]

theorem symbolMapGet_eq_ownLookup (key : JSString)
    (h : objectPrototypeKeys.any (fun k => utf16 k == key) = false) :
    symbolMapGet key = ownLookup key symbolMap := by
  unfold symbolMapGet
  cases ownLookup key symbolMap with
  | some d => rfl
  | none => simp only [h, Bool.false_eq_true, if_false]

/-- The direct matcher, apart from tokens found on the prototype.  When no
token of the lower-cased input cleans to a property name inherited from
`Object.prototype`, the direct matcher emits, in token order, one entry per
token whose cleaned form is a keyword of the catalog, with the keyword's icon
and category, the cleaned token as meaning and source `direct`, and nothing
for any other token. -/
theorem directStage_shape_of_no_prototype_token (H : Host) (input : JSString)
    (h : ∀ w ∈ words H input,
      objectPrototypeKeys.any (fun k => utf16 k == removeNonWord w) = false) :
    (directStage H input).detectedSymbols.map SymbolEntry.shape =
      (words H input).filterMap directShape := by
  unfold directStage
  rw [directFold_shape]
  simp only [List.map_nil, List.nil_append]
  apply List.filterMap_congr
  intro w hw
  simp only [directShape, symbolMapGet_eq_ownLookup _ (h w hw)]

theorem directStage_shape_of_no_prototype_token_witness :
    (directStage (asciiHost (fun _ => 0))
        (utf16 "Login, then the login form!")).detectedSymbols.map SymbolEntry.shape =
      [(some (utf16 "🚪"), utf16 "login", some (utf16 "security"), Source.direct, false),
       (some (utf16 "🚪"), utf16 "login", some (utf16 "security"), Source.direct, false),
       (some (utf16 "📝"), utf16 "form", some (utf16 "ui"), Source.direct, false)] :=
  (directStage_shape_of_no_prototype_token (asciiHost (fun _ => 0))
    (utf16 "Login, then the login form!") (by decide)).trans (by decide)

theorem patternFold_entries (H : Host) (input : JSString) (l : List FlowPattern)
    (st : Detection) :
    (l.foldl (patternStep H input) st).detectedSymbols =
        st.detectedSymbols ++
          patternEntries H st.randomCalls (l.filter (fun p => p.pattern.test input)) ∧
      (l.foldl (patternStep H input) st).totalConfidence =
        (l.filter (fun p => p.pattern.test input)).foldl
          (fun acc _ => JSNum.add acc (JSNum.lit 0.8)) st.totalConfidence := by
  induction l generalizing st with
  | nil => simp [patternEntries]
  | cons p l ih =>
    rw [List.foldl_cons]
    obtain ⟨h1, h2⟩ := ih (patternStep H input st p)
    rw [h1, h2]
    by_cases hp : p.pattern.test input = true
    · simp [patternStep, hp, List.filter_cons, patternEntries]
    · simp [patternStep, hp, List.filter_cons]

theorem canonicalize_asciiLower (c : Nat) :
    canonicalize (if 0x41 ≤ c && c ≤ 0x5A then c + 0x20 else c) = canonicalize c := by
  unfold canonicalize
  by_cases h1 : 0x41 ≤ c <;> by_cases h2 : c ≤ 0x5A <;> simp [h1, h2]
  split <;> omega

theorem isLineTerminator_asciiLower (c : Nat) :
    isLineTerminator (if 0x41 ≤ c && c ≤ 0x5A then c + 0x20 else c) = isLineTerminator c := by
  split
  · rename_i h
    simp only [Bool.and_eq_true, decide_eq_true_eq] at h
    have e : isLineTerminator (c + 0x20) = false := by
      simp only [isLineTerminator, Bool.or_eq_false_iff, beq_eq_false_iff_ne, ne_eq]
      omega
    have f : isLineTerminator c = false := by
      simp only [isLineTerminator, Bool.or_eq_false_iff, beq_eq_false_iff_ne, ne_eq]
      omega
    rw [e, f]
  · rfl

theorem matchAtoms_asciiLower (atoms : List RegexAtom) (s : JSString) :
    matchAtoms atoms (asciiLower s) = matchAtoms atoms s := by
  induction atoms generalizing s with
  | nil => simp [matchAtoms]
  | cons a rest ih =>
    cases a with
    | lit c =>
      cases s with
      | nil => simp [matchAtoms, asciiLower]
      | cons x xs =>
        have := ih xs
        simp only [asciiLower] at this
        simp only [matchAtoms, asciiLower, List.map_cons, canonicalize_asciiLower, this]
    | optAny =>
      cases s with
      | nil =>
        have := ih []
        simp only [asciiLower, List.map_nil] at this
        simp [matchAtoms, asciiLower]
      | cons x xs =>
        have h1 := ih xs
        have h2 := ih (x :: xs)
        simp only [asciiLower, List.map_cons] at h1 h2
        simp only [matchAtoms, asciiLower, List.map_cons, isLineTerminator_asciiLower, h1, h2]

theorem test_asciiLower (r : Regex) (input : JSString) :
    Regex.test r (asciiLower input) = Regex.test r input := by
  unfold Regex.test
  induction input with
  | nil => simp [asciiLower, matchAtoms_asciiLower]
  | cons x xs ih =>
    have hx : asciiLower (x :: xs) =
        (if 0x41 ≤ x && x ≤ 0x5A then x + 0x20 else x) :: asciiLower xs := rfl
    rw [hx, List.tails_cons, List.tails_cons, List.any_cons, List.any_cons, ih, ← hx]
    congr 1
    congr 1
    funext alt
    exact matchAtoms_asciiLower alt (x :: xs)

theorem foldl_preserves_of_mem {β : Type} (I : Detection → Prop) (f : Detection → β → Detection)
    (l : List β) (hf : ∀ st b, b ∈ l → I st → I (f st b)) (st : Detection) (h : I st) :
    I (l.foldl f st) := by
  induction l generalizing st with
  | nil => exact h
  | cons b l ih =>
    exact ih (fun st' b' hb' => hf st' b' (List.mem_cons_of_mem _ hb')) _
      (hf st b (List.mem_cons_self _ _) h)

theorem directStep_origin (H : Host) (input : JSString) (st : Detection) (w : JSString)
    (h : ∀ e ∈ st.detectedSymbols, EntryOrigin input e) :
    ∀ e ∈ (directStep H st w).detectedSymbols, EntryOrigin input e := by
  unfold directStep
  cases hget : symbolMapGet (removeNonWord w) with
  | none => exact h
  | some d =>
    intro e he
    rcases List.mem_append.mp he with he | he
    · exact h e he
    · have : e = _ := List.mem_singleton.mp he
      subst this
      exact Or.inl ⟨rfl, rfl, d, hget, rfl, rfl⟩

theorem patternStep_origin (H : Host) (input : JSString) (st : Detection) (p : FlowPattern)
    (hp : p ∈ flowPatterns) (h : ∀ e ∈ st.detectedSymbols, EntryOrigin input e) :
    ∀ e ∈ (patternStep H input st p).detectedSymbols, EntryOrigin input e := by
  unfold patternStep
  split
  · rename_i hm
    intro e he
    rcases List.mem_append.mp he with he | he
    · exact h e he
    · have : e = _ := List.mem_singleton.mp he
      subst this
      exact Or.inr (Or.inl ⟨p, hp, hm, rfl, rfl, rfl, rfl, rfl⟩)
  · exact h

theorem contextualStep_detectedSymbols (input : JSString) (st : Detection) :
    (contextualStep input st).detectedSymbols =
      st.detectedSymbols ++
        (if includes input (utf16 "user") && includes input (utf16 "management")
          then [userManagementEntry] else []) ++
        (if includes input (utf16 "real") && includes input (utf16 "time")
          then [realTimeEntry] else []) := by
  unfold contextualStep
  split <;> split <;> simp_all

theorem detectedSymbols_eq (H : Host) (input : JSString) :
    detectedSymbols H input =
      (patternStage H input).detectedSymbols ++
        (if includes input (utf16 "user") && includes input (utf16 "management")
          then [userManagementEntry] else []) ++
        (if includes input (utf16 "real") && includes input (utf16 "time")
          then [realTimeEntry] else []) :=
  contextualStep_detectedSymbols input _

theorem patternStage_origin (H : Host) (input : JSString) :
    ∀ e ∈ (patternStage H input).detectedSymbols, EntryOrigin input e := by
  unfold patternStage directStage
  apply foldl_preserves_of_mem (fun st => ∀ e ∈ st.detectedSymbols, EntryOrigin input e) _ _
    (fun st p hp h => patternStep_origin H input st p hp h)
  apply foldl_preserves (fun st => ∀ e ∈ st.detectedSymbols, EntryOrigin input e) _
    (fun st w h => directStep_origin H input st w h)
  simp

theorem detectedSymbols_origin (H : Host) (input : JSString) :
    ∀ e ∈ detectedSymbols H input, EntryOrigin input e := by
  intro e he
  rw [detectedSymbols_eq] at he
  rcases List.mem_append.mp he with he | he
  · rcases List.mem_append.mp he with he | he
    · exact patternStage_origin H input e he
    · split at he
      · rename_i hc
        simp only [Bool.and_eq_true] at hc
        have : e = userManagementEntry := by simpa using he
        exact Or.inr (Or.inr (Or.inl ⟨this, hc.1, hc.2⟩))
      · simp at he
  · split at he
    · rename_i hc
      simp only [Bool.and_eq_true] at hc
      have : e = realTimeEntry := by simpa using he
      exact Or.inr (Or.inr (Or.inr ⟨this, hc.1, hc.2⟩))
    · simp at he

theorem flows_nodup : (flowPatterns.map (fun p => p.flow)).Nodup := by decide

theorem catalog_icon_ne_flow :
    ∀ e ∈ symbolMap, ∀ q ∈ flowPatterns, utf16 e.2.1 ≠ q.flow := by
  have h : symbolMap.all (fun e => flowPatterns.all (fun q => decide (utf16 e.2.1 ≠ q.flow)))
      = true := by decide
  intro e he q hq
  have := List.all_eq_true.mp (List.all_eq_true.mp h e he) q hq
  simpa using this

theorem contextual_icon_ne_flow :
    ∀ q ∈ flowPatterns,
      userManagementEntry.symbol ≠ some q.flow ∧ realTimeEntry.symbol ≠ some q.flow := by
  have h : flowPatterns.all (fun q => decide (userManagementEntry.symbol ≠ some q.flow) &&
      decide (realTimeEntry.symbol ≠ some q.flow)) = true := by decide
  intro q hq
  have := List.all_eq_true.mp h q hq
  simpa using this

theorem catalog_icon_ne_contextual :
    ∀ e ∈ symbolMap, some (utf16 e.2.1) ≠ userManagementEntry.symbol ∧
      some (utf16 e.2.1) ≠ realTimeEntry.symbol := by
  have h : symbolMap.all (fun e => decide (some (utf16 e.2.1) ≠ userManagementEntry.symbol) &&
      decide (some (utf16 e.2.1) ≠ realTimeEntry.symbol)) = true := by decide
  intro e he
  have := List.all_eq_true.mp h e he
  simpa using this

theorem symbolMapGet_symbol {key : JSString} {d : SymbolData} (h : symbolMapGet key = some d) :
    d.symbol = none ∨ ∃ e ∈ symbolMap, d.symbol = some (utf16 e.2.1) := by
  unfold symbolMapGet at h
  cases hown : ownLookup key symbolMap with
  | some d' =>
    rw [hown] at h
    obtain ⟨e, he, hd⟩ := ownLookup_some hown
    have hdd : d = d' := by simpa using h.symm
    right
    exact ⟨e, he, by rw [hdd, hd]⟩
  | none =>
    rw [hown] at h
    left
    simp only at h
    split at h
    · have hdd : d = { symbol := none, category := none, weight := none } := by
        simpa using h.symm
      rw [hdd]
    · simp at h

theorem patternEntries_symbols (H : Host) (k : Nat) (ps : List FlowPattern) :
    (patternEntries H k ps).map (fun e => e.symbol) = ps.map (fun p => some p.flow) := by
  induction ps generalizing k with
  | nil => rfl
  | cons p ps ih => simp [patternEntries, ih]

theorem exists_mem_patternEntries (H : Host) (k : Nat) (ps : List FlowPattern) (p : FlowPattern)
    (hp : p ∈ ps) :
    ∃ e ∈ patternEntries H k ps, e.symbol = some p.flow ∧ e.meaning = p.description ∧
      e.source = Source.pattern ∧ e.flow = true := by
  induction ps generalizing k with
  | nil => simp at hp
  | cons q ps ih =>
    rcases List.mem_cons.mp hp with rfl | hp
    · exact ⟨_, List.mem_cons_self _ _, rfl, rfl, rfl, rfl⟩
    · obtain ⟨e, he, h⟩ := ih (k + 1) hp
      exact ⟨e, List.mem_cons_of_mem _ he, h⟩

theorem patternStage_detectedSymbols (H : Host) (input : JSString) :
    (patternStage H input).detectedSymbols =
      (directStage H input).detectedSymbols ++
        patternEntries H (directStage H input).randomCalls
          (flowPatterns.filter (fun p => p.pattern.test input)) :=
  (patternFold_entries H input flowPatterns (directStage H input)).1

theorem directStage_origin (H : Host) (input : JSString) :
    ∀ e ∈ (directStage H input).detectedSymbols,
      e.source = Source.direct ∧ ∃ d, symbolMapGet e.meaning = some d ∧ e.symbol = d.symbol := by
  unfold directStage
  apply foldl_preserves (fun st => ∀ e ∈ st.detectedSymbols,
    e.source = Source.direct ∧ ∃ d, symbolMapGet e.meaning = some d ∧ e.symbol = d.symbol)
  · intro st w h
    unfold directStep
    cases hget : symbolMapGet (removeNonWord w) with
    | none => exact h
    | some d =>
      intro e he
      rcases List.mem_append.mp he with he | he
      · exact h e he
      · have : e = _ := List.mem_singleton.mp he
        subst this
        exact ⟨rfl, d, hget, rfl⟩
  · simp

theorem direct_icon_ne_flow {e : SymbolEntry} {d : SymbolData}
    (hd : symbolMapGet e.meaning = some d) (hs : e.symbol = d.symbol)
    {q : FlowPattern} (hq : q ∈ flowPatterns) : e.symbol ≠ some q.flow := by
  intro h
  rcases symbolMapGet_symbol hd with hn | ⟨c, hc, hcs⟩
  · rw [hs, hn] at h; simp at h
  · rw [hs, hcs] at h
    exact catalog_icon_ne_flow c hc q hq (by simpa using h)

theorem mem_patternEntries_of_flow_icon (H : Host) (input : JSString) {q : FlowPattern}
    (hq : q ∈ flowPatterns) {x : SymbolEntry} (hx : x ∈ detectedSymbols H input)
    (hxs : x.symbol = some q.flow) :
    x ∈ patternEntries H (directStage H input).randomCalls
      (flowPatterns.filter (fun p => p.pattern.test input)) := by
  rw [detectedSymbols_eq, patternStage_detectedSymbols] at hx
  rcases List.mem_append.mp hx with hx | hx
  · rcases List.mem_append.mp hx with hx | hx
    · rcases List.mem_append.mp hx with hx | hx
      · obtain ⟨_, d, hd, hs⟩ := directStage_origin H input x hx
        exact absurd hxs (direct_icon_ne_flow hd hs hq)
      · exact hx
    · split at hx
      · have : x = userManagementEntry := by simpa using hx
        rw [this] at hxs
        exact absurd hxs (contextual_icon_ne_flow q hq).1
      · simp at hx
  · split at hx
    · have : x = realTimeEntry := by simpa using hx
      rw [this] at hxs
      exact absurd hxs (contextual_icon_ne_flow q hq).2
    · simp at hx

theorem patternEntries_icons_nodup (H : Host) (input : JSString) (k : Nat) :
    ((patternEntries H k (flowPatterns.filter (fun p => p.pattern.test input))).map
      (fun e => e.symbol)).Nodup := by
  rw [patternEntries_symbols]
  have h1 : (flowPatterns.map (fun p => some p.flow)).Nodup := by
    have := flows_nodup.map (f := fun s : JSString => some s) (fun a b h => by simpa using h)
    simpa [List.map_map, Function.comp_def] using this
  exact h1.sublist ((List.filter_sublist _).map _)

theorem mem_uniqueSymbols_of_unique_icon {H : Host} {input : JSString} {e : SymbolEntry}
    (he : e ∈ detectedSymbols H input)
    (hu : ∀ x ∈ detectedSymbols H input, x.symbol = e.symbol → x = e) :
    e ∈ uniqueSymbols H input := by
  obtain ⟨x, hx, hxs⟩ := uniqueSymbols_covers he
  have := hu x (mem_detectedSymbols_of_mem_uniqueSymbols hx) hxs
  exact this ▸ hx

theorem pattern_entry_mem_uniqueSymbols (H : Host) (input : JSString) {e : SymbolEntry}
    (he : e ∈ detectedSymbols H input) (hsrc : e.source = Source.pattern) :
    e ∈ uniqueSymbols H input ∧ e.flow = true := by
  have horigin := detectedSymbols_origin H input e he
  rcases horigin with ⟨hd, _⟩ | ⟨q, hq, _, hs, _, _, _, hf⟩ | ⟨hu, _⟩ | ⟨hr, _⟩
  · rw [hd] at hsrc; cases hsrc
  · refine ⟨mem_uniqueSymbols_of_unique_icon he ?_, hf⟩
    intro x hx hxs
    have h1 := mem_patternEntries_of_flow_icon H input hq hx (hxs.trans hs)
    have h2 := mem_patternEntries_of_flow_icon H input hq he hs
    exact List.inj_on_of_nodup_map (patternEntries_icons_nodup H input _) h1 h2 hxs
  · rw [hu] at hsrc; cases hsrc
  · rw [hr] at hsrc; cases hsrc

theorem filter_icon_eq_singleton {l : List SymbolEntry} {a : SymbolEntry}
    (hn : (l.map (fun e => e.symbol)).Nodup) (ha : a ∈ l) :
    l.filter (fun e => decide (e.symbol = a.symbol)) = [a] := by
  induction l with
  | nil => simp at ha
  | cons x xs ih =>
    rw [List.map_cons, List.nodup_cons] at hn
    rcases List.mem_cons.mp ha with rfl | hxs
    · have : xs.filter (fun e => decide (e.symbol = a.symbol)) = [] := by
        rw [List.filter_eq_nil_iff]
        intro e he
        simp only [decide_eq_true_eq]
        intro hes
        exact hn.1 (hes ▸ List.mem_map_of_mem (fun e => e.symbol) he)
      simp [List.filter_cons, this]
    · have hne : ¬ x.symbol = a.symbol := by
        intro h
        exact hn.1 (h ▸ List.mem_map_of_mem (fun e => e.symbol) hxs)
      simp [List.filter_cons, hne, ih hn.2 hxs]

theorem userManagement_icon_unique (H : Host) (input : JSString) :
    ∀ x ∈ detectedSymbols H input, x.symbol = userManagementEntry.symbol →
      x = userManagementEntry := by
  intro x hx hxs
  rcases detectedSymbols_origin H input x hx with
    ⟨_, _, d, hd, hs, _⟩ | ⟨q, hq, _, hs, _⟩ | ⟨hu, _⟩ | ⟨hr, _⟩
  · exfalso
    rcases symbolMapGet_symbol hd with hn | ⟨c, hc, hcs⟩
    · rw [hs, hn] at hxs; simp [userManagementEntry] at hxs
    · rw [hs, hcs] at hxs
      exact (catalog_icon_ne_contextual c hc).1 hxs
  · exfalso
    exact (contextual_icon_ne_flow q hq).1 (hxs.symm.trans hs)
  · exact hu
  · exfalso
    rw [hr] at hxs
    revert hxs
    decide

theorem realTime_icon_unique (H : Host) (input : JSString) :
    ∀ x ∈ detectedSymbols H input, x.symbol = realTimeEntry.symbol → x = realTimeEntry := by
  intro x hx hxs
  rcases detectedSymbols_origin H input x hx with
    ⟨_, _, d, hd, hs, _⟩ | ⟨q, hq, _, hs, _⟩ | ⟨hu, _⟩ | ⟨hr, _⟩
  · exfalso
    rcases symbolMapGet_symbol hd with hn | ⟨c, hc, hcs⟩
    · rw [hs, hn] at hxs; simp [realTimeEntry] at hxs
    · rw [hs, hcs] at hxs
      exact (catalog_icon_ne_contextual c hc).2 hxs
  · exfalso
    exact (contextual_icon_ne_flow q hq).2 (hxs.symm.trans hs)
  · exfalso
    rw [hu] at hxs
    revert hxs
    decide
  · exact hr

/-- The contextual rules read the input as it is: each composite symbol is
among the detected symbols if and only if the input itself contains both
substrings of its rule. -/
theorem contextual_entry_detected_iff (H : Host) (input : JSString) :
    (userManagementEntry ∈ detectedSymbols H input ↔
        includes input (utf16 "user") = true ∧ includes input (utf16 "management") = true) ∧
      (realTimeEntry ∈ detectedSymbols H input ↔
        includes input (utf16 "real") = true ∧ includes input (utf16 "time") = true) := by
  have hne : userManagementEntry ≠ realTimeEntry := by decide
  constructor
  · constructor
    · intro h
      rcases detectedSymbols_origin H input _ h with
        ⟨hs, _⟩ | ⟨q, _, _, _, _, _, hs, _⟩ | ⟨_, h1, h2⟩ | ⟨hr, _⟩
      · cases hs
      · cases hs
      · exact ⟨h1, h2⟩
      · exact absurd hr hne
    · rintro ⟨h1, h2⟩
      rw [detectedSymbols_eq]
      simp [h1, h2]
  · constructor
    · intro h
      rcases detectedSymbols_origin H input _ h with
        ⟨hs, _⟩ | ⟨q, _, _, _, _, _, hs, _⟩ | ⟨hu, _⟩ | ⟨_, h1, h2⟩
      · cases hs
      · cases hs
      · exact absurd hu.symm hne
      · exact ⟨h1, h2⟩
    · rintro ⟨h1, h2⟩
      rw [detectedSymbols_eq]
      simp [h1, h2]

/-! ## Flows, tokens and weights -/

theorem flow_iff_pattern (H : Host) (input : JSString) :
    ∀ e ∈ detectedSymbols H input, (e.flow = true ↔ e.source = Source.pattern) := by
  intro e he
  rcases detectedSymbols_origin H input e he with
    ⟨hs, hf, _⟩ | ⟨q, _, _, _, _, _, hs, hf⟩ | ⟨hu, _⟩ | ⟨hr, _⟩
  · simp [hs, hf]
  · simp [hs, hf]
  · rw [hu]; decide
  · rw [hr]; decide

theorem directFold_totalConfidence (H : Host) (ws : List JSString) (st : Detection) :
    (ws.foldl (directStep H) st).totalConfidence =
      (ws.filterMap (fun w => (symbolMapGet (removeNonWord w)).map
        (fun d => JSNum.ofOption d.weight))).foldl JSNum.add st.totalConfidence := by
  induction ws generalizing st with
  | nil => rfl
  | cons w ws ih =>
    rw [List.foldl_cons, ih, List.filterMap_cons]
    unfold directStep
    cases hget : symbolMapGet (removeNonWord w) with
    | none => simp
    | some d => simp

theorem contextualStep_totalConfidence (input : JSString) (st : Detection) :
    (contextualStep input st).totalConfidence = st.totalConfidence := by
  unfold contextualStep
  split <;> split <;> rfl

theorem totalConfidence_eq_weightSum (H : Host) (input : JSString) :
    totalConfidence H input = weightSum H input := by
  unfold totalConfidence detect
  rw [contextualStep_totalConfidence]
  unfold patternStage
  rw [(patternFold_entries H input flowPatterns (directStage H input)).2]
  unfold directStage
  rw [directFold_totalConfidence]
  simp only [weightSum, directHitWeights, patternWeights, List.foldl_append, List.foldl_map]

theorem weightTotal_of_contextual (l : List SymbolEntry)
    (h : ∀ e ∈ l, e.source = Source.contextual) : weightTotal l = JSNum.lit 0 := by
  induction l using List.reverseRecOn with
  | nil => rfl
  | append_singleton l e ih =>
    rw [weightTotal_append_singleton]
    have he : e.source = Source.contextual := h e (by simp)
    simp only [accumulatedWeight, he]
    exact ih (fun x hx => h x (List.mem_append_left _ hx))

theorem detected_contextual_of_unique_contextual (H : Host) (input : JSString)
    (h : ∀ e ∈ uniqueSymbols H input, e.source = Source.contextual) :
    ∀ e ∈ detectedSymbols H input, e.source = Source.contextual := by
  intro e he
  obtain ⟨x, hx, hxs⟩ := uniqueSymbols_covers he
  have hxsrc := h x hx
  have hxd := mem_detectedSymbols_of_mem_uniqueSymbols hx
  rcases detectedSymbols_origin H input x hxd with
    ⟨hs, _⟩ | ⟨q, _, _, _, _, _, hs, _⟩ | ⟨hu, _⟩ | ⟨hr, _⟩
  · rw [hs] at hxsrc; cases hxsrc
  · rw [hs] at hxsrc; cases hxsrc
  · rw [hu] at hxs
    rw [userManagement_icon_unique H input e he hxs.symm]
    rfl
  · rw [hr] at hxs
    rw [realTime_icon_unique H input e he hxs.symm]
    rfl

/-! ## Independence of the jitter -/

theorem foldl_preserves_rel {β : Type} (R : Detection → Detection → Prop)
    (f g : Detection → β → Detection) (hfg : ∀ s t b, R s t → R (f s b) (g t b))
    (l : List β) (s t : Detection) (h : R s t) : R (l.foldl f s) (l.foldl g t) := by
  induction l generalizing s t with
  | nil => exact h
  | cons b l ih => exact ih _ _ (hfg s t b h)

/-- Stages 1 to 3 under two jitter sources: the detected entries differ in
their confidence at most, and the weight totals are equal. -/
theorem detect_shape_of_random (toLowerCase : JSString → JSString) (random₁ random₂ : Nat → ℚ)
    (input : JSString) :
    (detectedSymbols { toLowerCase := toLowerCase, random := random₁ } input).map SymbolEntry.shape =
        (detectedSymbols { toLowerCase := toLowerCase, random := random₂ } input).map
          SymbolEntry.shape ∧
      totalConfidence { toLowerCase := toLowerCase, random := random₁ } input =
        totalConfidence { toLowerCase := toLowerCase, random := random₂ } input := by
  unfold detectedSymbols totalConfidence detect patternStage directStage words
  have h1 := foldl_preserves_rel
    (fun s t => s.detectedSymbols.map SymbolEntry.shape = t.detectedSymbols.map SymbolEntry.shape ∧
      s.totalConfidence = t.totalConfidence)
    (directStep { toLowerCase := toLowerCase, random := random₁ })
    (directStep { toLowerCase := toLowerCase, random := random₂ })
    (by
      intro s t w ⟨hs, ht⟩
      unfold directStep
      cases symbolMapGet (removeNonWord w) with
      | none => exact ⟨hs, ht⟩
      | some d => simp [SymbolEntry.shape, hs, ht])
    (splitWhiteSpace (toLowerCase input))
    { detectedSymbols := [], totalConfidence := JSNum.lit 0, randomCalls := 0 }
    { detectedSymbols := [], totalConfidence := JSNum.lit 0, randomCalls := 0 }
    ⟨rfl, rfl⟩
  have h2 := foldl_preserves_rel
    (fun s t => s.detectedSymbols.map SymbolEntry.shape = t.detectedSymbols.map SymbolEntry.shape ∧
      s.totalConfidence = t.totalConfidence)
    (patternStep { toLowerCase := toLowerCase, random := random₁ } input)
    (patternStep { toLowerCase := toLowerCase, random := random₂ } input)
    (by
      intro s t p ⟨hs, ht⟩
      unfold patternStep
      split
      · simp [SymbolEntry.shape, hs, ht]
      · exact ⟨hs, ht⟩)
    flowPatterns _ _ h1
  obtain ⟨h3, h4⟩ := h2
  constructor
  · rw [contextualStep_detectedSymbols, contextualStep_detectedSymbols]
    simp only [List.map_append, h3]
  · rw [contextualStep_totalConfidence, contextualStep_totalConfidence]
    exact h4

theorem uniqueSymbols_shape_of_random (toLowerCase : JSString → JSString)
    (random₁ random₂ : Nat → ℚ) (input : JSString) :
    ((uniqueSymbols { toLowerCase := toLowerCase, random := random₁ } input).map
        SymbolEntry.shape).Perm
      ((uniqueSymbols { toLowerCase := toLowerCase, random := random₂ } input).map
        SymbolEntry.shape) := by
  have h1 := (uniqueSymbols_perm { toLowerCase := toLowerCase, random := random₁ } input).map
    SymbolEntry.shape
  have h2 := (uniqueSymbols_perm { toLowerCase := toLowerCase, random := random₂ } input).map
    SymbolEntry.shape
  have h3 : (dedupFilter (detectedSymbols { toLowerCase := toLowerCase, random := random₁ }
      input)).map SymbolEntry.shape =
      (dedupFilter (detectedSymbols { toLowerCase := toLowerCase, random := random₂ }
        input)).map SymbolEntry.shape := by
    rw [dedupFilter_eq, dedupFilter_eq]
    exact firstOccurrencesFrom_shape _ _ _ _ rfl
      (detect_shape_of_random toLowerCase random₁ random₂ input).1
  exact h1.trans (h3 ▸ h2.symm)

theorem flows_shape (l : List SymbolEntry) :
    (l.filter (fun s => s.flow)).map SymbolEntry.shape =
      (l.map SymbolEntry.shape).filter (fun x => x.2.2.2.2) := by
  induction l with
  | nil => rfl
  | cons e l ih =>
    by_cases h : e.flow = true
    · simp [List.filter_cons, h, SymbolEntry.shape, ih]
    · simp [List.filter_cons, h, SymbolEntry.shape, ih]

/-! ## Keywords that share an icon -/

theorem find_of_mem_uniqueSymbols {H : Host} {input : JSString} {x : SymbolEntry}
    (hx : x ∈ uniqueSymbols H input) :
    (detectedSymbols H input).find? (fun e => decide (e.symbol = x.symbol)) = some x := by
  have h1 := (uniqueSymbols_perm H input).mem_iff.mp hx
  rw [dedupFilter_eq] at h1
  exact find_of_mem_firstOccurrencesFrom h1

theorem uniqueSymbols_icons_nodup (H : Host) (input : JSString) :
    ((uniqueSymbols H input).map (fun e => e.symbol)).Nodup := by
  have hp : ((uniqueSymbols H input).map (fun s => s.symbol)).Perm
      ((dedupFilter (detectedSymbols H input)).map (fun s => s.symbol)) :=
    (uniqueSymbols_perm H input).map _
  rw [hp.nodup_iff, dedupFilter_eq]
  exact (List.pairwise_map).mpr (firstOccurrencesFrom_pairwise _ _)

/-- The entry of the result for an icon of the catalog: when `t` is the first
token that `symbolMap` maps to `icon`, the result has exactly one entry with
that icon, and it is the direct entry of `t`. -/
theorem entry_of_first_token (H : Host) (input : JSString) (icon t : JSString)
    (ht : (tokens H input).find?
      (fun t => (symbolMapGet t).any (fun d => decide (d.symbol = some icon))) = some t) :
    ∃ e d, symbolMapGet t = some d ∧
      (uniqueSymbols H input).filter (fun s => decide (s.symbol = some icon)) = [e] ∧
      e.shape = (some icon, t, d.category, Source.direct, false) := by
  have hq := List.find?_some ht
  obtain ⟨d, hd, hdicon⟩ : ∃ d, symbolMapGet t = some d ∧ d.symbol = some icon := by
    cases hget : symbolMapGet t with
    | none => simp [hget] at hq
    | some d => exact ⟨d, rfl, by simpa [hget] using hq⟩
  unfold tokens at ht
  rw [List.find?_map] at ht
  obtain ⟨w, hw, hwt⟩ := Option.map_eq_some'.mp ht
  have hshape : ((detectedSymbols H input).map SymbolEntry.shape).find?
      (fun x => decide (x.1 = some icon)) =
      some (some icon, t, d.category, Source.direct, false) := by
    have hdirect := directFold_shape H (words H input)
      { detectedSymbols := [], totalConfidence := JSNum.lit 0, randomCalls := 0 }
    simp only [List.map_nil, List.nil_append] at hdirect
    rw [detectedSymbols_eq, patternStage_detectedSymbols]
    simp only [List.map_append, List.find?_append]
    have hfirst : ((directStage H input).detectedSymbols.map SymbolEntry.shape).find?
        (fun x => decide (x.1 = some icon)) =
        some (some icon, t, d.category, Source.direct, false) := by
      unfold directStage
      rw [hdirect, List.find?_filterMap]
      have hfun : (fun a => Option.any (fun x : Option JSString × JSString × Option JSString ×
            Source × Bool => decide (x.1 = some icon))
          ((symbolMapGet (removeNonWord a)).map
            (fun d => (d.symbol, removeNonWord a, d.category, Source.direct, false)))) =
          ((fun t => (symbolMapGet t).any (fun d => decide (d.symbol = some icon))) ∘
            removeNonWord) := by
        funext a
        show _ = Option.any (fun d : SymbolData => decide (d.symbol = some icon))
          (symbolMapGet (removeNonWord a))
        cases symbolMapGet (removeNonWord a) <;> rfl
      rw [hfun, hw]
      simp [hwt, hd, hdicon]
    rw [hfirst]
    rfl
  rw [List.find?_map] at hshape
  obtain ⟨e, he, hes⟩ := Option.map_eq_some'.mp hshape
  have hemem : e ∈ detectedSymbols H input := List.mem_of_find?_eq_some he
  have hesym : e.symbol = some icon := congrArg Prod.fst hes
  obtain ⟨x, hx, hxs⟩ := uniqueSymbols_covers hemem
  have hfind := find_of_mem_uniqueSymbols hx
  rw [hxs, hesym] at hfind
  have hxe : x = e := by
    have : some x = some e := hfind.symm.trans he
    exact Option.some.inj this
  subst hxe
  refine ⟨x, d, hd, ?_, hes⟩
  have := filter_icon_eq_singleton (uniqueSymbols_icons_nodup H input) hx
  rwa [hesym] at this

theorem ownLookup_some_key {key : JSString} {table : List (String × String × String × ℚ)}
    {d : SymbolData} (h : ownLookup key table = some d) :
    ∃ c ∈ table, utf16 c.1 = key ∧ d = entryData c := by
  induction table with
  | nil => simp [ownLookup] at h
  | cons c rest ih =>
    obtain ⟨k, s, g, w⟩ := c
    simp only [ownLookup] at h
    split at h
    · rename_i hk
      exact ⟨(k, s, g, w), List.mem_cons_self _ _, hk, by simpa [entryData] using h.symm⟩
    · obtain ⟨c', hc', hd⟩ := ih h
      exact ⟨c', List.mem_cons_of_mem _ hc', hd⟩

theorem symbolMapGet_keyword :
    ∀ c ∈ symbolMap, symbolMapGet (utf16 c.1) = some (entryData c) := by
  have h : symbolMap.all (fun c => decide (symbolMapGet (utf16 c.1) = some (entryData c)))
      = true := by decide!
  intro c hc
  simpa using List.all_eq_true.mp h c hc

/-- A token is mapped to `icon` by `symbolMap` exactly when it is a keyword of
the catalog with that icon. -/
theorem symbolMapGet_icon_iff (icon t : JSString) :
    (symbolMapGet t).any (fun d => decide (d.symbol = some icon)) = true ↔
      ∃ c ∈ symbolMap, utf16 c.1 = t ∧ utf16 c.2.1 = icon := by
  constructor
  · intro h
    cases hget : symbolMapGet t with
    | none => simp [hget] at h
    | some d =>
      have hdicon : d.symbol = some icon := by simpa [hget] using h
      unfold symbolMapGet at hget
      cases hown : ownLookup t symbolMap with
      | some d' =>
        rw [hown] at hget
        obtain ⟨c, hc, hkey, hd⟩ := ownLookup_some_key hown
        have hdd : d = d' := by simpa using hget.symm
        refine ⟨c, hc, hkey, ?_⟩
        rw [hdd, hd] at hdicon
        simpa [entryData] using hdicon
      | none =>
        rw [hown] at hget
        simp only at hget
        split at hget
        · have hdd : d = { symbol := none, category := none, weight := none } := by
            simpa using hget.symm
          rw [hdd] at hdicon
          simp at hdicon
        · simp at hget
  · rintro ⟨c, hc, hkey, hicon⟩
    rw [← hkey, symbolMapGet_keyword c hc]
    simp [entryData, hicon]

theorem sharedIconPairs_keywords :
    ∀ p ∈ sharedIconPairs,
      (∀ c ∈ symbolMap, utf16 c.2.1 = utf16 p.2.2 → utf16 c.1 = utf16 p.1 ∨ utf16 c.1 = utf16 p.2.1) ∧
      (∃ c ∈ symbolMap, utf16 c.1 = utf16 p.1 ∧ utf16 c.2.1 = utf16 p.2.2) ∧
      (∃ c ∈ symbolMap, utf16 c.1 = utf16 p.2.1 ∧ utf16 c.2.1 = utf16 p.2.2) := by
  decide!

theorem other_keywords_icon :
    ∀ k ∈ symbolMap, (∀ p ∈ sharedIconPairs, k.1 ≠ p.1 ∧ k.1 ≠ p.2.1) →
      ∀ c ∈ symbolMap, utf16 c.2.1 = utf16 k.2.1 → utf16 c.1 = utf16 k.1 := by
  decide!

theorem shared_icon_catalog :
    ∀ a ∈ symbolMap, ∀ b ∈ symbolMap, a.1 ≠ b.1 → utf16 a.2.1 = utf16 b.2.1 →
      (a.1, b.1, a.2.1) ∈ sharedIconPairs ∨ (b.1, a.1, a.2.1) ∈ sharedIconPairs := by
  decide!

/-! ## The status service: lemmas -/

theorem min2_spec {a b : ExtNum} (ha : a ≠ ExtNum.nan) (hb : b ≠ ExtNum.nan) :
    ExtNum.min2 a b ≠ ExtNum.nan ∧ (ExtNum.min2 a b = a ∨ ExtNum.min2 a b = b) ∧
      ExtNum.le (ExtNum.min2 a b) a = true ∧ ExtNum.le (ExtNum.min2 a b) b = true := by
  cases a with
  | nan => exact absurd rfl ha
  | negInf => cases b <;> simp_all [ExtNum.min2, ExtNum.le]
  | posInf => cases b <;> simp_all [ExtNum.min2, ExtNum.le]
  | fin p =>
    cases b with
    | nan => exact absurd rfl hb
    | negInf => simp [ExtNum.min2, ExtNum.le]
    | posInf => simp [ExtNum.min2, ExtNum.le]
    | fin q =>
      simp only [ExtNum.min2, ExtNum.le, decide_eq_true_eq]
      by_cases h : p ≤ q
      · simp [h]
      · simp [h]
        exact le_of_lt (lt_of_not_le h)

theorem extNum_le_trans {a b c : ExtNum} (hab : ExtNum.le a b = true)
    (hbc : ExtNum.le b c = true) : ExtNum.le a c = true := by
  cases a <;> cases b <;> cases c <;> simp_all [ExtNum.le]
  exact le_trans hab hbc

theorem foldl_min2_spec (xs : List ExtNum) (acc : ExtNum) (hacc : acc ≠ ExtNum.nan)
    (hxs : ∀ x ∈ xs, x ≠ ExtNum.nan) :
    xs.foldl ExtNum.min2 acc ≠ ExtNum.nan ∧
      (xs.foldl ExtNum.min2 acc = acc ∨ xs.foldl ExtNum.min2 acc ∈ xs) ∧
      ExtNum.le (xs.foldl ExtNum.min2 acc) acc = true ∧
      ∀ x ∈ xs, ExtNum.le (xs.foldl ExtNum.min2 acc) x = true := by
  induction xs generalizing acc with
  | nil =>
    refine ⟨hacc, Or.inl rfl, ?_, by simp⟩
    cases acc <;> simp_all [ExtNum.le]
  | cons x xs ih =>
    have hx : x ≠ ExtNum.nan := hxs x (List.mem_cons_self _ _)
    obtain ⟨h1, h2, h3, h4⟩ := min2_spec hacc hx
    obtain ⟨i1, i2, i3, i4⟩ := ih (ExtNum.min2 acc x) h1
      (fun y hy => hxs y (List.mem_cons_of_mem _ hy))
    rw [List.foldl_cons]
    refine ⟨i1, ?_, extNum_le_trans i3 h3, ?_⟩
    · rcases i2 with i2 | i2
      · rcases h2 with h2 | h2
        · exact Or.inl (i2.trans h2)
        · exact Or.inr (by rw [i2, h2]; exact List.mem_cons_self _ _)
      · exact Or.inr (List.mem_cons_of_mem _ i2)
    · intro y hy
      rcases List.mem_cons.mp hy with rfl | hy
      · exact extNum_le_trans i3 h4
      · exact i4 y hy

/-- The call `Math.min(...xs)` on at least one number, none of which is `NaN`,
is the minimum of the numbers. -/
theorem mathMin_isMinimum (xs : List ExtNum) (hne : xs ≠ [])
    (hxs : ∀ x ∈ xs, x ≠ ExtNum.nan) : IsMinimumOf (mathMin xs) xs := by
  obtain ⟨_, h2, _, h4⟩ := foldl_min2_spec xs ExtNum.posInf (by simp) hxs
  refine ⟨?_, h4⟩
  rcases h2 with h2 | h2
  · obtain ⟨x, rest, rfl⟩ := List.exists_cons_of_ne_nil hne
    have hx := h4 x (List.mem_cons_self _ _)
    have hxn := hxs x (List.mem_cons_self _ _)
    unfold mathMin
    rw [h2] at hx ⊢
    have : x = ExtNum.posInf := by
      cases x <;> simp_all [ExtNum.le]
    rw [this]
    exact List.mem_cons_self _ _
  · exact h2

theorem lookupOwn_setOwn (l : List (JSString × AgentRecord)) (a b : JSString) (r : AgentRecord) :
    lookupOwn (setOwn l a r) b = if a = b then some r else lookupOwn l b := by
  induction l with
  | nil => simp [setOwn, lookupOwn]
  | cons kv rest ih =>
    obtain ⟨k, v⟩ := kv
    by_cases hka : k = a
    · subst hka
      by_cases hkb : k = b
      · simp [setOwn, lookupOwn, hkb]
      · simp [setOwn, lookupOwn, hkb]
    · by_cases hkb : k = b
      · subst hkb
        have : ¬ a = k := fun h => hka h.symm
        simp [setOwn, lookupOwn, hka, this]
      · simp [setOwn, lookupOwn, hka, hkb, ih]

theorem setOwn_ne_nil (l : List (JSString × AgentRecord)) (a : JSString) (r : AgentRecord) :
    setOwn l a r ≠ [] := by
  cases l with
  | nil => simp [setOwn]
  | cons kv rest =>
    obtain ⟨k, v⟩ := kv
    simp only [setOwn]
    split <;> simp

theorem updateOverallStatus_agents (sv : AIStatusService) :
    sv.updateOverallStatus.agents = sv.agents := rfl

theorem setStatus_agents (sv : AIStatusService) (a s : JSString) (c : Option ExtNum) :
    (sv.setStatus a s c).1.agents =
      sv.agents.set a { status := s, confidence := c.getD (ExtNum.fin 1.0) } := rfl

/-- The overall status and confidence after any call of `setStatus`, in terms
of the own records of `agents`. -/
theorem setStatus_overall (sv : AIStatusService) (a s : JSString) (c : Option ExtNum) :
    ((sv.setStatus a s c).1.status = utf16 "active" ↔
        ∃ r ∈ (sv.setStatus a s c).1.records, r.status ≠ utf16 "idle") ∧
      ((sv.setStatus a s c).1.status = utf16 "idle" ↔
        ∀ r ∈ (sv.setStatus a s c).1.records, r.status = utf16 "idle") ∧
      (sv.setStatus a s c).1.confidence =
        mathMin ((sv.setStatus a s c).1.records.map (fun r => r.confidence)) := by
  have hne : utf16 "active" ≠ utf16 "idle" := by decide
  have hstatus : (sv.setStatus a s c).1.status =
      if (((sv.setStatus a s c).1.records.map (fun agent => agent.status)).filter
        (fun s => decide (s ≠ utf16 "idle"))).length > 0 then utf16 "active" else utf16 "idle" := rfl
  refine ⟨?_, ?_, rfl⟩
  · rw [hstatus]
    constructor
    · intro h
      split at h
      · rename_i hlen
        obtain ⟨x, hx⟩ := List.exists_mem_of_length_pos hlen
        obtain ⟨hx1, hx2⟩ := List.mem_filter.mp hx
        obtain ⟨r, hr, rfl⟩ := List.mem_map.mp hx1
        exact ⟨r, hr, by simpa using hx2⟩
      · exact absurd h.symm hne
    · rintro ⟨r, hr, hrs⟩
      have : 0 < (((sv.setStatus a s c).1.records.map (fun agent => agent.status)).filter
          (fun s => decide (s ≠ utf16 "idle"))).length :=
        List.length_pos_of_mem (List.mem_filter.mpr ⟨List.mem_map_of_mem _ hr, by simpa using hrs⟩)
      rw [if_pos this]
  · rw [hstatus]
    constructor
    · intro h r hr
      split at h
      · exact absurd h hne
      · rename_i hlen
        by_contra hrs
        exact hlen (List.length_pos_of_mem
          (List.mem_filter.mpr ⟨List.mem_map_of_mem _ hr, by simpa using hrs⟩))
    · intro h
      have : ¬ 0 < (((sv.setStatus a s c).1.records.map (fun agent => agent.status)).filter
          (fun s => decide (s ≠ utf16 "idle"))).length := by
        intro hlen
        obtain ⟨x, hx⟩ := List.exists_mem_of_length_pos hlen
        obtain ⟨hx1, hx2⟩ := List.mem_filter.mp hx
        obtain ⟨r, hr, rfl⟩ := List.mem_map.mp hx1
        exact (by simpa using hx2 : r.status ≠ utf16 "idle") (h r hr)
      rw [if_neg this]

theorem get_set_of_ne (o : AgentsObject) (a b : JSString) (r : AgentRecord)
    (ha : a ≠ utf16 "__proto__") (hb : b ≠ a) : (o.set a r).get b = o.get b := by
  have hab : ¬ a = b := fun h => hb h.symm
  simp only [AgentsObject.set, ha, if_false, AgentsObject.get, lookupOwn_setOwn, hab]

theorem get_set_self (o : AgentsObject) (a : JSString) (r : AgentRecord)
    (ha : a ≠ utf16 "__proto__") : (o.set a r).get a = PropertyValue.record r := by
  simp only [AgentsObject.set, ha, if_false, AgentsObject.get, lookupOwn_setOwn, if_true]

theorem set_proto_of_ne (o : AgentsObject) (a : JSString) (r : AgentRecord)
    (ha : a ≠ utf16 "__proto__") : (o.set a r).proto = o.proto := by
  simp only [AgentsObject.set, ha, if_false]

theorem run_agents (calls : List (JSString × JSString × Option ExtNum)) (sv : AIStatusService)
    (hcalls : ∀ x ∈ calls, x.1 ≠ utf16 "__proto__") :
    (sv.run calls).agents.proto = sv.agents.proto ∧
      ∀ b, b ∉ calls.map Prod.fst →
        lookupOwn (sv.run calls).agents.own b = lookupOwn sv.agents.own b := by
  induction calls generalizing sv with
  | nil => exact ⟨rfl, fun _ _ => rfl⟩
  | cons x rest ih =>
    have hx : x.1 ≠ utf16 "__proto__" := hcalls x (List.mem_cons_self _ _)
    obtain ⟨h1, h2⟩ := ih (sv.setStatus x.1 x.2.1 x.2.2).1
      (fun y hy => hcalls y (List.mem_cons_of_mem _ hy))
    simp only [AIStatusService.run]
    refine ⟨?_, ?_⟩
    · rw [h1, setStatus_agents, set_proto_of_ne _ _ _ hx]
    · intro b hb
      simp only [List.map_cons, List.mem_cons, not_or] at hb
      rw [h2 b hb.2, setStatus_agents]
      have hxb : ¬ x.1 = b := fun h => hb.1 h.symm
      simp only [AgentsObject.set, hx, if_false, lookupOwn_setOwn, hxb]

/-- The invariant of the service, apart from the agent identifiers that name
a member of `Object.prototype`.  After any sequence of calls of `setStatus`
and one more call `setStatus(a, s, c)`, none on the identifier `__proto__`:
the overall status is `active` exactly when some record has a status other
than `idle`, and `idle` otherwise; the overall confidence is the minimum of
the recorded confidences (none of them being `NaN`); `getAgentStatus(a)`
returns the record just stored and `getAgentStatus(b)` is unchanged for every
other `b`; and an identifier never set yields the default record, unless it
names a member of `Object.prototype`. -/
theorem statusService_invariant (calls : List (JSString × JSString × Option ExtNum))
    (a s : JSString) (c : Option ExtNum)
    (hcalls : ∀ x ∈ calls, x.1 ≠ utf16 "__proto__") (ha : a ≠ utf16 "__proto__") :
    (((AIStatusService.new.run calls).setStatus a s c).1.status = utf16 "active" ↔
        ∃ r ∈ ((AIStatusService.new.run calls).setStatus a s c).1.records,
          r.status ≠ utf16 "idle") ∧
      (((AIStatusService.new.run calls).setStatus a s c).1.status = utf16 "idle" ↔
        ∀ r ∈ ((AIStatusService.new.run calls).setStatus a s c).1.records,
          r.status = utf16 "idle") ∧
      ((∀ r ∈ ((AIStatusService.new.run calls).setStatus a s c).1.records,
          r.confidence ≠ ExtNum.nan) →
        IsMinimumOf ((AIStatusService.new.run calls).setStatus a s c).1.confidence
          (((AIStatusService.new.run calls).setStatus a s c).1.records.map
            (fun r => r.confidence))) ∧
      ((AIStatusService.new.run calls).setStatus a s c).1.getAgentStatus a =
        PropertyValue.record { status := s, confidence := c.getD (ExtNum.fin 1.0) } ∧
      (∀ b, b ≠ a →
        ((AIStatusService.new.run calls).setStatus a s c).1.getAgentStatus b =
          (AIStatusService.new.run calls).getAgentStatus b) ∧
      (∀ b, b ≠ a → b ∉ calls.map Prod.fst →
        objectPrototypeKeys.any (fun k => utf16 k == b) = false →
        ((AIStatusService.new.run calls).setStatus a s c).1.getAgentStatus b =
          PropertyValue.record { status := utf16 "idle", confidence := ExtNum.fin 1.0 }) := by
  obtain ⟨h1, h2, h3⟩ := setStatus_overall (AIStatusService.new.run calls) a s c
  have hsame : ∀ b, b ≠ a →
      ((AIStatusService.new.run calls).setStatus a s c).1.getAgentStatus b =
        (AIStatusService.new.run calls).getAgentStatus b := by
    intro b hb
    simp only [AIStatusService.getAgentStatus, setStatus_agents, get_set_of_ne _ _ _ _ ha hb]
  refine ⟨h1, h2, ?_, ?_, hsame, ?_⟩
  · intro hnan
    rw [h3]
    apply mathMin_isMinimum
    · have : ((AIStatusService.new.run calls).setStatus a s c).1.records ≠ [] := by
        simp only [AIStatusService.records, setStatus_agents, AgentsObject.set, ha, if_false]
        intro h
        exact setOwn_ne_nil _ _ _ (List.map_eq_nil_iff.mp h)
      intro h
      exact this (List.map_eq_nil_iff.mp h)
    · intro x hx
      obtain ⟨r, hr, rfl⟩ := List.mem_map.mp hx
      exact hnan r hr
  · simp only [AIStatusService.getAgentStatus, setStatus_agents, get_set_self _ _ _ ha,
      PropertyValue.truthy, if_true]
  · intro b hb hnever hkey
    rw [hsame b hb]
    obtain ⟨hp, hl⟩ := run_agents calls AIStatusService.new hcalls
    have hget : (AIStatusService.new.run calls).agents.get b = PropertyValue.undefined := by
      simp only [AgentsObject.get, hl b hnever, hp]
      simp [AIStatusService.new, lookupOwn, hkey]
    simp only [AIStatusService.getAgentStatus, hget, PropertyValue.truthy]
    rfl

theorem statusService_invariant_witness :
    IsMinimumOf (ExtNum.fin 0.5)
        [ExtNum.fin 0.5, ExtNum.fin 1.0] ∧
      ((AIStatusService.new.run
        [(utf16 "planner", utf16 "busy", some (ExtNum.fin 0.75)),
          (utf16 "coder", utf16 "idle", none)]).setStatus
        (utf16 "planner") (utf16 "idle") (some (ExtNum.fin 0.5))).1.getAgentStatus (utf16 "tester") =
        PropertyValue.record { status := utf16 "idle", confidence := ExtNum.fin 1.0 } := by
  have h := statusService_invariant
    [(utf16 "planner", utf16 "busy", some (ExtNum.fin 0.75)),
      (utf16 "coder", utf16 "idle", none)]
    (utf16 "planner") (utf16 "idle") (some (ExtNum.fin 0.5)) (by decide) (by decide)
  refine ⟨?_, h.2.2.2.2.2 (utf16 "tester") (by decide) (by decide) (by decide)⟩
  have h3 := h.2.2.1 (by decide!)
  have e1 : ((AIStatusService.new.run
      [(utf16 "planner", utf16 "busy", some (ExtNum.fin 0.75)),
        (utf16 "coder", utf16 "idle", none)]).setStatus
      (utf16 "planner") (utf16 "idle") (some (ExtNum.fin 0.5))).1.confidence = ExtNum.fin 0.5 := by
    decide!
  have e2 : ((AIStatusService.new.run
      [(utf16 "planner", utf16 "busy", some (ExtNum.fin 0.75)),
        (utf16 "coder", utf16 "idle", none)]).setStatus
      (utf16 "planner") (utf16 "idle") (some (ExtNum.fin 0.5))).1.records.map
        (fun r => r.confidence) = [ExtNum.fin 0.5, ExtNum.fin 1.0] := by
    decide!
  rw [e1, e2] at h3
  exact h3

/-! ## The claims -/

/-- C1. For every host (every jitter) and every input, no two entries of the
symbols list of the result carry the same `symbol` field. -/
theorem symbols_icons_nodup (H : Host) (input : JSString) :
    ((processInput H input).symbols.map (fun s => s.symbol)).Nodup := by
  have hp : ((processInput H input).symbols.map (fun s => s.symbol)).Perm
      ((dedupFilter (detectedSymbols H input)).map (fun s => s.symbol)) :=
    (uniqueSymbols_perm H input).map _
  rw [hp.nodup_iff, dedupFilter_eq]
  exact (List.pairwise_map).mpr (firstOccurrencesFrom_pairwise _ _)

/-- C2. The deduplication filter returns the subsequence of the first
occurrence of each distinct icon, in order of first appearance: it is a
subsequence of the list, and an entry is kept exactly when no earlier entry of
the list has its icon (the last entry of `earlier ++ [s]` is appended to the
result for `earlier` iff no entry of `earlier` has the icon of `s`);
confidences play no part. -/
theorem dedupFilter_keeps_first_occurrences (detected : List SymbolEntry) :
    dedupFilter detected = firstOccurrences detected ∧
      (dedupFilter detected).Sublist detected ∧
      dedupFilter [] = [] ∧
      ∀ (earlier : List SymbolEntry) (s : SymbolEntry),
        dedupFilter (earlier ++ [s]) =
          dedupFilter earlier ++ (if ∃ e ∈ earlier, e.symbol = s.symbol then [] else [s]) := by
  refine ⟨dedupFilter_eq detected, ?_, ?_, ?_⟩
  · rw [dedupFilter_eq]
    exact firstOccurrencesFrom_sublist _ _
  · rw [dedupFilter_eq]
    rfl
  · intro earlier s
    rw [dedupFilter_eq, dedupFilter_eq, firstOccurrencesFrom_append_singleton]
    simp

/-- C3. Deduplication is idempotent. -/
theorem dedupFilter_idempotent (detected : List SymbolEntry) :
    dedupFilter (dedupFilter detected) = dedupFilter detected := by
  rw [dedupFilter_eq (dedupFilter detected), dedupFilter_eq detected]
  exact firstOccurrencesFrom_fixed (firstOccurrencesFrom_pairwise _ _) (by simp)

/-- C4 at the failing input `"constructor login"`, for every jitter.  The
token `constructor` is found on the prototype of `symbolMap`, its entry has a
`NaN` confidence, and no arrangement of the deduplicated entries is in
non-increasing order of confidence. -/
theorem no_sorted_arrangement_at_constructor_login (random : Nat → ℚ) :
    ¬ ∃ P : List SymbolEntry,
      P.Perm (dedupFilter (detectedSymbols (asciiHost random) (utf16 "constructor login"))) ∧
        SortedByConfidence P := by
  have hd : dedupFilter (detectedSymbols (asciiHost random) (utf16 "constructor login")) = [
      { symbol := none, meaning := utf16 "constructor", category := none,
        confidence := JSNum.nan, source := Source.direct, flow := false },
      { symbol := some (utf16 "🚪"), meaning := utf16 "login",
        category := some (utf16 "security"),
        confidence := JSNum.add (JSNum.lit 0.8) (jitter (asciiHost random) 1),
        source := Source.direct, flow := false },
      { symbol := some (utf16 "🔐→👤→✅"), meaning := utf16 "Authentication Flow",
        category := some (utf16 "flow"),
        confidence := JSNum.add (JSNum.lit 0.85) (jitter (asciiHost random) 2),
        source := Source.pattern, flow := true }] := rfl
  rintro ⟨P, hperm, hsorted⟩
  rw [hd] at hperm
  refine not_sortedByConfidence_of_nan (P := P)
    (a := { symbol := none, meaning := utf16 "constructor", category := none,
            confidence := JSNum.nan, source := Source.direct, flow := false })
    (b := { symbol := some (utf16 "🚪"), meaning := utf16 "login",
            category := some (utf16 "security"),
            confidence := JSNum.add (JSNum.lit 0.8) (jitter (asciiHost random) 1),
            source := Source.direct, flow := false })
    (hperm.mem_iff.mpr (by simp)) (hperm.mem_iff.mpr (by simp)) ?_ rfl hsorted
  intro h
  have := congrArg SymbolEntry.symbol h
  simp at this

/-- C5 at the failing input `"constructor login"`, for every jitter: the
result holds an entry whose confidence is `NaN`, hence not within `[0, 1]`. -/
theorem nan_confidence_at_constructor_login (random : Nat → ℚ) :
    ∃ e ∈ (processInput (asciiHost random) (utf16 "constructor login")).symbols,
      e.meaning = utf16 "constructor" ∧ e.confidence = JSNum.nan ∧
        JSNum.le (JSNum.lit 0) e.confidence = false ∧
        JSNum.le e.confidence (JSNum.lit 1) = false := by
  have hd : dedupFilter (detectedSymbols (asciiHost random) (utf16 "constructor login")) = [
      { symbol := none, meaning := utf16 "constructor", category := none,
        confidence := JSNum.nan, source := Source.direct, flow := false },
      { symbol := some (utf16 "🚪"), meaning := utf16 "login",
        category := some (utf16 "security"),
        confidence := JSNum.add (JSNum.lit 0.8) (jitter (asciiHost random) 1),
        source := Source.direct, flow := false },
      { symbol := some (utf16 "🔐→👤→✅"), meaning := utf16 "Authentication Flow",
        category := some (utf16 "flow"),
        confidence := JSNum.add (JSNum.lit 0.85) (jitter (asciiHost random) 2),
        source := Source.pattern, flow := true }] := rfl
  refine ⟨{ symbol := none, meaning := utf16 "constructor", category := none,
            confidence := JSNum.nan, source := Source.direct, flow := false }, ?_, rfl, rfl, ?_, ?_⟩
  · have hperm := uniqueSymbols_perm (asciiHost random) (utf16 "constructor login")
    rw [hd] at hperm
    exact hperm.mem_iff.mpr (by simp)
  · simp [JSNum.le, JSNum.lit]
  · simp [JSNum.le]

/-- C6 at the failing input `"hello there friend"`, for every jitter: no
symbol is detected, the quotient is `0 / 0` and the aggregate confidence is
`NaN`, hence not within `[0, 1]`. -/
theorem aggregate_nan_at_hello_there_friend (random : Nat → ℚ) :
    (processInput (asciiHost random) (utf16 "hello there friend")).symbols = [] ∧
      (processInput (asciiHost random) (utf16 "hello there friend")).confidence = JSNum.nan ∧
      JSNum.le (JSNum.lit 0) (processInput (asciiHost random)
        (utf16 "hello there friend")).confidence = false ∧
      JSNum.le (processInput (asciiHost random)
        (utf16 "hello there friend")).confidence (JSNum.lit 1) = false := by
  have hs : uniqueSymbols (asciiHost random) (utf16 "hello there friend") = [] := rfl
  have ht : totalConfidence (asciiHost random) (utf16 "hello there friend") = JSNum.lit 0 := rfl
  have h0 : JSNum.lit 0 = JSNum.fin 0 := by decide!
  have hc : (processInput (asciiHost random) (utf16 "hello there friend")).confidence
      = JSNum.nan := by
    show aggregateConfidence (totalConfidence (asciiHost random) (utf16 "hello there friend"))
      (uniqueSymbols (asciiHost random) (utf16 "hello there friend")) = JSNum.nan
    rw [hs, ht, h0]
    simp [aggregateConfidence, JSNum.div, JSNum.ofNat, JSNum.min]
  refine ⟨hs, hc, ?_, ?_⟩
  · rw [hc]; simp [JSNum.le, JSNum.lit]
  · rw [hc]; simp [JSNum.le]

/-- C7. The statistics report the length of the symbols list as `symbolCount`
and the number of distinct `category` values among the symbols as `categories`. -/
theorem stats_symbolCount_and_categories (H : Host) (input : JSString) :
    (processInput H input).stats.symbolCount = (processInput H input).symbols.length ∧
      (processInput H input).stats.categories =
        ((processInput H input).symbols.map (fun s => s.category)).toFinset.card :=
  ⟨rfl, setElements_length _⟩

/-- C8, as stated, fails: for the input of the specification's scenario the
statistic `compressedLength` differs from the length of the compressed
representation, which joins the icons with one separator between each pair. -/
theorem compressedLength_ne_length_of_compressed :
    (processInput (asciiHost (fun _ => 0))
        (utf16 "implement user authentication with login form")).stats.compressedLength ≠
      (processInput (asciiHost (fun _ => 0))
        (utf16 "implement user authentication with login form")).compressed.length := by
  decide!

/-- C8, amended. The statistic `compressedLength` is the length of the icons
joined with no separator, that is the sum of the lengths of the icons; the
compressed representation, which puts one separator between each pair of
icons, is longer by the number of separators. -/
theorem compressedLength_eq_sum_of_icon_lengths (H : Host) (input : JSString) :
    (processInput H input).stats.compressedLength =
        ((processInput H input).symbols.map (fun s => (s.symbol.getD []).length)).sum ∧
      (processInput H input).compressed.length =
        (processInput H input).stats.compressedLength +
          ((processInput H input).stats.symbolCount - 1) := by
  constructor
  · simp [processInput, stats, compressedLength, join_length, List.map_map, Function.comp_def]
  · have hsep : (utf16 "⨹").length = 1 := by decide
    simp [processInput, stats, compressedLength, join_length, hsep, List.map_map,
      Function.comp_def]

/-- C9 at the failing input `"crud operations"`, for every jitter: the input
has 15 code units and its only symbol 12, the code reports the ratio `19`
(and the same `tokenReduction`), and the value in exact arithmetic is `20`. -/
theorem compressionRatio_rounding_at_crud_operations (random : Nat → ℚ) :
    (processInput (asciiHost random) (utf16 "crud operations")).stats.originalLength = 15 ∧
      (processInput (asciiHost random) (utf16 "crud operations")).stats.compressedLength = 12 ∧
      (processInput (asciiHost random) (utf16 "crud operations")).stats.compressionRatio
        = JSNum.fin 19 ∧
      (processInput (asciiHost random) (utf16 "crud operations")).stats.tokenReduction
        = JSNum.fin 19 ∧
      exactCompressionRatio 12 15 = 20 := by
  have h1 : compressedLength (uniqueSymbols (asciiHost random) (utf16 "crud operations")) = 12 :=
    rfl
  have h2 : (utf16 "crud operations").length = 15 := rfl
  have h3 : compressionRatio 12 15 = JSNum.fin 19 := by decide!
  have h4 : exactCompressionRatio 12 15 = 20 := by decide!
  refine ⟨h2, h1, ?_, ?_, h4⟩
  · show compressionRatio (compressedLength (uniqueSymbols (asciiHost random)
      (utf16 "crud operations"))) (utf16 "crud operations").length = _
    rw [h1, h2, h3]
  · show compressionRatio (compressedLength (uniqueSymbols (asciiHost random)
      (utf16 "crud operations"))) (utf16 "crud operations").length = _
    rw [h1, h2, h3]

/-- C10, as stated, fails: for `"auth real time"` (one pattern entry and one
contextual entry) the aggregate confidence is not the minimum of `1.0` and
the specification's sum of pre-deduplication weights over the symbol count. -/
theorem aggregate_ne_spec_sum_at_auth_real_time :
    (processInput (asciiHost (fun _ => 0)) (utf16 "auth real time")).confidence ≠
      JSNum.min
        (JSNum.div
          (sumOfPreDedupWeights (detectedSymbols (asciiHost (fun _ => 0)) (utf16 "auth real time")))
          (JSNum.ofNat (processInput (asciiHost (fun _ => 0))
            (utf16 "auth real time")).stats.symbolCount))
        (JSNum.lit 1.0) := by
  decide!

/-- C10, amended. The aggregate confidence is `Math.min(T / symbolCount, 1.0)`
where `T` is the sum, taken before deduplication, of the base catalog weight
of every direct entry and of `0.8` for every pattern entry; contextual entries
add nothing, and `symbolCount` is the deduplicated count. -/
theorem aggregate_eq_min_weightTotal (H : Host) (input : JSString) :
    (processInput H input).confidence =
      JSNum.min
        (JSNum.div (weightTotal (detectedSymbols H input))
          (JSNum.ofNat (processInput H input).stats.symbolCount))
        (JSNum.lit 1.0) := by
  show aggregateConfidence (totalConfidence H input) (uniqueSymbols H input) = _
  rw [totalConfidence_eq_weightTotal]
  rfl

/-- C11, as stated, fails: for `"hello there friend"` no symbol is found, yet
the aggregate confidence is not `0` (it is `NaN`), the compression ratio is
not `0` (it is `100`) and the original length is not `0`. -/
theorem no_symbol_result_not_all_zero_at_hello_there_friend :
    (processInput (asciiHost (fun _ => 0)) (utf16 "hello there friend")).symbols = [] ∧
      (processInput (asciiHost (fun _ => 0)) (utf16 "hello there friend")).confidence
        ≠ JSNum.fin 0 ∧
      (processInput (asciiHost (fun _ => 0)) (utf16 "hello there friend")).stats.compressionRatio
        = JSNum.fin 100 ∧
      (processInput (asciiHost (fun _ => 0)) (utf16 "hello there friend")).stats.originalLength
        = 18 := by
  decide!

/-- C11, amended. For a processed input on which no stage detects a symbol,
the result has no symbol, an empty compressed representation and no flow, and
its statistics are those of the general formulas: `symbolCount`, `categories`
and `compressedLength` are `0`, `originalLength` is the length of the input
and `compressionRatio` and `tokenReduction` are `100`. -/
theorem stats_of_no_symbol (H : Host) (input : JSString) (hlen : 3 ≤ input.length)
    (hnone : detectedSymbols H input = []) :
    (processInput H input).symbols = [] ∧
      (processInput H input).compressed = [] ∧
      (processInput H input).flows = [] ∧
      (processInput H input).stats =
        { originalLength := input.length
          compressedLength := 0
          compressionRatio := JSNum.fin 100
          symbolCount := 0
          tokenReduction := JSNum.fin 100
          categories := 0 } := by
  have hu : uniqueSymbols H input = [] := by
    simp [uniqueSymbols, hnone, dedupFilter, filterWithIndex, arraySort]
  have hr := compressionRatio_zero input.length (by omega)
  refine ⟨hu, ?_, ?_, ?_⟩
  · simp [processInput, hu, join]
  · simp [processInput, hu]
  · simp [processInput, hu, stats, compressedLength, join, setElements, hr]

theorem stats_of_no_symbol_witness :
    (processInput (asciiHost (fun _ => 0)) (utf16 "hello there friend")).symbols = [] ∧
      (processInput (asciiHost (fun _ => 0)) (utf16 "hello there friend")).compressed = [] ∧
      (processInput (asciiHost (fun _ => 0)) (utf16 "hello there friend")).flows = [] ∧
      (processInput (asciiHost (fun _ => 0)) (utf16 "hello there friend")).stats =
        { originalLength := (utf16 "hello there friend").length
          compressedLength := 0
          compressionRatio := JSNum.fin 100
          symbolCount := 0
          tokenReduction := JSNum.fin 100
          categories := 0 } :=
  stats_of_no_symbol (asciiHost (fun _ => 0)) (utf16 "hello there friend") (by decide)
    (by decide!)

/-- C12, as stated, fails: after a successful run on `"crud operations"`, an
invocation on the two-character input `"ab"`, and likewise the debounced
effect on the ten-character input `"login form"`, leave the symbols of the
earlier run in place. -/
theorem short_input_keeps_previous_symbols :
    ((EngineState.initial.run [(asciiEnvironment 0, utf16 "crud operations")]).parseNaturalLanguage
        (asciiEnvironment 1) (utf16 "ab")).1.symbols ≠ [] ∧
      ((EngineState.initial.run [(asciiEnvironment 0, utf16 "crud operations")]).debounceTimer
        (asciiEnvironment 1) (some (utf16 "login form"))).1.symbols ≠ [] := by
  decide!

/-- C12, amended. For an input shorter than the minimum length (at most 10
code units for the debounced effect, less than 3 for `parseNaturalLanguage`
itself) the engine does nothing: the state, history included, is the one it
had before and no event occurs (no stage label, no call of
`onSymbolGenerated`).  The symbols are empty and the confidence `0` when they
were so before, as in the initial state. -/
theorem short_input_leaves_state_unchanged (st : EngineState) (env : Environment)
    (input : JSString) (h : input.length ≤ 10) :
    st.debounceTimer env (some input) = (st, []) ∧
      (input.length < 3 → st.parseNaturalLanguage env input = (st, [])) ∧
      (EngineState.initial.debounceTimer env (some input)).1.symbols = [] ∧
      (EngineState.initial.debounceTimer env (some input)).1.confidence = JSNum.lit 0 := by
  have hd : ∀ s : EngineState, s.debounceTimer env (some input) = (s, []) := by
    intro s
    have : ¬ 10 < input.length := by omega
    simp [EngineState.debounceTimer, shouldParse, this]
  refine ⟨hd st, parseNaturalLanguage_short st env input, ?_, ?_⟩
  · rw [hd]; rfl
  · rw [hd]; rfl

theorem short_input_leaves_state_unchanged_witness :
    (EngineState.initial.run [(asciiEnvironment 0, utf16 "crud operations")]).debounceTimer
        (asciiEnvironment 1) (some (utf16 "ab")) =
      (EngineState.initial.run [(asciiEnvironment 0, utf16 "crud operations")], []) ∧
    (EngineState.initial.run [(asciiEnvironment 0, utf16 "crud operations")]).parseNaturalLanguage
        (asciiEnvironment 1) (utf16 "ab") =
      (EngineState.initial.run [(asciiEnvironment 0, utf16 "crud operations")], []) :=
  ⟨(short_input_leaves_state_unchanged _ (asciiEnvironment 1) (utf16 "ab") (by decide)).1,
    (short_input_leaves_state_unchanged _ (asciiEnvironment 1) (utf16 "ab") (by decide)).2.1
      (by decide)⟩

/-- C13, as stated, fails: the input `"login form"` has exactly 10 code units
and the debounced effect does not hand it to `parseNaturalLanguage`. -/
theorem ten_characters_not_parsed :
    (utf16 "login form").length = 10 ∧
      shouldParse (some (utf16 "login form")) = false ∧
      EngineState.initial.debounceTimer (asciiEnvironment 0) (some (utf16 "login form")) =
        (EngineState.initial, []) := by
  decide!

/-- C13, amended. The debounced effect hands a (non-empty) input to
`parseNaturalLanguage` if and only if its length is greater than 10, that is at
least 11: an input of 11 code units is parsed and one of 10 is not. -/
theorem shouldParse_iff (input : JSString) :
    (shouldParse (some input) = true ↔ 11 ≤ input.length) ∧
      ∀ (st : EngineState) (env : Environment),
        st.debounceTimer env (some input) =
          if 11 ≤ input.length then st.parseNaturalLanguage env input else (st, []) := by
  have hiff : shouldParse (some input) = true ↔ 11 ≤ input.length := by
    simp only [shouldParse, Bool.and_eq_true, Bool.not_eq_true', decide_eq_true_eq]
    constructor
    · rintro ⟨_, h⟩; omega
    · intro h
      refine ⟨?_, by omega⟩
      cases input with
      | nil => simp at h
      | cons c cs => rfl
  refine ⟨hiff, fun st env => ?_⟩
  simp only [EngineState.debounceTimer]
  by_cases h : 11 ≤ input.length
  · simp [h, hiff.mpr h]
  · have : shouldParse (some input) = false := by
      cases hs : shouldParse (some input) with
      | false => rfl
      | true => exact absurd (hiff.mp hs) h
    simp [h, this]

/-- C14. Each processed invocation puts its entry at index `0` of the history
and keeps the first four entries it found behind it, in the same order.
Starting from the empty history, after any sequence of such invocations the
history holds at most five entries, the most recent first: it is made of the
entries of the last five invocations, in reverse order, so that after six
invocations the entry of the first one is gone. -/
theorem history_most_recent_first (calls : List (Environment × JSString))
    (h : ∀ c ∈ calls, 3 ≤ c.2.length) :
    (EngineState.initial.run calls).symbolHistory = ((calls.map entryOf).reverse).take 5 ∧
      (EngineState.initial.run calls).symbolHistory =
        ((calls.map entryOf).drop (calls.length - 5)).reverse ∧
      (EngineState.initial.run calls).symbolHistory.length ≤ 5 ∧
      ∀ (st : EngineState) (env : Environment) (input : JSString), 3 ≤ input.length →
        (st.parseNaturalLanguage env input).1.symbolHistory =
          entryOf (env, input) :: st.symbolHistory.take 4 := by
  have hmain : (EngineState.initial.run calls).symbolHistory =
      ((calls.map entryOf).reverse).take 5 := by
    have := run_history calls EngineState.initial h (by simp [EngineState.initial])
    simpa [EngineState.initial] using this
  refine ⟨hmain, ?_, ?_, fun st env input hi => parseNaturalLanguage_history st env input hi⟩
  · rw [hmain, List.take_reverse]
    simp
  · rw [hmain]
    simp only [List.length_take]
    omega

theorem history_most_recent_first_witness :
    (EngineState.initial.run
      [(asciiEnvironment 1, utf16 "login screen"), (asciiEnvironment 2, utf16 "search index"),
       (asciiEnvironment 3, utf16 "upload files"), (asciiEnvironment 4, utf16 "payment page"),
       (asciiEnvironment 5, utf16 "crud service"),
       (asciiEnvironment 6, utf16 "form builder")]).symbolHistory =
      [entryOf (asciiEnvironment 6, utf16 "form builder"),
       entryOf (asciiEnvironment 5, utf16 "crud service"),
       entryOf (asciiEnvironment 4, utf16 "payment page"),
       entryOf (asciiEnvironment 3, utf16 "upload files"),
       entryOf (asciiEnvironment 2, utf16 "search index")] :=
  (history_most_recent_first
    [(asciiEnvironment 1, utf16 "login screen"), (asciiEnvironment 2, utf16 "search index"),
     (asciiEnvironment 3, utf16 "upload files"), (asciiEnvironment 4, utf16 "payment page"),
     (asciiEnvironment 5, utf16 "crud service"), (asciiEnvironment 6, utf16 "form builder")]
    (by decide)).1

/-- C15. The `input` field of the history entry of a processed input is the
whole input when it has at most 50 code units, and otherwise its first 50 code
units followed by `...`; in both cases its first `min 50 length` code units
are a prefix of the input. -/
theorem history_input_truncated (st : EngineState) (env : Environment) (input : JSString)
    (h : 3 ≤ input.length) :
    ((st.parseNaturalLanguage env input).1.symbolHistory.head?).map (fun e => e.input) =
        some (historyInput input) ∧
      historyInput input =
        (if input.length ≤ 50 then input else input.take 50 ++ utf16 "...") ∧
      (historyInput input).take (min 50 input.length) = input.take (min 50 input.length) ∧
      (historyInput input).take (min 50 input.length) <+: input := by
  have h2 : historyInput input =
      (if input.length ≤ 50 then input else input.take 50 ++ utf16 "...") := by
    unfold historyInput
    by_cases hl : input.length ≤ 50
    · have : ¬ input.length > 50 := by omega
      simp [hl, this, List.take_of_length_le hl, utf16]
    · have : input.length > 50 := by omega
      simp [hl, this]
  have h3 : (historyInput input).take (min 50 input.length) =
      input.take (min 50 input.length) := by
    unfold historyInput
    rw [List.take_append_of_le_length (by simp), List.take_take]
    simp
  refine ⟨?_, h2, h3, ?_⟩
  · rw [parseNaturalLanguage_history st env input h]
    rfl
  · rw [h3]
    exact List.take_prefix _ _

theorem history_input_truncated_witness :
    historyInput (utf16 "implement a dashboard for user management with real time updates") =
      utf16 "implement a dashboard for user management with rea..." :=
  (history_input_truncated EngineState.initial (asciiEnvironment 0)
    (utf16 "implement a dashboard for user management with real time updates")
    (by decide)).2.1.trans (by decide)

/-- C16 at the failing input `"constructor __proto__ login"`, for every
jitter: none of `constructor` and `__proto__` is a keyword of the catalog, yet
the direct matcher emits an entry for each of them (with `undefined` icon and
category), besides the entry of the keyword `login`. -/
theorem direct_matcher_emits_prototype_entries (random : Nat → ℚ) :
    (directStage (asciiHost random)
        (utf16 "constructor __proto__ login")).detectedSymbols.map SymbolEntry.shape =
      [(none, utf16 "constructor", none, Source.direct, false),
       (none, utf16 "__proto__", none, Source.direct, false),
       (some (utf16 "🚪"), utf16 "login", some (utf16 "security"), Source.direct, false)] ∧
      (words (asciiHost random) (utf16 "constructor __proto__ login")).filterMap directShape =
        [(some (utf16 "🚪"), utf16 "login", some (utf16 "security"), Source.direct, false)] ∧
      ownLookup (utf16 "constructor") symbolMap = none ∧
      ownLookup (utf16 "__proto__") symbolMap = none := by
  refine ⟨rfl, rfl, ?_, ?_⟩
  · decide
  · decide

/-- C17. The pattern matcher appends to the entries of the direct matcher one
entry for each flow pattern whose regular expression matches the input, in
catalog order and for every such pattern (there are six patterns), and nothing
for a pattern that does not match; the entry has the flow string as symbol, the
description as meaning, category `flow`, source `pattern`, the flag `flow` and
confidence `0.85` plus the next jitter.  The match ignores the case of ASCII
letters: it is the same on the input and on its lower-casing. -/
theorem pattern_matcher_entries (H : Host) (input : JSString) :
    (patternStage H input).detectedSymbols =
        (directStage H input).detectedSymbols ++
          patternEntries H (directStage H input).randomCalls
            (flowPatterns.filter (fun p => p.pattern.test input)) ∧
      flowPatterns.length = 6 ∧
      ∀ r : Regex, r.test (asciiLower input) = r.test input :=
  ⟨patternStage_detectedSymbols H input, rfl, fun r => test_asciiLower r input⟩

/-- C18. Every flow pattern that matches the input has its flow entry in the
final result, among the symbols and among the flows: deduplication never
removes a pattern entry, because the six flow strings are pairwise distinct
and none is a catalog icon or the icon of a contextual rule. -/
theorem pattern_entries_survive (H : Host) (input : JSString) (p : FlowPattern)
    (hp : p ∈ flowPatterns) (hm : p.pattern.test input = true) :
    (∃ e ∈ (processInput H input).symbols, e ∈ (processInput H input).flows ∧
        e.symbol = some p.flow ∧ e.meaning = p.description ∧
        e.source = Source.pattern ∧ e.flow = true) ∧
      (∀ e ∈ detectedSymbols H input, e.source = Source.pattern →
        e ∈ (processInput H input).symbols ∧ e ∈ (processInput H input).flows) ∧
      (flowPatterns.map (fun q => q.flow)).Nodup ∧
      (∀ c ∈ symbolMap, ∀ q ∈ flowPatterns, utf16 c.2.1 ≠ q.flow) ∧
      (∀ q ∈ flowPatterns,
        userManagementEntry.symbol ≠ some q.flow ∧ realTimeEntry.symbol ≠ some q.flow) := by
  have hall : ∀ e ∈ detectedSymbols H input, e.source = Source.pattern →
      e ∈ (processInput H input).symbols ∧ e ∈ (processInput H input).flows := by
    intro e he hsrc
    obtain ⟨h1, h2⟩ := pattern_entry_mem_uniqueSymbols H input he hsrc
    exact ⟨h1, List.mem_filter.mpr ⟨h1, h2⟩⟩
  refine ⟨?_, hall, flows_nodup, catalog_icon_ne_flow, contextual_icon_ne_flow⟩
  obtain ⟨e, he, hs, hmean, hsrc, hf⟩ := exists_mem_patternEntries H
    (directStage H input).randomCalls (flowPatterns.filter (fun q => q.pattern.test input)) p
    (List.mem_filter.mpr ⟨hp, hm⟩)
  have hdet : e ∈ detectedSymbols H input := by
    rw [detectedSymbols_eq, patternStage_detectedSymbols]
    simp [he]
  exact ⟨e, (hall e hdet hsrc).1, (hall e hdet hsrc).2, hs, hmean, hsrc, hf⟩

theorem pattern_entries_survive_witness :
    (∃ e ∈ (processInput (asciiHost (fun _ => 0)) (utf16 "login and search")).symbols,
        e ∈ (processInput (asciiHost (fun _ => 0)) (utf16 "login and search")).flows ∧
        e.symbol = some (utf16 "🔐→👤→✅") ∧ e.meaning = utf16 "Authentication Flow" ∧
        e.source = Source.pattern ∧ e.flow = true) ∧
      (∃ e ∈ (processInput (asciiHost (fun _ => 0)) (utf16 "login and search")).symbols,
        e ∈ (processInput (asciiHost (fun _ => 0)) (utf16 "login and search")).flows ∧
        e.symbol = some (utf16 "🔍→🗄️→📊") ∧ e.meaning = utf16 "Search & Retrieval Flow" ∧
        e.source = Source.pattern ∧ e.flow = true) :=
  ⟨(pattern_entries_survive (asciiHost (fun _ => 0)) (utf16 "login and search")
      (flowPatterns.get ⟨0, by decide⟩) (List.get_mem _ _ _) (by decide)).1,
    (pattern_entries_survive (asciiHost (fun _ => 0)) (utf16 "login and search")
      (flowPatterns.get ⟨2, by decide⟩) (List.get_mem _ _ _) (by decide)).1⟩

/-- C19 at the failing inputs `"USER MANAGEMENT panel"` and `"REAL TIME feed"`,
for every jitter: the lower-cased text contains both words of the rule, the
direct matcher (which lower-cases) finds `user`, but the contextual rule reads
the input as it is and emits nothing. -/
theorem contextual_rules_miss_upper_case (random : Nat → ℚ) :
    includes (asciiLower (utf16 "USER MANAGEMENT panel")) (utf16 "user") = true ∧
      includes (asciiLower (utf16 "USER MANAGEMENT panel")) (utf16 "management") = true ∧
      (detectedSymbols (asciiHost random) (utf16 "USER MANAGEMENT panel")).map SymbolEntry.shape =
        [(some (utf16 "👤"), utf16 "user", some (utf16 "ui"), Source.direct, false)] ∧
      userManagementEntry ∉ (processInput (asciiHost random)
        (utf16 "USER MANAGEMENT panel")).symbols ∧
      includes (asciiLower (utf16 "REAL TIME feed")) (utf16 "real") = true ∧
      includes (asciiLower (utf16 "REAL TIME feed")) (utf16 "time") = true ∧
      (processInput (asciiHost random) (utf16 "REAL TIME feed")).symbols = [] := by
  refine ⟨by decide, by decide, rfl, ?_, by decide, by decide, rfl⟩
  intro h
  have h2 := (contextual_entry_detected_iff (asciiHost random)
    (utf16 "USER MANAGEMENT panel")).1.mp (mem_detectedSymbols_of_mem_uniqueSymbols h)
  revert h2
  decide

/-- C20. For every input that contains both substrings `user` and
`management`, the final result holds the entry of the user-management rule
(symbol `👥→⚙️`, category `system`, confidence `0.9`, source `contextual`), it
is the only entry of the result with that icon, and no entry of the direct or
pattern stage has that icon. -/
theorem user_management_entry_once (H : Host) (input : JSString)
    (hu : includes input (utf16 "user") = true)
    (hm : includes input (utf16 "management") = true) :
    userManagementEntry ∈ (processInput H input).symbols ∧
      (processInput H input).symbols.filter
          (fun e => decide (e.symbol = some (utf16 "👥→⚙️"))) = [userManagementEntry] ∧
      (∀ e ∈ (patternStage H input).detectedSymbols, e.symbol ≠ some (utf16 "👥→⚙️")) ∧
      userManagementEntry =
        { symbol := some (utf16 "👥→⚙️"), meaning := utf16 "user_management_system",
          category := some (utf16 "system"), confidence := JSNum.lit 0.9,
          source := Source.contextual, flow := false } := by
  have hdet : userManagementEntry ∈ detectedSymbols H input :=
    (contextual_entry_detected_iff H input).1.mpr ⟨hu, hm⟩
  have hmem : userManagementEntry ∈ uniqueSymbols H input :=
    mem_uniqueSymbols_of_unique_icon hdet (userManagement_icon_unique H input)
  have hnodup : ((uniqueSymbols H input).map (fun e => e.symbol)).Nodup := by
    have hp : ((uniqueSymbols H input).map (fun s => s.symbol)).Perm
        ((dedupFilter (detectedSymbols H input)).map (fun s => s.symbol)) :=
      (uniqueSymbols_perm H input).map _
    rw [hp.nodup_iff, dedupFilter_eq]
    exact (List.pairwise_map).mpr (firstOccurrencesFrom_pairwise _ _)
  refine ⟨hmem, filter_icon_eq_singleton hnodup hmem, ?_, rfl⟩
  intro e he hes
  have hdet' : e ∈ detectedSymbols H input := by
    rw [detectedSymbols_eq]
    simp [he]
  have heq := userManagement_icon_unique H input e hdet' hes
  rcases patternStage_origin H input e he with
    ⟨hs, _⟩ | ⟨q, _, _, _, _, _, hs, _⟩ | ⟨_, _⟩ | ⟨hr, _⟩
  · rw [heq] at hs; cases hs
  · rw [heq] at hs; cases hs
  · rw [patternStage_detectedSymbols] at he
    rcases List.mem_append.mp he with he | he
    · have := (directStage_origin H input e he).1
      rw [heq] at this; cases this
    · have hsym : e.symbol ∈ (patternEntries H (directStage H input).randomCalls
          (flowPatterns.filter (fun p => p.pattern.test input))).map (fun e => e.symbol) :=
        List.mem_map_of_mem (fun e => e.symbol) he
      rw [patternEntries_symbols] at hsym
      obtain ⟨q, hq, hqs⟩ := List.mem_map.mp hsym
      exact (contextual_icon_ne_flow q (List.mem_filter.mp hq).1).1 (by rw [← heq, ← hqs])
  · rw [hr] at heq
    revert heq
    decide

theorem user_management_entry_once_witness :
    userManagementEntry ∈ (processInput (asciiHost (fun _ => 0))
        (utf16 "user management dashboard")).symbols ∧
      (processInput (asciiHost (fun _ => 0)) (utf16 "user management dashboard")).symbols.filter
          (fun e => decide (e.symbol = some (utf16 "👥→⚙️"))) = [userManagementEntry] :=
  ⟨(user_management_entry_once (asciiHost (fun _ => 0)) (utf16 "user management dashboard")
      (by decide) (by decide)).1,
    (user_management_entry_once (asciiHost (fun _ => 0)) (utf16 "user management dashboard")
      (by decide) (by decide)).2.1⟩

/-- C21. For every host and input, the flows of the result are the symbols of
the result whose `flow` flag is set, in the order of the symbols list; they
are also the symbols whose source is `pattern`, so that no direct and no
contextual entry is among the flows. -/
theorem flows_are_pattern_entries (H : Host) (input : JSString) :
    (processInput H input).flows =
        (processInput H input).symbols.filter (fun e => e.flow) ∧
      (processInput H input).flows =
        (processInput H input).symbols.filter (fun e => decide (e.source = Source.pattern)) ∧
      (processInput H input).flows.Sublist (processInput H input).symbols ∧
      ∀ e ∈ (processInput H input).flows,
        e.source = Source.pattern ∧ e.source ≠ Source.direct ∧ e.source ≠ Source.contextual := by
  have hcongr : (uniqueSymbols H input).filter (fun e => e.flow) =
      (uniqueSymbols H input).filter (fun e => decide (e.source = Source.pattern)) := by
    apply List.filter_congr
    intro e he
    have := flow_iff_pattern H input e (mem_detectedSymbols_of_mem_uniqueSymbols he)
    cases hf : e.flow <;> simp [hf] at this ⊢ <;> simp [this]
  refine ⟨rfl, hcongr, List.filter_sublist _, ?_⟩
  intro e he
  have hmem : e ∈ (uniqueSymbols H input).filter (fun e => e.flow) := he
  rw [hcongr] at hmem
  have hs : e.source = Source.pattern := by simpa using (List.mem_filter.mp hmem).2
  rw [hs]
  exact ⟨rfl, by decide, by decide⟩

/-- C22 at the failing entry, the first of `flowPatterns` (Authentication
Flow): its icons `🔐`, `👤`, `🚪` join to `🔐→👤→🚪`, but its flow string is
`🔐→👤→✅`, and that string is what the engine emits for every input that the
pattern matches, such as `"login page"` (for every jitter).  The other five
entries have the flow string of their icons. -/
theorem authentication_flow_differs_from_its_symbols (random : Nat → ℚ) :
    flowPatterns.map (fun p => decide (p.flow = renderedFlow p.symbols)) =
        [false, true, true, true, true, true] ∧
      flowPatterns.head?.map (fun p => p.description) = some (utf16 "Authentication Flow") ∧
      flowPatterns.head?.map (fun p => renderedFlow p.symbols) = some (utf16 "🔐→👤→🚪") ∧
      flowPatterns.head?.map (fun p => p.flow) = some (utf16 "🔐→👤→✅") ∧
      (processInput (asciiHost random) (utf16 "login page")).flows.map (fun e => e.symbol) =
        [some (utf16 "🔐→👤→✅")] := by
  refine ⟨by decide, by decide, by decide, by decide, ?_⟩
  have hd : (dedupFilter (detectedSymbols (asciiHost random) (utf16 "login page"))).filter
      (fun s => s.flow) =
      [{ symbol := some (utf16 "🔐→👤→✅"), meaning := utf16 "Authentication Flow",
         category := some (utf16 "flow"),
         confidence := JSNum.add (JSNum.lit 0.85) (jitter (asciiHost random) 1),
         source := Source.pattern, flow := true }] := rfl
  have hperm := (uniqueSymbols_perm (asciiHost random) (utf16 "login page")).filter
    (fun s => s.flow)
  rw [hd] at hperm
  rw [processInput_flows, List.perm_singleton.mp hperm]
  rfl

/-- C23. For the input `"implement user authentication with login form"` and
every jitter, the result holds the direct entries of `authentication` (`🔐`),
`login` (`🚪`) and `form` (`📝`), whose categories are `security` and `ui`,
and the entry of the Authentication Flow pattern; it has 6 symbols (at least
3) in 3 categories (at least 2), and the compression ratio is `51`, above `0`
(the icons take 22 code units and the input 45). -/
theorem scenario_login_form (random : Nat → ℚ) :
    (some (utf16 "🔐"), utf16 "authentication", some (utf16 "security"), Source.direct, false) ∈
        (processInput (asciiHost random)
          (utf16 "implement user authentication with login form")).symbols.map SymbolEntry.shape ∧
      (some (utf16 "🚪"), utf16 "login", some (utf16 "security"), Source.direct, false) ∈
        (processInput (asciiHost random)
          (utf16 "implement user authentication with login form")).symbols.map SymbolEntry.shape ∧
      (some (utf16 "📝"), utf16 "form", some (utf16 "ui"), Source.direct, false) ∈
        (processInput (asciiHost random)
          (utf16 "implement user authentication with login form")).symbols.map SymbolEntry.shape ∧
      (some (utf16 "🔐→👤→✅"), utf16 "Authentication Flow", some (utf16 "flow"),
          Source.pattern, true) ∈
        (processInput (asciiHost random)
          (utf16 "implement user authentication with login form")).symbols.map SymbolEntry.shape ∧
      (processInput (asciiHost random)
        (utf16 "implement user authentication with login form")).stats =
        { originalLength := 45, compressedLength := 22, compressionRatio := JSNum.fin 51,
          symbolCount := 6, tokenReduction := JSNum.fin 51, categories := 3 } ∧
      JSNum.lt (JSNum.fin 0) (processInput (asciiHost random)
        (utf16 "implement user authentication with login form")).stats.compressionRatio = true := by
  have hd : (dedupFilter (detectedSymbols (asciiHost random)
      (utf16 "implement user authentication with login form"))).map SymbolEntry.shape =
      [(some (utf16 "👤"), utf16 "user", some (utf16 "ui"), Source.direct, false),
       (some (utf16 "🔐"), utf16 "authentication", some (utf16 "security"), Source.direct, false),
       (some (utf16 "🚪"), utf16 "login", some (utf16 "security"), Source.direct, false),
       (some (utf16 "📝"), utf16 "form", some (utf16 "ui"), Source.direct, false),
       (some (utf16 "🔐→👤→✅"), utf16 "Authentication Flow", some (utf16 "flow"),
         Source.pattern, true),
       (some (utf16 "📝→💾→✅"), utf16 "Form Submission Flow", some (utf16 "flow"),
         Source.pattern, true)] := rfl
  have hperm := (uniqueSymbols_perm (asciiHost random)
    (utf16 "implement user authentication with login form")).map SymbolEntry.shape
  rw [hd] at hperm
  have hratio : compressionRatio 22 45 = JSNum.fin 51 := by decide!
  have h1 : compressedLength (dedupFilter (detectedSymbols (asciiHost random)
      (utf16 "implement user authentication with login form"))) = 22 := rfl
  have h2 : (dedupFilter (detectedSymbols (asciiHost random)
      (utf16 "implement user authentication with login form"))).length = 6 := rfl
  have h3 : (setElements ((dedupFilter (detectedSymbols (asciiHost random)
      (utf16 "implement user authentication with login form"))).map
        (fun s => s.category))).length = 3 := rfl
  have h4 : (utf16 "implement user authentication with login form").length = 45 := rfl
  have hstats : (processInput (asciiHost random)
      (utf16 "implement user authentication with login form")).stats =
      { originalLength := 45, compressedLength := 22, compressionRatio := JSNum.fin 51,
        symbolCount := 6, tokenReduction := JSNum.fin 51, categories := 3 } := by
    rw [processInput_stats, stats_uniqueSymbols]
    simp only [stats, h1, h2, h3, h4, hratio]
  rw [hstats, processInput_symbols]
  refine ⟨hperm.symm.subset (List.mem_cons_of_mem _ (List.mem_cons_self _ _)),
    hperm.symm.subset (List.mem_cons_of_mem _ (List.mem_cons_of_mem _ (List.mem_cons_self _ _))),
    hperm.symm.subset (List.mem_cons_of_mem _ (List.mem_cons_of_mem _
      (List.mem_cons_of_mem _ (List.mem_cons_self _ _)))),
    hperm.symm.subset (List.mem_cons_of_mem _ (List.mem_cons_of_mem _
      (List.mem_cons_of_mem _ (List.mem_cons_of_mem _ (List.mem_cons_self _ _))))), rfl, ?_⟩
  decide!

/-- C24. The compression ratio is not clamped at zero.  The input
`"crud auth find"` has 14 code units, more than the 10 that the debounced
effect requires; for every jitter it yields the three flow entries of the
patterns it matches, whose icons take 28 code units, more than the input, and
the statistics report the ratio `-100`, a negative number. -/
theorem compressionRatio_negative_at_crud_auth_find (random : Nat → ℚ) :
    shouldParse (some (utf16 "crud auth find")) = true ∧
      ((processInput (asciiHost random) (utf16 "crud auth find")).symbols.map
          SymbolEntry.shape).Perm
        [(some (utf16 "🔐→👤→✅"), utf16 "Authentication Flow", some (utf16 "flow"),
           Source.pattern, true),
         (some (utf16 "🔍→🗄️→📊"), utf16 "Search & Retrieval Flow", some (utf16 "flow"),
           Source.pattern, true),
         (some (utf16 "➕→👁️→🔄→🗑️"), utf16 "CRUD Operations Flow", some (utf16 "flow"),
           Source.pattern, true)] ∧
      (processInput (asciiHost random) (utf16 "crud auth find")).stats =
        { originalLength := 14, compressedLength := 28, compressionRatio := JSNum.fin (-100),
          symbolCount := 3, tokenReduction := JSNum.fin (-100), categories := 1 } ∧
      JSNum.lt (processInput (asciiHost random)
        (utf16 "crud auth find")).stats.compressionRatio (JSNum.fin 0) = true := by
  have hd : (dedupFilter (detectedSymbols (asciiHost random)
      (utf16 "crud auth find"))).map SymbolEntry.shape =
      [(some (utf16 "🔐→👤→✅"), utf16 "Authentication Flow", some (utf16 "flow"),
         Source.pattern, true),
       (some (utf16 "🔍→🗄️→📊"), utf16 "Search & Retrieval Flow", some (utf16 "flow"),
         Source.pattern, true),
       (some (utf16 "➕→👁️→🔄→🗑️"), utf16 "CRUD Operations Flow", some (utf16 "flow"),
         Source.pattern, true)] := rfl
  have hperm := (uniqueSymbols_perm (asciiHost random) (utf16 "crud auth find")).map
    SymbolEntry.shape
  rw [hd] at hperm
  have hratio : compressionRatio 28 14 = JSNum.fin (-100) := by decide!
  have h1 : compressedLength (dedupFilter (detectedSymbols (asciiHost random)
      (utf16 "crud auth find"))) = 28 := rfl
  have h2 : (dedupFilter (detectedSymbols (asciiHost random)
      (utf16 "crud auth find"))).length = 3 := rfl
  have h3 : (setElements ((dedupFilter (detectedSymbols (asciiHost random)
      (utf16 "crud auth find"))).map (fun s => s.category))).length = 1 := rfl
  have h4 : (utf16 "crud auth find").length = 14 := rfl
  have hstats : (processInput (asciiHost random) (utf16 "crud auth find")).stats =
      { originalLength := 14, compressedLength := 28, compressionRatio := JSNum.fin (-100),
        symbolCount := 3, tokenReduction := JSNum.fin (-100), categories := 1 } := by
    rw [processInput_stats, stats_uniqueSymbols]
    simp only [stats, h1, h2, h3, h4, hratio]
  rw [hstats, processInput_symbols]
  refine ⟨by decide, hperm, rfl, ?_⟩
  decide!

/-- C25, as stated, fails: for `"find file auth"` (14 code units, three flow
entries of 24 code units in all) the compression ratio is `-72`, which is not
an integer from `0` to `100`. -/
theorem compressionRatio_below_zero_at_find_file_auth :
    (processInput (asciiHost (fun _ => 0)) (utf16 "find file auth")).stats.compressionRatio =
        JSNum.fin (-72) ∧
      ¬ RatioInRange
        (processInput (asciiHost (fun _ => 0)) (utf16 "find file auth")).stats.compressionRatio := by
  have h : (processInput (asciiHost (fun _ => 0)) (utf16 "find file auth")).stats.compressionRatio =
      JSNum.fin (-72) := by decide!
  refine ⟨h, ?_⟩
  rw [h]
  rintro ⟨n, hn, h0, _⟩
  have : ((-72 : ℤ) : ℚ) = (n : ℚ) := by
    have := JSNum.fin.inj hn
    push_cast
    exact this
  have : (-72 : ℤ) = n := by exact_mod_cast this
  omega

/-- C25, amended. For every processed input (at least 3 code units; a string
of the language has fewer than `2 ^ 53`), the compression ratio is an
integer, equal to `tokenReduction`, and at most `100`; it has no lower bound
at `0`: it is non-negative exactly when the icons are not longer than the
input (`compressedLength <= originalLength`), and negative otherwise. -/
theorem compressionRatio_integer_at_most_100 (H : Host) (input : JSString)
    (hmin : 3 ≤ input.length) (hmax : input.length < 2 ^ 53) :
    ∃ n : ℤ, (processInput H input).stats.compressionRatio = JSNum.fin n ∧
      (processInput H input).stats.tokenReduction = JSNum.fin n ∧ n ≤ 100 ∧
      (0 ≤ n ↔
        (processInput H input).stats.compressedLength ≤
          (processInput H input).stats.originalLength) := by
  obtain ⟨n, hn, h100, hiff⟩ := compressionRatio_spec
    (compressedLength (uniqueSymbols H input)) input.length (by omega) hmax
  exact ⟨n, hn, hn, h100, hiff⟩

theorem compressionRatio_integer_at_most_100_witness :
    ∃ n : ℤ, (processInput (asciiHost (fun _ => 0))
        (utf16 "find file auth")).stats.compressionRatio = JSNum.fin n ∧
      (processInput (asciiHost (fun _ => 0))
        (utf16 "find file auth")).stats.tokenReduction = JSNum.fin n ∧ n ≤ 100 ∧
      (0 ≤ n ↔
        (processInput (asciiHost (fun _ => 0)) (utf16 "find file auth")).stats.compressedLength ≤
          (processInput (asciiHost (fun _ => 0)) (utf16 "find file auth")).stats.originalLength) :=
  compressionRatio_integer_at_most_100 (asciiHost (fun _ => 0)) (utf16 "find file auth")
    (by decide) (by decide)

/-- C26 at the failing input: the component is mounted without an
`onSymbolGenerated` prop (the call of line 244 raises a `TypeError`), or with
an `onCompressionComplete` that throws, and parses `"crud operations"` from
its initial state.  The error is caught and logged, the symbols are emptied,
the confidence is `0`, the processing flag is off and the stage label is
cleared; but the history, empty before the invocation, now holds the entry
of the invocation with its symbol, and the statistics of the invocation stay
stored. -/
theorem history_changed_when_callback_throws :
    ((EngineState.initial.parseNaturalLanguage
          { host := asciiHost (fun _ => 0), callbacks := missingCallbacks, now := 0 }
          (utf16 "crud operations")).1.symbols = [] ∧
        (EngineState.initial.parseNaturalLanguage
          { host := asciiHost (fun _ => 0), callbacks := missingCallbacks, now := 0 }
          (utf16 "crud operations")).1.confidence = JSNum.lit 0 ∧
        (EngineState.initial.parseNaturalLanguage
          { host := asciiHost (fun _ => 0), callbacks := missingCallbacks, now := 0 }
          (utf16 "crud operations")).1.isProcessing = false ∧
        (EngineState.initial.parseNaturalLanguage
          { host := asciiHost (fun _ => 0), callbacks := missingCallbacks, now := 0 }
          (utf16 "crud operations")).1.processingStage = utf16 "" ∧
        Event.consoleError ∈ (EngineState.initial.parseNaturalLanguage
          { host := asciiHost (fun _ => 0), callbacks := missingCallbacks, now := 0 }
          (utf16 "crud operations")).2) ∧
      EngineState.initial.symbolHistory = [] ∧
      (EngineState.initial.parseNaturalLanguage
        { host := asciiHost (fun _ => 0), callbacks := missingCallbacks, now := 0 }
        (utf16 "crud operations")).1.symbolHistory =
        [{ input := utf16 "crud operations"
           symbols := [{ symbol := some (utf16 "➕→👁️→🔄→🗑️"),
                         meaning := utf16 "CRUD Operations Flow",
                         category := some (utf16 "flow"), confidence := JSNum.lit 0.85,
                         source := Source.pattern, flow := true }]
           compressed := utf16 "➕→👁️→🔄→🗑️"
           timestamp := 0
           confidence := JSNum.lit 0.8 }] ∧
      (EngineState.initial.parseNaturalLanguage
        { host := asciiHost (fun _ => 0), callbacks := missingCallbacks, now := 0 }
        (utf16 "crud operations")).1.compressionStats.isSome = true ∧
      (EngineState.initial.parseNaturalLanguage
        { host := asciiHost (fun _ => 0), callbacks := failingCompletionCallbacks, now := 0 }
        (utf16 "crud operations")).1.symbols = [] ∧
      (EngineState.initial.parseNaturalLanguage
        { host := asciiHost (fun _ => 0), callbacks := failingCompletionCallbacks, now := 0 }
        (utf16 "crud operations")).1.symbolHistory.length = 1 := by
  decide!

/-- C27. For every host and input, the aggregate confidence is
`Math.min(T / n, 1.0)`, where `n` is the number of symbols after
deduplication and `T` adds, from `0`, the catalog weight of every direct hit
(one per token found in `symbolMap`, repeated and icon-sharing keywords
included) and then `0.8` for every flow pattern that matches; the contextual
rules add nothing.  Hence, when the result is not empty and all its symbols
are contextual, `T` is `0` and so is the aggregate confidence. -/
theorem aggregate_eq_min_weightSum (H : Host) (input : JSString) :
    (processInput H input).confidence =
        JSNum.min
          (JSNum.div (weightSum H input) (JSNum.ofNat (processInput H input).symbols.length))
          (JSNum.lit 1.0) ∧
      ((processInput H input).symbols ≠ [] →
        (∀ e ∈ (processInput H input).symbols, e.source = Source.contextual) →
        weightSum H input = JSNum.fin 0 ∧ (processInput H input).confidence = JSNum.fin 0) := by
  have hmain : (processInput H input).confidence =
      JSNum.min
        (JSNum.div (weightSum H input) (JSNum.ofNat (processInput H input).symbols.length))
        (JSNum.lit 1.0) := by
    show aggregateConfidence (totalConfidence H input) (uniqueSymbols H input) = _
    rw [totalConfidence_eq_weightSum]
    rfl
  refine ⟨hmain, fun hne hctx => ?_⟩
  have hzero : JSNum.lit 0 = JSNum.fin 0 := by decide!
  have hsum : weightSum H input = JSNum.fin 0 := by
    rw [← totalConfidence_eq_weightSum, totalConfidence_eq_weightTotal,
      weightTotal_of_contextual _ (detected_contextual_of_unique_contextual H input hctx), hzero]
  refine ⟨hsum, ?_⟩
  rw [hmain, hsum]
  have hlen : ((processInput H input).symbols.length : ℚ) ≠ 0 := by
    have : (processInput H input).symbols.length ≠ 0 := fun h0 => hne (List.length_eq_zero.mp h0)
    exact_mod_cast this
  have hdiv : JSNum.div (JSNum.fin 0) (JSNum.ofNat (processInput H input).symbols.length) =
      JSNum.fin 0 := by
    simp [JSNum.div, JSNum.ofNat, hlen, roundDouble]
  have hmin : JSNum.min (JSNum.fin 0) (JSNum.lit 1.0) = JSNum.fin 0 := by decide!
  rw [hdiv, hmin]

theorem aggregate_eq_min_weightSum_witness :
    (processInput (asciiHost (fun _ => 0)) (utf16 "users management")).symbols =
        [userManagementEntry] ∧
      (processInput (asciiHost (fun _ => 0)) (utf16 "users management")).confidence =
        JSNum.fin 0 :=
  ⟨by decide!,
    ((aggregate_eq_min_weightSum (asciiHost (fun _ => 0)) (utf16 "users management")).2
      (by decide!) (by decide!)).2⟩

/-- C28. The jitter changes the confidence of the entries and their order
only.  For every input and any two jitter sources (with the same
`toLowerCase`), the two results have the same symbol entries up to the
confidence field and the order (icon, meaning, category, source and flow
flag), equal statistics, equal aggregate confidence, and the same flow entries
up to the confidence field and the order. -/
theorem jitter_changes_confidence_and_order_only (toLowerCase : JSString → JSString)
    (random₁ random₂ : Nat → ℚ) (input : JSString) :
    ((processInput { toLowerCase := toLowerCase, random := random₁ } input).symbols.map
          SymbolEntry.shape).Perm
        ((processInput { toLowerCase := toLowerCase, random := random₂ } input).symbols.map
          SymbolEntry.shape) ∧
      (processInput { toLowerCase := toLowerCase, random := random₁ } input).stats =
        (processInput { toLowerCase := toLowerCase, random := random₂ } input).stats ∧
      (processInput { toLowerCase := toLowerCase, random := random₁ } input).confidence =
        (processInput { toLowerCase := toLowerCase, random := random₂ } input).confidence ∧
      ((processInput { toLowerCase := toLowerCase, random := random₁ } input).flows.map
          SymbolEntry.shape).Perm
        ((processInput { toLowerCase := toLowerCase, random := random₂ } input).flows.map
          SymbolEntry.shape) := by
  have hperm := uniqueSymbols_shape_of_random toLowerCase random₁ random₂ input
  refine ⟨hperm, ?_, ?_, ?_⟩
  · rw [processInput_stats, processInput_stats]
    apply stats_eq_of_perm
    have := hperm.map (fun x : Option JSString × JSString × Option JSString × Source × Bool =>
      (x.1, x.2.2.1))
    simpa [List.map_map, Function.comp_def, SymbolEntry.shape] using this
  · show aggregateConfidence _ _ = aggregateConfidence _ _
    have hlen := hperm.length_eq
    simp only [List.length_map] at hlen
    simp only [aggregateConfidence, (detect_shape_of_random toLowerCase random₁ random₂ input).2,
      hlen]
  · rw [processInput_flows, processInput_flows, flows_shape, flows_shape]
    exact hperm.filter _

/-- C29. The catalog maps `dropdown` and `filter` to `🔽`, and `frontend` and
`server` to `🖥️`.  When both keywords of such a pair are among the cleaned
tokens of the input, the result holds exactly one entry with the shared icon:
the direct entry of the first token that is one of the two keywords, with that
keyword as meaning and its category in the catalog.  Any two other distinct
keywords of the catalog have distinct icons, and a keyword outside the two
pairs that is among the tokens has its own entry in the result, the only one
with its icon. -/
theorem shared_icon_keeps_first_keyword (H : Host) (input : JSString) :
    (∀ p ∈ sharedIconPairs,
        (symbolMapGet (utf16 p.1)).bind (fun d => d.symbol) = some (utf16 p.2.2) ∧
        (symbolMapGet (utf16 p.2.1)).bind (fun d => d.symbol) = some (utf16 p.2.2)) ∧
      (∀ p ∈ sharedIconPairs, utf16 p.1 ∈ tokens H input → utf16 p.2.1 ∈ tokens H input →
        ∃ e first d,
          (tokens H input).find?
            (fun t => decide (t = utf16 p.1) || decide (t = utf16 p.2.1)) = some first ∧
          symbolMapGet first = some d ∧
          (processInput H input).symbols.filter
            (fun s => decide (s.symbol = some (utf16 p.2.2))) = [e] ∧
          e.shape = (some (utf16 p.2.2), first, d.category, Source.direct, false)) ∧
      (∀ a ∈ symbolMap, ∀ b ∈ symbolMap, a.1 ≠ b.1 → utf16 a.2.1 = utf16 b.2.1 →
        (a.1, b.1, a.2.1) ∈ sharedIconPairs ∨ (b.1, a.1, a.2.1) ∈ sharedIconPairs) ∧
      (∀ k ∈ symbolMap, (∀ p ∈ sharedIconPairs, k.1 ≠ p.1 ∧ k.1 ≠ p.2.1) →
        utf16 k.1 ∈ tokens H input →
        ∃ e, (processInput H input).symbols.filter
            (fun s => decide (s.symbol = some (utf16 k.2.1))) = [e] ∧
          e.shape =
            (some (utf16 k.2.1), utf16 k.1, some (utf16 k.2.2.1), Source.direct, false)) := by
  refine ⟨by decide!, ?_, shared_icon_catalog, ?_⟩
  · intro p hp h1 _
    obtain ⟨hfwd, hex1, hex2⟩ := sharedIconPairs_keywords p hp
    have hpred : (fun t => (symbolMapGet t).any (fun d => decide (d.symbol = some (utf16 p.2.2)))) =
        (fun t => decide (t = utf16 p.1) || decide (t = utf16 p.2.1)) := by
      funext t
      rw [Bool.eq_iff_iff, symbolMapGet_icon_iff]
      simp only [Bool.or_eq_true, decide_eq_true_eq]
      constructor
      · rintro ⟨c, hc, hkey, hicon⟩
        rw [← hkey]
        exact hfwd c hc hicon
      · rintro (h | h)
        · rw [h]; exact hex1
        · rw [h]; exact hex2
    obtain ⟨first, hfirst⟩ : ∃ first, (tokens H input).find?
        (fun t => decide (t = utf16 p.1) || decide (t = utf16 p.2.1)) = some first := by
      rw [← Option.isSome_iff_exists, List.find?_isSome]
      exact ⟨utf16 p.1, h1, by simp⟩
    have hfirst' := hfirst
    rw [← hpred] at hfirst'
    obtain ⟨e, d, hd, hfilter, hshape⟩ := entry_of_first_token H input _ _ hfirst'
    exact ⟨e, first, d, hfirst, hd, hfilter, hshape⟩
  · intro k hk hother hmem
    have hpred : (fun t => (symbolMapGet t).any (fun d => decide (d.symbol = some (utf16 k.2.1)))) =
        (fun t => decide (t = utf16 k.1)) := by
      funext t
      rw [Bool.eq_iff_iff, symbolMapGet_icon_iff]
      simp only [decide_eq_true_eq]
      constructor
      · rintro ⟨c, hc, hkey, hicon⟩
        rw [← hkey]
        exact other_keywords_icon k hk hother c hc hicon
      · intro h
        exact ⟨k, hk, h.symm, rfl⟩
    have hfirst : (tokens H input).find? (fun t => decide (t = utf16 k.1)) = some (utf16 k.1) := by
      obtain ⟨first, hfirst⟩ : ∃ first, (tokens H input).find?
          (fun t => decide (t = utf16 k.1)) = some first := by
        rw [← Option.isSome_iff_exists, List.find?_isSome]
        exact ⟨utf16 k.1, hmem, by simp⟩
      have := List.find?_some hfirst
      simp only [decide_eq_true_eq] at this
      rw [hfirst, this]
    rw [← hpred] at hfirst
    obtain ⟨e, d, hd, hfilter, hshape⟩ := entry_of_first_token H input _ _ hfirst
    rw [symbolMapGet_keyword k hk] at hd
    have hdd : d = entryData k := (Option.some.inj hd).symm
    rw [hdd] at hshape
    exact ⟨e, hfilter, hshape⟩

theorem shared_icon_keeps_first_keyword_witness :
    ((processInput (asciiHost (fun _ => 0))
        (utf16 "Filter rows, then open the dropdown")).symbols.filter
          (fun s => decide (s.symbol = some (utf16 "🔽")))).map SymbolEntry.shape =
        [(some (utf16 "🔽"), utf16 "filter", some (utf16 "operation"), Source.direct, false)] ∧
      ((processInput (asciiHost (fun _ => 0))
        (utf16 "dropdown with a filter and a login button")).symbols.filter
          (fun s => decide (s.symbol = some (utf16 "🚪")))).map SymbolEntry.shape =
        [(some (utf16 "🚪"), utf16 "login", some (utf16 "security"), Source.direct, false)] := by
  constructor
  · obtain ⟨e, first, d, hfirst, hd, hfilter, hshape⟩ :=
      (shared_icon_keeps_first_keyword (asciiHost (fun _ => 0))
        (utf16 "Filter rows, then open the dropdown")).2.1
        ("dropdown", "filter", "🔽") (by decide) (by decide) (by decide)
    have hf : first = utf16 "filter" := by
      have : some first = some (utf16 "filter") := hfirst.symm.trans (by decide)
      exact Option.some.inj this
    subst hf
    have hdd : d.category = some (utf16 "operation") := by
      have : some d = some (entryData ("filter", "🔽", "operation", 0.6)) :=
        hd.symm.trans (by decide!)
      rw [Option.some.inj this]
      rfl
    rw [hfilter, List.map_singleton, hshape, hdd]
  · obtain ⟨e, hfilter, hshape⟩ :=
      (shared_icon_keeps_first_keyword (asciiHost (fun _ => 0))
        (utf16 "dropdown with a filter and a login button")).2.2.2
        ("login", "🚪", "security", 0.8) (by decide!) (by decide) (by decide)
    rw [hfilter, List.map_singleton, hshape]

/-- C30 at the failing identifiers.  On a new service, `getAgentStatus` of the
identifier `constructor`, which was never set, returns the member
`constructor` that `agents` inherits from `Object.prototype`, not the default
record.  The call `setStatus('__proto__', 'busy', 0.5)` on a new service
records nothing (the overall status stays `idle` and the overall confidence,
a minimum over no record, is `Infinity`) and changes what `getAgentStatus`
returns for another identifier, `status`: the default record before, the
string `busy` after. -/
theorem getAgentStatus_reads_prototype :
    AIStatusService.new.getAgentStatus (utf16 "constructor") =
        PropertyValue.builtin (utf16 "constructor") ∧
      AIStatusService.new.getAgentStatus (utf16 "constructor") ≠
        PropertyValue.record { status := utf16 "idle", confidence := ExtNum.fin 1.0 } ∧
      AIStatusService.new.getAgentStatus (utf16 "status") =
        PropertyValue.record { status := utf16 "idle", confidence := ExtNum.fin 1.0 } ∧
      (AIStatusService.new.setStatus (utf16 "__proto__") (utf16 "busy")
        (some (ExtNum.fin 0.5))).1.getAgentStatus (utf16 "status") =
        PropertyValue.string (utf16 "busy") ∧
      (AIStatusService.new.setStatus (utf16 "__proto__") (utf16 "busy")
        (some (ExtNum.fin 0.5))).1.status = utf16 "idle" ∧
      (AIStatusService.new.setStatus (utf16 "__proto__") (utf16 "busy")
        (some (ExtNum.fin 0.5))).1.confidence = ExtNum.posInf ∧
      (AIStatusService.new.setStatus (utf16 "__proto__") (utf16 "busy")
        (some (ExtNum.fin 0.5))).1.records = [] := by
  decide!

end Symbolect
